import Mathlib

/-!
# SHA-256 accelerator: device model and digest engine

A shallow embedding of `sha256_accelerator.c` (the QEMU device model of the
memory-mapped SHA-256 core) and of the driver `sha_driver.c`, together with a
bit-level statement of SHA-256 after FIPS 180-4, and the theorems relating
them.

Conventions of the embedding.

* Machine integers are natural numbers, reduced modulo `2 ^ 32` (or `2 ^ 8`,
  `2 ^ 64`) wherever the C type truncates.
* A C array is a `List Nat`; every array access of the source whose index is
  computed at run time is checked, and an access outside the array makes the
  whole computation `none`.  `none` therefore stands for "the execution leaves
  the behaviour defined by the C language".
* `malloc` is taken to succeed (the heap is not modelled).
* Whether the host type `char` is signed is a property of the platform the
  device model is compiled for; it is the parameter `signedChar` below.
-/

namespace SHA256Accel

/-! ## Register map and device constants (`#define`s of the source) -/

abbrev ID_REG : Nat := 0x0000
abbrev INIT_REG : Nat := 0x0004
abbrev CTRL_REG : Nat := 0x0008
abbrev STATUS_REG : Nat := 0x000C
abbrev INPUT_REG : Nat := 0x0010
abbrev OUTPUT_REG : Nat := 0x0410

abbrev deviceEN : Nat := 0x00000001
abbrev deviceRST : Nat := 0x00000000
abbrev DEVICE_ID : Nat := 0xFEEDCAFE
abbrev inputBufferSize : Nat := 1024
abbrev outputBufferSize : Nat := 32
abbrev CHUNK_SIZE : Nat := 64

/-! ## Loops -/

/-- The loop `for (i = 0; i < n; ++i) body(i)` over a state, where the body may
leave defined behaviour: iterations `0, 1, ..., n - 1` in this order. -/
def forLoop {σ : Type} (body : Nat → σ → Option σ) : Nat → σ → Option σ
  | 0, s => some s
  | n + 1, s => (forLoop body n s).bind (body n)

/-- The assignment `a[i] = v` to an array element; `none` when `i` is not an
index of `a`. -/
def store {α : Type} (a : List α) (i : Nat) (v : α) : Option (List α) :=
  if i < a.length then some (a.set i v) else none

/-! ## 32-bit word operations -/

/-- The macro `RIGHT_ROTATE(value, n)` on a `uint32_t` operand: both shifts are
32-bit operations, so the left shift drops the bits that leave the word. -/
def RIGHT_ROTATE (value n : Nat) : Nat :=
  (value >>> n) ||| ((value <<< (32 - n)) % 2 ^ 32)

/-- The operator `~` on a `uint32_t`. -/
def not32 (x : Nat) : Nat := 0xFFFFFFFF - x

/-- The table `k` of `compression`. -/
def k : List Nat :=
  [0x428A2F98, 0x71374491, 0xB5C0FBCF, 0xE9B5DBA5, 0x3956C25B,
   0x59F111F1, 0x923F82A4, 0xAB1C5ED5, 0xD807AA98, 0x12835B01,
   0x243185BE, 0x550C7DC3, 0x72BE5D74, 0x80DEB1FE, 0x9BDC06A7,
   0xC19BF174, 0xE49B69C1, 0xEFBE4786, 0x0FC19DC6, 0x240CA1CC,
   0x2DE92C6F, 0x4A7484AA, 0x5CB0A9DC, 0x76F988DA, 0x983E5152,
   0xA831C66D, 0xB00327C8, 0xBF597FC7, 0xC6E00BF3, 0xD5A79147,
   0x06CA6351, 0x14292967, 0x27B70A85, 0x2E1B2138, 0x4D2C6DFC,
   0x53380D13, 0x650A7354, 0x766A0ABB, 0x81C2C92E, 0x92722C85,
   0xA2BFE8A1, 0xA81A664B, 0xC24B8B70, 0xC76C51A3, 0xD192E819,
   0xD6990624, 0xF40E3585, 0x106AA070, 0x19A4C116, 0x1E376C08,
   0x2748774C, 0x34B0BCB5, 0x391C0CB3, 0x4ED8AA4A, 0x5B9CCA4F,
   0x682E6FF3, 0x748F82EE, 0x78A5636F, 0x84C87814, 0x8CC70208,
   0x90BEFFFA, 0xA4506CEB, 0xBEF9A3F7, 0xC67178F2]

/-- The eight working variables `a .. h` of `compression`. -/
structure Work where
  a : Nat
  b : Nat
  c : Nat
  d : Nat
  e : Nat
  f : Nat
  g : Nat
  h : Nat
  deriving DecidableEq

/-- One pass through the body of the round loop of `compression`, for round
constant `ki = k[i]` and schedule word `wi = w[i]`. -/
def compressionRound (ki wi : Nat) (v : Work) : Work :=
  let sumA := RIGHT_ROTATE v.e 6 ^^^ RIGHT_ROTATE v.e 11 ^^^ RIGHT_ROTATE v.e 25
  let choice := (v.e &&& v.f) ^^^ (not32 v.e &&& v.g)
  let temp1 := (v.h + sumA + choice + ki + wi) % 2 ^ 32
  let sumE := RIGHT_ROTATE v.a 2 ^^^ RIGHT_ROTATE v.a 13 ^^^ RIGHT_ROTATE v.a 22
  let majority := (v.a &&& v.b) ^^^ (v.a &&& v.c) ^^^ (v.b &&& v.c)
  let temp2 := (sumE + majority) % 2 ^ 32
  { h := v.g, g := v.f, f := v.e, e := (v.d + temp1) % 2 ^ 32,
    d := v.c, c := v.b, b := v.a, a := (temp1 + temp2) % 2 ^ 32 }

/-- The function `compression(hashVal, w)`: returns the updated `hashVal`. -/
def compression (hashVal w : List Nat) : Option (List Nat) := do
  let a ← hashVal[0]?
  let b ← hashVal[1]?
  let c ← hashVal[2]?
  let d ← hashVal[3]?
  let e ← hashVal[4]?
  let f ← hashVal[5]?
  let g ← hashVal[6]?
  let h ← hashVal[7]?
  let v ← forLoop (fun i v => do
      let ki ← k[i]?
      let wi ← w[i]?
      pure (compressionRound ki wi v)) 64 ⟨a, b, c, d, e, f, g, h⟩
  pure ((((((((hashVal.set 0 ((a + v.a) % 2 ^ 32)).set 1 ((b + v.b) % 2 ^ 32)).set 2
    ((c + v.c) % 2 ^ 32)).set 3 ((d + v.d) % 2 ^ 32)).set 4 ((e + v.e) % 2 ^ 32)).set 5
    ((f + v.f) % 2 ^ 32)).set 6 ((g + v.g) % 2 ^ 32)).set 7 ((h + v.h) % 2 ^ 32))

/-- The function `messageSchedule(chunkIndex, chunks, numChunks, w)`: returns
the array `w` after the call.  The second loop of the source runs `i` from 16
to 63; here `i = 16 + j` for `j = 0 .. 47`. -/
def messageSchedule (chunkIndex : Nat) (chunks : List (List Nat)) (numChunks : Nat)
    (w : List Nat) : Option (List Nat) := do
  let w ← forLoop (fun i w => do
      let chunk ← chunks[chunkIndex]?
      let b0 ← chunk[i * 4]?
      let b1 ← chunk[i * 4 + 1]?
      let b2 ← chunk[i * 4 + 2]?
      let b3 ← chunk[i * 4 + 3]?
      store w i (((b0 <<< 24) % 2 ^ 32) ||| ((b1 <<< 16) % 2 ^ 32) |||
        ((b2 <<< 8) % 2 ^ 32) ||| b3)) 16 w
  forLoop (fun j w => do
      let i := 16 + j
      let w15 ← w[i - 15]?
      let w2 ← w[i - 2]?
      let w16 ← w[i - 16]?
      let w7 ← w[i - 7]?
      let sigma0 := RIGHT_ROTATE w15 7 ^^^ RIGHT_ROTATE w15 18 ^^^ (w15 >>> 3)
      let sigma1 := RIGHT_ROTATE w2 17 ^^^ RIGHT_ROTATE w2 19 ^^^ (w2 >>> 10)
      store w i ((w16 + sigma0 + w7 + sigma1) % 2 ^ 32)) 48 w

/-! ## Strings and the message block -/

/-- The library function `strlen` on the array that `inputStr` points into: the
index of the first zero byte, and `none` when the array holds no zero byte (the
scan then reads past the end of the array). -/
def strlen : List Nat → Option Nat
  | [] => none
  | c :: cs => if c = 0 then some 0 else (strlen cs).map (· + 1)

/-- The value of a `char` holding the byte `c`, converted to `int`. -/
def charToInt (signedChar : Bool) (c : Nat) : Int :=
  if signedChar && decide (128 ≤ c) then (c : Int) - 256 else (c : Int)

/-- One pass through the body of the inner loop of `encodeMessageBlock`, for
the bit position `j` of the character `ascii`; the state is the message block
and the bit index `index`. -/
def encodeBit (ascii : Int) (j : Nat) (st : List Nat × Nat) : Option (List Nat × Nat) := do
  let binaryDigit : Int := Int.land (ascii >>> j) 1
  let old ← st.1[st.2 / 8]?
  let messageBlock ← store st.1 (st.2 / 8)
    ((old ||| (binaryDigit.toNat <<< (7 - st.2 % 8))) % 256)
  pure (messageBlock, st.2 + 1)

/-- The inner loop `for (j = 7; j >= 0; --j)` of `encodeMessageBlock`. -/
def encodeChar (ascii : Int) (st : List Nat × Nat) : Option (List Nat × Nat) :=
  [7, 6, 5, 4, 3, 2, 1, 0].foldlM (fun st j => encodeBit ascii j st) st

/-- The element of the message block after the inner loop of
`encodeMessageBlock` has or-ed the eight bits of `ascii` into `old`. -/
def packBits (ascii : Int) (old : Nat) : Nat :=
  ([7, 6, 5, 4, 3, 2, 1, 0] : List Nat).foldl
    (fun (v : Nat) (j : Nat) => (v ||| ((Int.land (ascii >>> j) 1).toNat <<< j)) % 256) old

/-- The outer loop `for (i = 0; inStr[i] != 0; ++i)` of `encodeMessageBlock`,
started at the character the list begins with; `none` when the scan runs off
the end of the array. -/
def encodeChars (signedChar : Bool) : List Nat → List Nat × Nat → Option (List Nat × Nat)
  | [], _ => none
  | c :: cs, st =>
    if c = 0 then some st
    else (encodeChar (charToInt signedChar c) st).bind (encodeChars signedChar cs)

/-- The function `encodeMessageBlock(inStr, messageBlock, inSize,
messageBlockSize)`: returns the message block after the call. -/
def encodeMessageBlock (signedChar : Bool) (inStr : List Nat) (messageBlock : List Nat)
    (inSize messageBlockSize : Nat) : Option (List Nat) := do
  let (messageBlock, index) ← encodeChars signedChar inStr (messageBlock, 0)
  let old ← messageBlock[index / 8]?
  let messageBlock ← store messageBlock (index / 8) ((old ||| (1 <<< (7 - index % 8))) % 256)
  let length := (inSize * 8) % 2 ^ 64
  if messageBlockSize < 8 then none
  else
    let lengthIndex := messageBlockSize - 8
    forLoop (fun i messageBlock =>
      store messageBlock (lengthIndex + i) ((length >>> ((7 - i) * 8)) &&& 0xFF)) 8 messageBlock

/-! ## The digest engine -/

/-- The initial contents of `hashVal`. -/
def hashInit : List Nat :=
  [0x6a09e667, 0xbb67ae85, 0x3c6ef372, 0xa54ff53a,
   0x510e527f, 0x9b05688c, 0x1f83d9ab, 0x5be0cd19]

/-- The loop of `perform_sha256_hashing` that copies the message block into
the chunks; the state is the chunk array and `chunkIndex`. -/
def fillChunks (messageBlock : List Nat) (messageBlockSize : Nat)
    (chunks : List (List Nat)) : Option (List (List Nat) × Nat) :=
  forLoop (fun i st => do
      let b ← messageBlock[i]?
      let chunk ← st.1[st.2]?
      let chunk ← store chunk (i % CHUNK_SIZE) b
      let chunks ← store st.1 st.2 chunk
      pure (chunks, if (i + 1) % CHUNK_SIZE = 0 then st.2 + 1 else st.2))
    messageBlockSize (chunks, 0)

/-- The loop of `perform_sha256_hashing` that writes the eight hash words into
the global array `digest`, most significant byte first. -/
def writeDigest (hashVal digest : List Nat) : Option (List Nat) :=
  forLoop (fun i digest => do
      let hv ← hashVal[i]?
      let digest ← store digest (i * 4) ((hv >>> 24) &&& 0xFF)
      let digest ← store digest (i * 4 + 1) ((hv >>> 16) &&& 0xFF)
      let digest ← store digest (i * 4 + 2) ((hv >>> 8) &&& 0xFF)
      store digest (i * 4 + 3) (hv &&& 0xFF)) 8 digest

/-- The function `perform_sha256_hashing(inputStr)`, `inputStr` pointing at the
first element of the array given as a list.  The result is the return value
together with the contents of the global array `digest` after the call.

The size computations of the source are carried out in `size_t` and `int`; the
model is `none` when they do not fit an `int`.  The array `w` is not
initialised in the source and `digest` holds whatever the last call left:
every element of either is written before it is read, and both start here
filled with zeros. -/
def perform_sha256_hashing (signedChar : Bool) (inputStr : List Nat) :
    Option (Nat × List Nat) := do
  let inStrSize ← strlen inputStr
  if 2 ^ 31 ≤ inStrSize * 8 + 72 + 511 then none
  else
    let messageBlockSize := inStrSize * 8 + 72 + 511
    let numBlocks := messageBlockSize / 512
    let messageBlockSize := numBlocks * 512 / 8
    let messageBlock := List.replicate messageBlockSize 0
    let messageBlock ←
      encodeMessageBlock signedChar inputStr messageBlock inStrSize messageBlockSize
    let numChunks := (messageBlockSize + CHUNK_SIZE - 1) / CHUNK_SIZE
    let chunks := List.replicate numChunks (List.replicate CHUNK_SIZE 0)
    let (chunks, _) ← fillChunks messageBlock messageBlockSize chunks
    let (hashVal, _) ← forLoop (fun chunkIndex st => do
        let w ← messageSchedule chunkIndex chunks numChunks st.2
        let hashVal ← compression st.1 w
        pure (hashVal, w)) numChunks (hashInit, List.replicate 64 0)
    let digest ← writeDigest hashVal (List.replicate outputBufferSize 0)
    pure (0, digest)

/-! ## The device -/

/-- The mutable fields of `struct SHA256DeviceState`.  `inputBuffer` is an
array of 1024 `char`, kept as the byte values `0 .. 255` of its elements;
`outputBuffer` is an array of 32 `uint8_t`; `control` and `status` are
`uint32_t`. -/
structure SHA256DeviceState where
  inputBuffer : List Nat
  outputBuffer : List Nat
  control : Nat
  status : Nat
  deriving DecidableEq

/-- The states the C type admits: the arrays have their declared sizes and
every field holds a value of its type. -/
def SHA256DeviceState.WF (s : SHA256DeviceState) : Prop :=
  s.inputBuffer.length = inputBufferSize ∧ s.outputBuffer.length = outputBufferSize ∧
  (∀ b ∈ s.inputBuffer, b < 256) ∧ (∀ b ∈ s.outputBuffer, b < 256) ∧
  s.control < 2 ^ 32 ∧ s.status < 2 ^ 32

instance (s : SHA256DeviceState) : Decidable s.WF := by
  unfold SHA256DeviceState.WF
  infer_instance

/-- The library function `memset(dst, c, n)` on an array of bytes. -/
def memset (dst : List Nat) (c n : Nat) : List Nat :=
  List.replicate n c ++ dst.drop n

/-- The library function `memcpy(dst, src, n)` on arrays of bytes. -/
def memcpy (dst src : List Nat) (n : Nat) : List Nat :=
  src.take n ++ dst.drop n

/-- The value of an `int` expression after wrapping to 32 bits in two's
complement. -/
def wrapInt (x : Int) : Int := (x + 2 ^ 31) % 2 ^ 32 - 2 ^ 31

/-- The conversion of an `int` to `uint64_t`. -/
def toUInt64 (x : Int) : Nat := (x % 2 ^ 64).toNat

/-- The sentinel returned for a read the device does not serve. -/
abbrev readError : Nat := 0xDEADBEEF

/-- The function `sha_device_read(opaque, addr, size)`: the value returned, a
`uint64_t`.  The elements of `inputBuffer` are `char`s and those of
`outputBuffer` are `uint8_t`s; both are promoted to `int` before the shifts
and the bitwise or, and the `int` result is converted to `uint64_t`. -/
def sha_device_read (signedChar : Bool) (s : SHA256DeviceState) (addr size : Nat) :
    Option Nat :=
  if addr = ID_REG then some DEVICE_ID
  else if addr = CTRL_REG then some s.control
  else if addr = STATUS_REG then some s.status
  else if INPUT_REG ≤ addr ∧ addr < INPUT_REG + inputBufferSize then
    let offset := addr - INPUT_REG
    if (offset + size) % 2 ^ 32 > inputBufferSize then some readError
    else
      match size with
      | 1 => do
        let c0 ← s.inputBuffer[offset]?
        pure (toUInt64 (charToInt signedChar c0))
      | 2 => do
        let c0 ← s.inputBuffer[offset]?
        let c1 ← s.inputBuffer[offset + 1]?
        pure (toUInt64 (Int.lor (charToInt signedChar c0)
          (wrapInt (charToInt signedChar c1 * 2 ^ 8))))
      | 4 => do
        let c0 ← s.inputBuffer[offset]?
        let c1 ← s.inputBuffer[offset + 1]?
        let c2 ← s.inputBuffer[offset + 2]?
        let c3 ← s.inputBuffer[offset + 3]?
        pure (toUInt64 (Int.lor (Int.lor (Int.lor (charToInt signedChar c0)
          (wrapInt (charToInt signedChar c1 * 2 ^ 8)))
          (wrapInt (charToInt signedChar c2 * 2 ^ 16)))
          (wrapInt (charToInt signedChar c3 * 2 ^ 24))))
      | _ => some readError
  else if OUTPUT_REG ≤ addr ∧ addr < OUTPUT_REG + outputBufferSize then
    let offset := addr - OUTPUT_REG
    if (offset + size) % 2 ^ 32 > outputBufferSize then some readError
    else
      match size with
      | 1 => do
        let b0 ← s.outputBuffer[offset]?
        pure (toUInt64 (b0 : Int))
      | 2 => do
        let b0 ← s.outputBuffer[offset]?
        let b1 ← s.outputBuffer[offset + 1]?
        pure (toUInt64 (Int.lor (b0 : Int) (wrapInt ((b1 : Int) * 2 ^ 8))))
      | 4 => do
        let b0 ← s.outputBuffer[offset]?
        let b1 ← s.outputBuffer[offset + 1]?
        let b2 ← s.outputBuffer[offset + 2]?
        let b3 ← s.outputBuffer[offset + 3]?
        pure (toUInt64 (Int.lor (Int.lor (Int.lor (b0 : Int)
          (wrapInt ((b1 : Int) * 2 ^ 8)))
          (wrapInt ((b2 : Int) * 2 ^ 16)))
          (wrapInt ((b3 : Int) * 2 ^ 24))))
      | _ => some readError
  else some readError

/-- The function `sha_device_write(opaque, addr, data, size)`: the device state
after the call, `data` being a `uint64_t`.  The return value of
`perform_sha256_hashing` is not looked at by the source. -/
def sha_device_write (signedChar : Bool) (s : SHA256DeviceState) (addr data size : Nat) :
    Option SHA256DeviceState :=
  if addr = CTRL_REG then
    let s := { s with control := data % 2 ^ 32 }
    if data = deviceEN then do
      let r ← perform_sha256_hashing signedChar s.inputBuffer
      pure { s with outputBuffer := memcpy s.outputBuffer r.2 outputBufferSize, status := 1 }
    else if data = deviceRST then
      some { s with status := 0,
                    inputBuffer := memset s.inputBuffer 0 inputBufferSize,
                    outputBuffer := memset s.outputBuffer 0 outputBufferSize }
    else some s
  else if INPUT_REG ≤ addr ∧ addr < INPUT_REG + inputBufferSize then do
    let offset := addr - INPUT_REG
    let inputBuffer ← store s.inputBuffer offset (data % 256)
    pure { s with inputBuffer := inputBuffer }
  else some s

/-- The device state `sha_instance_init` leaves the object in. -/
def sha_instance_init : SHA256DeviceState :=
  { status := 0, control := 0,
    inputBuffer := List.replicate inputBufferSize 0,
    outputBuffer := List.replicate outputBufferSize 0 }

/-- A sequence of one-byte writes of the bytes of `bs` to the consecutive
addresses `addr, addr + 1, ...`, in this order. -/
def writeBytes (signedChar : Bool) :
    List Nat → Nat → SHA256DeviceState → Option SHA256DeviceState
  | [], _, s => some s
  | b :: bs, addr, s =>
    (sha_device_write signedChar s addr b 1).bind (writeBytes signedChar bs (addr + 1))

end SHA256Accel

/-! ## SHA-256 after FIPS 180-4

The definitions of this namespace follow the text of the specification
(section 4.1, "Digest Engine"), not the source: the message is a sequence of
bits, padding and parsing are stated on bits, and the rotation is the
arithmetic rotation of a 32-bit word.  A message given as bytes is read most
significant bit first. -/

namespace FIPS

open SHA256Accel (Work)

/-- Addition modulo `2 ^ 32`. -/
def add32 (x y : Nat) : Nat := (x + y) % 2 ^ 32

/-- Right rotation `ROTR(x, n)` of the 32-bit word `x` by `n` bits: the low
`n` bits of `x` become the high `n` bits of the result. -/
def ROTR (x n : Nat) : Nat := x / 2 ^ n + x % 2 ^ n * 2 ^ (32 - n)

/-- Right shift `SHR(x, n)`. -/
def SHR (x n : Nat) : Nat := x / 2 ^ n

/-- The 32-bit complement of a word. -/
def compl32 (x : Nat) : Nat := 2 ^ 32 - 1 - x

def Ch (x y z : Nat) : Nat := (x &&& y) ^^^ (compl32 x &&& z)

def Maj (x y z : Nat) : Nat := (x &&& y) ^^^ (x &&& z) ^^^ (y &&& z)

def bigSigma0 (x : Nat) : Nat := ROTR x 2 ^^^ ROTR x 13 ^^^ ROTR x 22

def bigSigma1 (x : Nat) : Nat := ROTR x 6 ^^^ ROTR x 11 ^^^ ROTR x 25

def smallSigma0 (x : Nat) : Nat := ROTR x 7 ^^^ ROTR x 18 ^^^ SHR x 3

def smallSigma1 (x : Nat) : Nat := ROTR x 17 ^^^ ROTR x 19 ^^^ SHR x 10

/-- The initial hash value, as listed in the specification. -/
def H0 : List Nat :=
  [0x6a09e667, 0xbb67ae85, 0x3c6ef372, 0xa54ff53a,
   0x510e527f, 0x9b05688c, 0x1f83d9ab, 0x5be0cd19]

/-- The first 64 primes. -/
def primes : List Nat :=
  [2, 3, 5, 7, 11, 13, 17, 19, 23, 29, 31, 37, 41, 43, 47, 53,
   59, 61, 67, 71, 73, 79, 83, 89, 97, 101, 103, 107, 109, 113, 127, 131,
   137, 139, 149, 151, 157, 163, 167, 173, 179, 181, 191, 193, 197, 199, 211, 223,
   227, 229, 233, 239, 241, 251, 257, 263, 269, 271, 277, 281, 283, 293, 307, 311]

/-- The integer cube root of `n`, found one binary digit at a time among the
numbers below `2 ^ bits`. -/
def cubeRoot (n : Nat) : Nat → Nat
  | 0 => 0
  | bits + 1 =>
    let r := cubeRoot (n / 8) bits
    if (2 * r + 1) ^ 3 ≤ n then 2 * r + 1 else 2 * r

/-- The round constants: the first 32 bits of the fractional parts of the cube
roots of the first 64 primes. -/
def K : List Nat := primes.map fun p => cubeRoot (p * 2 ^ 96) 35 % 2 ^ 32

/-- The bits of a byte, most significant first. -/
def byteBits (b : Nat) : List Bool :=
  [b.testBit 7, b.testBit 6, b.testBit 5, b.testBit 4,
   b.testBit 3, b.testBit 2, b.testBit 1, b.testBit 0]

/-- The bits of a message given as bytes. -/
def messageBits (m : List Nat) : List Bool := m.flatMap byteBits

/-- The `width`-bit big-endian encoding of `n`. -/
def bigEndian : Nat → Nat → List Bool
  | 0, _ => []
  | width + 1, n => n.testBit width :: bigEndian width n

/-- The number of zero bits of the padding of a message of `L` bits. -/
def zeroBits (L : Nat) : Nat := (448 + 512 - (L + 1) % 512) % 512

/-- Padding: the message, a single `1` bit, the zero bits, and the length of
the message as a 64-bit big-endian integer. -/
def pad (M : List Bool) : List Bool :=
  M ++ [true] ++ List.replicate (zeroBits M.length) false ++ bigEndian 64 M.length

/-- The first `count` consecutive pieces of `size` elements of a list. -/
def pieces {α : Type} (size : Nat) : Nat → List α → List (List α)
  | 0, _ => []
  | count + 1, l => l.take size :: pieces size count (l.drop size)

/-- The number a sequence of bits denotes, most significant bit first. -/
def toWord (bits : List Bool) : Nat := bits.foldl (fun acc b => 2 * acc + b.toNat) 0

/-- Parsing: the 512-bit blocks of a padded message, each as sixteen 32-bit
big-endian words. -/
def parse (bits : List Bool) : List (List Nat) :=
  (pieces 512 (bits.length / 512) bits).map fun block => (pieces 32 16 block).map toWord

/-- The next word of the message schedule, from the words before it:
`W i = W (i - 16) + smallSigma0 (W (i - 15)) + W (i - 7) + smallSigma1 (W (i - 2))`. -/
def nextWord (W : List Nat) : Nat :=
  let i := W.length
  add32 (add32 (add32 (W.getD (i - 16) 0) (smallSigma0 (W.getD (i - 15) 0)))
    (W.getD (i - 7) 0)) (smallSigma1 (W.getD (i - 2) 0))

/-- The message schedule after `n` more words. -/
def expand (block : List Nat) : Nat → List Nat
  | 0 => block
  | n + 1 => expand block n ++ [nextWord (expand block n)]

/-- The 64 words of the message schedule of a block of sixteen words. -/
def schedule (block : List Nat) : List Nat := expand block 48

/-- One round of the compression, with round constant `Kt` and schedule word
`Wt`. -/
def round (Kt Wt : Nat) (v : Work) : Work :=
  let T1 := add32 (add32 (add32 (add32 v.h (bigSigma1 v.e)) (Ch v.e v.f v.g)) Kt) Wt
  let T2 := add32 (bigSigma0 v.a) (Maj v.a v.b v.c)
  { a := add32 T1 T2, b := v.a, c := v.b, d := v.c,
    e := add32 v.d T1, f := v.e, g := v.f, h := v.g }

/-- The working variables after the rounds `0 .. t - 1`. -/
def rounds (W : List Nat) : Nat → Work → Work
  | 0, v => v
  | t + 1, v => round (K.getD t 0) (W.getD t 0) (rounds W t v)

/-- The hash state after one block: the 64 rounds are run from the current
state and the working variables are added back into it. -/
def compress (H : List Nat) (block : List Nat) : List Nat :=
  let v := rounds (schedule block) 64
    ⟨H.getD 0 0, H.getD 1 0, H.getD 2 0, H.getD 3 0, H.getD 4 0, H.getD 5 0, H.getD 6 0,
      H.getD 7 0⟩
  [add32 (H.getD 0 0) v.a, add32 (H.getD 1 0) v.b, add32 (H.getD 2 0) v.c,
   add32 (H.getD 3 0) v.d, add32 (H.getD 4 0) v.e, add32 (H.getD 5 0) v.f,
   add32 (H.getD 6 0) v.g, add32 (H.getD 7 0) v.h]

/-- The effective input of the device: the prefix of the input window before
its first zero byte. -/
def effectiveInput (window : List Nat) : List Nat := window.takeWhile fun b => b != 0

/-- The four bytes of a 32-bit word, most significant first. -/
def wordBytes (w : Nat) : List Nat :=
  [w / 2 ^ 24 % 256, w / 2 ^ 16 % 256, w / 2 ^ 8 % 256, w % 256]

/-- The final hash state of a message of bits. -/
def hashBits (M : List Bool) : List Nat := (parse (pad M)).foldl compress H0

/-- SHA-256 of a message of bytes: the 32 bytes of the digest. -/
def sha256 (m : List Nat) : List Nat := (hashBits (messageBits m)).flatMap wordBytes

end FIPS

/-! ## Auxiliary definitions for the proofs -/

namespace SHA256Accel

/-- The eight bytes `encodeMessageBlock` stores for the 64-bit length. -/
def lengthBytes (length : Nat) : List Nat :=
  [(length >>> 56) &&& 0xFF, (length >>> 48) &&& 0xFF, (length >>> 40) &&& 0xFF,
   (length >>> 32) &&& 0xFF, (length >>> 24) &&& 0xFF, (length >>> 16) &&& 0xFF,
   (length >>> 8) &&& 0xFF, length &&& 0xFF]

/-- The message block `perform_sha256_hashing` builds for the message `m` when
the block has `size` bytes. -/
def paddedBytes (m : List Nat) (size : Nat) : List Nat :=
  m ++ 128 :: List.replicate (size - m.length - 9) 0 ++ lengthBytes ((m.length * 8) % 2 ^ 64)

/-- The sixteen words of a 64-byte chunk, each read from four bytes most
significant bit first. -/
def chunkWords (chunk : List Nat) : List Nat :=
  (FIPS.pieces 4 16 chunk).map fun q => FIPS.toWord (q.flatMap FIPS.byteBits)

/-- Every working variable is a 32-bit word. -/
def Work.Bounded (v : Work) : Prop :=
  v.a < 2 ^ 32 ∧ v.b < 2 ^ 32 ∧ v.c < 2 ^ 32 ∧ v.d < 2 ^ 32 ∧
  v.e < 2 ^ 32 ∧ v.f < 2 ^ 32 ∧ v.g < 2 ^ 32 ∧ v.h < 2 ^ 32

/-- A device state whose input window holds `abc`, one zero byte, `z`, and
zero bytes up to the end of the window. -/
def sampleState : SHA256DeviceState :=
  { inputBuffer := [0x61, 0x62, 0x63, 0, 0x7A] ++ List.replicate 1019 0,
    outputBuffer := List.replicate 32 0xFF, control := 7, status := 0 }

/-- A second device state whose input window starts with `abc` and a zero
byte, and differs from `sampleState` after them. -/
def sampleState2 : SHA256DeviceState :=
  { inputBuffer := [0x61, 0x62, 0x63, 0] ++ List.replicate 1020 0x55,
    outputBuffer := List.replicate 32 0, control := 0, status := 1 }

/-- The device state whose input window holds 1024 bytes `a` and no zero
byte. -/
def fullState : SHA256DeviceState :=
  { inputBuffer := List.replicate 1024 0x61,
    outputBuffer := List.replicate 32 0, control := 0, status := 0 }

/-! ## Sequences of writes, and the driver (`sha_driver.c`) -/

/-- A sequence of `sha_device_write` calls, each given by its address, data and
size, applied in order. -/
def runWrites (signedChar : Bool) :
    List (Nat × Nat × Nat) → SHA256DeviceState → Option SHA256DeviceState
  | [], s => some s
  | (addr, data, size) :: ops, s =>
    (sha_device_write signedChar s addr data size).bind (runWrites signedChar ops)

/-- The request code the kernel macro `_IOR(type, nr, int)` builds: direction
`read` (2) in bits 30 and 31, the size of an `int` in bits 16 to 29, the type
in bits 8 to 15 and the number in bits 0 to 7. -/
def _IOR (type nr : Nat) : Nat := (2 <<< 30) ||| (4 <<< 16) ||| (type <<< 8) ||| nr

/-- The request code the kernel macro `_IOW(type, nr, int)` builds: as `_IOR`,
with direction `write` (1). -/
def _IOW (type nr : Nat) : Nat := (1 <<< 30) ||| (4 <<< 16) ||| (type <<< 8) ||| nr

/-- The character `k`. -/
abbrev SHA256_IOC_MAGIC : Nat := 0x6B

abbrev SHA256_IOC_GET_ID : Nat := _IOR SHA256_IOC_MAGIC 0
abbrev SHA256_IOC_GET_STATUS : Nat := _IOR SHA256_IOC_MAGIC 1
abbrev SHA256_IOC_START_HASH : Nat := _IOW SHA256_IOC_MAGIC 2
abbrev SHA256_IOC_RESET : Nat := _IOW SHA256_IOC_MAGIC 3

/-- The error numbers of the kernel that the driver returns. -/
abbrev EFAULT : Int := 14
abbrev ENOTTY : Int := 25

/-- The kernel accessor `ioread32` on the register block of the device: one
bus read of four bytes, served by `sha_device_read` with the offset of the
register and size 4; the bus hands the low 32 bits of the result to the
driver. -/
def ioread32 (signedChar : Bool) (dev : SHA256DeviceState) (addr : Nat) : Option Nat :=
  (sha_device_read signedChar dev addr 4).map fun v => v % 2 ^ 32

/-- The kernel accessor `iowrite32` on the register block of the device: one
bus write of four bytes, served by `sha_device_write` with size 4. -/
def iowrite32 (signedChar : Bool) (dev : SHA256DeviceState) (value addr : Nat) :
    Option SHA256DeviceState :=
  sha_device_write signedChar dev addr (value % 2 ^ 32) 4

/-- What a call of `sha256_ioctl` leaves behind: the value returned, the state
of the device, and the 32-bit value stored through the pointer `arg`, if one
was stored. -/
structure IoctlResult where
  ret : Int
  dev : SHA256DeviceState
  out : Option Nat
  deriving DecidableEq

/-- The function `sha256_ioctl(filep, cmd, arg)` on the device `dev`.  The
user pointer `arg` is accessible or not (`argOk`): `copy_to_user` stores the
value and returns 0 in the first case, and returns nonzero in the second. -/
def sha256_ioctl (signedChar : Bool) (dev : SHA256DeviceState) (cmd : Nat) (argOk : Bool) :
    Option IoctlResult :=
  if cmd = SHA256_IOC_GET_ID then do
    let id ← ioread32 signedChar dev ID_REG
    if argOk then pure { ret := 0, dev := dev, out := some id }
    else pure { ret := -EFAULT, dev := dev, out := none }
  else if cmd = SHA256_IOC_GET_STATUS then do
    let status ← ioread32 signedChar dev STATUS_REG
    if argOk then pure { ret := 0, dev := dev, out := some status }
    else pure { ret := -EFAULT, dev := dev, out := none }
  else if cmd = SHA256_IOC_START_HASH then do
    let dev ← iowrite32 signedChar dev deviceEN CTRL_REG
    pure { ret := 0, dev := dev, out := none }
  else if cmd = SHA256_IOC_RESET then do
    let dev ← iowrite32 signedChar dev 0 CTRL_REG
    pure { ret := 0, dev := dev, out := none }
  else some { ret := -ENOTTY, dev := dev, out := none }

/-! ## Further sample inputs -/

/-- The 56 bytes of the message
`abcdbcdecdefdefgefghfghighijhijkijkljklmklmnlmnomnopnopq`. -/
def message56 : List Nat :=
  [0x61, 0x62, 0x63, 0x64, 0x62, 0x63, 0x64, 0x65, 0x63, 0x64, 0x65, 0x66, 0x64, 0x65, 0x66,
   0x67, 0x65, 0x66, 0x67, 0x68, 0x66, 0x67, 0x68, 0x69, 0x67, 0x68, 0x69, 0x6a, 0x68, 0x69,
   0x6a, 0x6b, 0x69, 0x6a, 0x6b, 0x6c, 0x6a, 0x6b, 0x6c, 0x6d, 0x6b, 0x6c, 0x6d, 0x6e, 0x6c,
   0x6d, 0x6e, 0x6f, 0x6d, 0x6e, 0x6f, 0x70, 0x6e, 0x6f, 0x70, 0x71]

/-- A device state whose input window starts with the bytes 0x80, 0x01, 0x02
and 0x83 and is zero after them. -/
def highByteState : SHA256DeviceState :=
  { inputBuffer := [0x80, 0x01, 0x02, 0x83] ++ List.replicate 1020 0,
    outputBuffer := List.replicate 32 0, control := 0, status := 0 }

/-- The device state after a hash of the empty message was started on the
freshly initialised device. -/
def digestState : SHA256DeviceState :=
  { inputBuffer := List.replicate 1024 0,
    outputBuffer :=
      [0xe3, 0xb0, 0xc4, 0x42, 0x98, 0xfc, 0x1c, 0x14, 0x9a, 0xfb, 0xf4, 0xc8, 0x99, 0x6f,
       0xb9, 0x24, 0x27, 0xae, 0x41, 0xe4, 0x64, 0x9b, 0x93, 0x4c, 0xa4, 0x95, 0x99, 0x1b,
       0x78, 0x52, 0xb8, 0x55],
    control := 1, status := 1 }

/-! ## The driver: `sha256_read` and `sha256_write`

The two functions reach the device only through the kernel accessors
`ioread8` and `iowrite8`; the accessors are parameters of the model, over an
arbitrary state of the bus.  A user buffer is the list of the bytes that can
be accessed from the pointer on: `copy_from_user` and `copy_to_user` fail at
an index past its end.  The counts and the position `*ppos` are natural
numbers: the kernel calls the two functions with a position that is not
negative and with a count for which `*ppos + count` fits the type `loff_t`,
and both functions clip the count before they add it. -/

/-- What a call of `sha256_write` leaves behind: the value returned, the state
of the bus and the position `*ppos`. -/
structure WriteResult (σ : Type) where
  ret : Int
  bus : σ
  pos : Nat

/-- The loop of `sha256_write`, with `n` passes left, at index `i`.  The
result is the state of the bus and whether the loop was left by the
`return -EFAULT` after a failed `copy_from_user`. -/
def sha256_write_loop {σ : Type} (iowrite8 : σ → Nat → Nat → Option σ) (buf : List Nat)
    (ppos : Nat) : Nat → Nat → σ → Option (σ × Bool)
  | 0, _, bus => some (bus, false)
  | n + 1, i, bus =>
    match buf[i]? with
    | none => some (bus, true)
    | some input_buf =>
      (iowrite8 bus (input_buf % 256) (INPUT_REG + ppos + i)).bind
        (sha256_write_loop iowrite8 buf ppos n (i + 1))

/-- The function `sha256_write(filep, buf, count, ppos)`; `iowrite8 bus value
addr` is the accessor, `addr` counted from `dev->regs`. -/
def sha256_write {σ : Type} (iowrite8 : σ → Nat → Nat → Option σ) (bus : σ) (buf : List Nat)
    (count ppos : Nat) : Option (WriteResult σ) := do
  let count := if count > inputBufferSize then inputBufferSize else count
  let r ← sha256_write_loop iowrite8 buf ppos count 0 bus
  if r.2 then pure { ret := -EFAULT, bus := r.1, pos := ppos }
  else pure { ret := (count : Int), bus := r.1, pos := ppos + count }

/-- What a call of `sha256_read` leaves behind: the value returned, the state
of the bus, the position `*ppos` and the user buffer. -/
structure ReadResult (σ : Type) where
  ret : Int
  bus : σ
  pos : Nat
  buf : List Nat

/-- The loop of `sha256_read`, with `n` passes left, at index `i`; the state
is the bus and the user buffer.  The result also tells whether the loop was
left by the `return -EFAULT` after a failed `copy_to_user`. -/
def sha256_read_loop {σ : Type} (ioread8 : σ → Nat → Option (Nat × σ)) (ppos : Nat) :
    Nat → Nat → σ × List Nat → Option ((σ × List Nat) × Bool)
  | 0, _, st => some (st, false)
  | n + 1, i, st =>
    (ioread8 st.1 (OUTPUT_REG + ppos + i)).bind fun r =>
      let output_buf := r.1 % 256
      if i < st.2.length then
        sha256_read_loop ioread8 ppos n (i + 1) (r.2, st.2.set i output_buf)
      else some ((r.2, st.2), true)

/-- The function `sha256_read(filep, buf, count, ppos)`; `ioread8 bus addr` is
the accessor, `addr` counted from `dev->regs`.  The position the caller
passes is overwritten with 0 before it is used. -/
def sha256_read {σ : Type} (ioread8 : σ → Nat → Option (Nat × σ)) (bus : σ) (buf : List Nat)
    (count ppos : Nat) : Option (ReadResult σ) := do
  let ppos := 0
  let count := if count > outputBufferSize then outputBufferSize else count
  let r ← sha256_read_loop ioread8 ppos count 0 (bus, buf)
  if r.2 then pure { ret := -EFAULT, bus := r.1.1, pos := ppos, buf := r.1.2 }
  else pure { ret := (count : Int), bus := r.1.1, pos := ppos + count, buf := r.1.2 }

/-- The size of the register block of the device, the last argument of
`memory_region_init_io` in `sha_instance_init`. -/
abbrev regionSize : Nat := 0x1000

/-- The kernel accessor `ioread8` on the register block of the device: one
bus read of one byte, served by `sha_device_read` with size 1; the bus hands
the low 8 bits of the result to the driver.  An address outside the register
block does not reach the device, and nothing is known of the access. -/
def ioread8 (signedChar : Bool) (dev : SHA256DeviceState) (addr : Nat) :
    Option (Nat × SHA256DeviceState) :=
  if addr < regionSize then
    (sha_device_read signedChar dev addr 1).map fun v => (v % 2 ^ 8, dev)
  else none

/-- The kernel accessor `iowrite8` on the register block of the device: one
bus write of one byte, served by `sha_device_write` with size 1. -/
def iowrite8 (signedChar : Bool) (dev : SHA256DeviceState) (value addr : Nat) :
    Option SHA256DeviceState :=
  if addr < regionSize then sha_device_write signedChar dev addr (value % 2 ^ 8) 1
  else none

/-- A bus that serves every one-byte write and keeps the list of the writes
it served, each as the address and the value. -/
def logWrite8 (log : List (Nat × Nat)) (value addr : Nat) : Option (List (Nat × Nat)) :=
  some (log ++ [(addr, value)])

/-- A bus that serves every one-byte read with the value `mem addr` and keeps
the list of the addresses read. -/
def logRead8 (mem : Nat → Nat) (log : List Nat) (addr : Nat) : Option (Nat × List Nat) :=
  some (mem addr, log ++ [addr])

/-! ## Sample inputs for the driver and for sequences of writes -/

/-- The device state after the byte `x` was written to the freshly initialised
device and a hash was started. -/
def hashedState : SHA256DeviceState :=
  { inputBuffer := 0x78 :: List.replicate 1023 0, outputBuffer := FIPS.sha256 [0x78],
    control := 1, status := 1 }

/-- A sequence of writes: a byte of the input window, a start-hash, a reset,
a write of size 4 into the input window and a write outside every register. -/
def sampleWrites : List (Nat × Nat × Nat) :=
  [(INPUT_REG, 0x161, 1), (CTRL_REG, 1, 4), (CTRL_REG, 0, 4), (INPUT_REG + 1, 0x62, 4),
   (0x2000, 5, 8)]

/-- The device state after the writes of `sampleWrites`. -/
def sampleReached : SHA256DeviceState :=
  { inputBuffer := [0, 0x62] ++ List.replicate 1022 0,
    outputBuffer := List.replicate 32 0, control := 0, status := 0 }

/-! ## The device object in memory

`strlen` and the loop of `encodeMessageBlock` stop at the first zero byte they
meet from `inputBuffer[0]` on.  The C language defines the scan as long as it
stays inside the array, and `sha_device_write` above is `none` once it does
not.  In the object `struct SHA256DeviceState` the array `inputBuffer` is
followed by `outputBuffer`, `control` and `status`, in this order and with no
padding (the two arrays have alignment 1 and hold 1056 bytes together), and
the scan of the compiled device goes on through these fields.  The
definitions below follow the scan there: the string the digest engine is
given is the object from `inputBuffer` on.  The order of the bytes of a
`uint32_t` in memory is a property of the host, the parameter
`hostBigEndian`. -/

/-- The four bytes of a `uint32_t` as they lie in memory. -/
def uint32Bytes (hostBigEndian : Bool) (x : Nat) : List Nat :=
  if hostBigEndian then [x / 2 ^ 24 % 256, x / 2 ^ 16 % 256, x / 2 ^ 8 % 256, x % 256]
  else [x % 256, x / 2 ^ 8 % 256, x / 2 ^ 16 % 256, x / 2 ^ 24 % 256]

/-- The bytes of the object `struct SHA256DeviceState` from `inputBuffer` on:
the fields `inputBuffer`, `outputBuffer`, `control` and `status` in the order
of their declaration. -/
def objectBytes (hostBigEndian : Bool) (s : SHA256DeviceState) : List Nat :=
  s.inputBuffer ++ s.outputBuffer ++ uint32Bytes hostBigEndian s.control ++
    uint32Bytes hostBigEndian s.status

/-- The function `sha_device_write(opaque, addr, data, size)` on the object as
it lies in memory: as `sha_device_write`, but the string
`perform_sha256_hashing` is given runs from `inputBuffer[0]` through the
fields that follow the array.  `control` holds `data` when the scan starts:
`s->control = data` is the first statement of the case. -/
def sha_device_write_layout (signedChar hostBigEndian : Bool) (s : SHA256DeviceState)
    (addr data size : Nat) : Option SHA256DeviceState :=
  if addr = CTRL_REG then
    let s := { s with control := data % 2 ^ 32 }
    if data = deviceEN then do
      let r ← perform_sha256_hashing signedChar (objectBytes hostBigEndian s)
      pure { s with outputBuffer := memcpy s.outputBuffer r.2 outputBufferSize, status := 1 }
    else if data = deviceRST then
      some { s with status := 0,
                    inputBuffer := memset s.inputBuffer 0 inputBufferSize,
                    outputBuffer := memset s.outputBuffer 0 outputBufferSize }
    else some s
  else if INPUT_REG ≤ addr ∧ addr < INPUT_REG + inputBufferSize then do
    let offset := addr - INPUT_REG
    let inputBuffer ← store s.inputBuffer offset (data % 256)
    pure { s with inputBuffer := inputBuffer }
  else some s

/-! ## The control function of the driver on a bus

The function `sha256_ioctl` reaches the device only through `ioread32` and
`iowrite32`.  Here the two accessors are parameters, over an arbitrary state
of the bus, as they are for `sha256_read` and `sha256_write`. -/

/-- One access of four bytes to the register block, as a bus sees it. -/
inductive Access where
  | read (addr : Nat)
  | write (addr value : Nat)
  deriving DecidableEq

/-- What a call of `sha256_ioctl` leaves behind on a bus: the value returned,
the state of the bus, and the 32-bit value stored through the pointer `arg`,
if one was stored. -/
structure ControlResult (σ : Type) where
  ret : Int
  bus : σ
  out : Option Nat

/-- The function `sha256_ioctl(filep, cmd, arg)` over the accessors
`rd bus addr` for `ioread32` and `wr bus value addr` for `iowrite32`, `addr`
counted from `dev->regs`.  The user pointer `arg` is accessible or not
(`argOk`), as in `sha256_ioctl` above. -/
def sha256_ioctl_bus {σ : Type} (rd : σ → Nat → Option (Nat × σ))
    (wr : σ → Nat → Nat → Option σ) (bus : σ) (cmd : Nat) (argOk : Bool) :
    Option (ControlResult σ) :=
  if cmd = SHA256_IOC_GET_ID then do
    let r ← rd bus ID_REG
    let id := r.1 % 2 ^ 32
    if argOk then pure { ret := 0, bus := r.2, out := some id }
    else pure { ret := -EFAULT, bus := r.2, out := none }
  else if cmd = SHA256_IOC_GET_STATUS then do
    let r ← rd bus STATUS_REG
    let status := r.1 % 2 ^ 32
    if argOk then pure { ret := 0, bus := r.2, out := some status }
    else pure { ret := -EFAULT, bus := r.2, out := none }
  else if cmd = SHA256_IOC_START_HASH then do
    let bus ← wr bus deviceEN CTRL_REG
    pure { ret := 0, bus := bus, out := none }
  else if cmd = SHA256_IOC_RESET then do
    let bus ← wr bus 0 CTRL_REG
    pure { ret := 0, bus := bus, out := none }
  else some { ret := -ENOTTY, bus := bus, out := none }

/-- A bus that serves every read of four bytes with the value `mem addr` and
keeps the list of the accesses it served. -/
def logRead32 (mem : Nat → Nat) (log : List Access) (addr : Nat) :
    Option (Nat × List Access) :=
  some (mem addr, log ++ [Access.read addr])

/-- A bus that serves every write of four bytes and keeps the list of the
accesses it served. -/
def logWrite32 (log : List Access) (value addr : Nat) : Option (List Access) :=
  some (log ++ [Access.write addr value])

/-- The accessor `ioread32` on the device, in the form a bus has: the value
`ioread32` above delivers, and the device, which a read leaves as it is. -/
def deviceRead32 (signedChar : Bool) (dev : SHA256DeviceState) (addr : Nat) :
    Option (Nat × SHA256DeviceState) :=
  (ioread32 signedChar dev addr).map fun v => (v, dev)

/-- The accessor `iowrite32` on the device object as it lies in memory: one
bus write of four bytes, served by `sha_device_write_layout` with size 4. -/
def deviceWrite32 (signedChar hostBigEndian : Bool) (dev : SHA256DeviceState)
    (value addr : Nat) : Option SHA256DeviceState :=
  sha_device_write_layout signedChar hostBigEndian dev addr (value % 2 ^ 32) 4

end SHA256Accel

/-! ## Lemmas -/

namespace SHA256Accel

open FIPS

/-! ### Loops, stores and the scan of the input string -/

theorem store_eq_some {α : Type} (a : List α) (i : Nat) (v : α) (h : i < a.length) :
    store a i v = some (a.set i v) := by
  simp [store, h]

theorem forLoop_succ {σ : Type} (body : Nat → σ → Option σ) (n : Nat) (s : σ) :
    forLoop body (n + 1) s = (forLoop body n s).bind (body n) := rfl

/-- A loop whose body keeps an invariant and never fails ends in a state that
satisfies the invariant. -/
theorem forLoop_inv {σ : Type} (body : Nat → σ → Option σ) (P : Nat → σ → Prop)
    (N : Nat) (s0 : σ) (h0 : P 0 s0)
    (step : ∀ i s, i < N → P i s → ∃ s', body i s = some s' ∧ P (i + 1) s') :
    ∀ n, n ≤ N → ∃ s, forLoop body n s0 = some s ∧ P n s := by
  intro n
  induction n with
  | zero => intro _; exact ⟨s0, rfl, h0⟩
  | succ n ih =>
    intro hn
    obtain ⟨s, hs, hP⟩ := ih (by omega)
    obtain ⟨s', hs', hP'⟩ := step n s (by omega) hP
    exact ⟨s', by simp [forLoop, hs, hs'], hP'⟩

theorem strlen_append (m rest : List Nat) (hm : ∀ b ∈ m, b ≠ 0) :
    strlen (m ++ 0 :: rest) = some m.length := by
  induction m with
  | nil => simp [strlen]
  | cons c cs ih =>
    have hc : c ≠ 0 := hm c (by simp)
    have := ih (fun b hb => hm b (by simp [hb]))
    simp [strlen, hc, this]

theorem strlen_none (m : List Nat) (hm : ∀ b ∈ m, b ≠ 0) : strlen m = none := by
  induction m with
  | nil => simp [strlen]
  | cons c cs ih =>
    have hc : c ≠ 0 := hm c (by simp)
    have := ih (fun b hb => hm b (by simp [hb]))
    simp [strlen, hc, this]

theorem packBits_charToInt : ∀ signedChar : Bool, ∀ c < 256,
    packBits (charToInt signedChar c) 0 = c := by
  set_option maxRecDepth 100000 in decide!

theorem encodeBit_eq (ascii : Int) (j : Nat) (mb : List Nat) (idx i old : Nat)
    (hi : idx / 8 = i) (hold : mb[i]? = some old) :
    encodeBit ascii j (mb, idx) =
      some (mb.set i ((old ||| ((Int.land (ascii >>> j) 1).toNat <<< (7 - idx % 8))) % 256),
        idx + 1) := by
  have hlt : i < mb.length := by
    rcases List.getElem?_eq_some_iff.1 hold with ⟨h, _⟩
    exact h
  simp [encodeBit, hi, hold, store, hlt]

theorem encodeChar_eq (ascii : Int) (mb : List Nat) (i old : Nat)
    (hold : mb[i]? = some old) :
    encodeChar ascii (mb, 8 * i) = some (mb.set i (packBits ascii old), 8 * i + 8) := by
  have hlt : i < mb.length := by
    rcases List.getElem?_eq_some_iff.1 hold with ⟨h, _⟩
    exact h
  have e0 : (8 * i) / 8 = i := by omega
  have e1 : (8 * i + 1) / 8 = i := by omega
  have e2 : (8 * i + 1 + 1) / 8 = i := by omega
  have e3 : (8 * i + 1 + 1 + 1) / 8 = i := by omega
  have e4 : (8 * i + 1 + 1 + 1 + 1) / 8 = i := by omega
  have e5 : (8 * i + 1 + 1 + 1 + 1 + 1) / 8 = i := by omega
  have e6 : (8 * i + 1 + 1 + 1 + 1 + 1 + 1) / 8 = i := by omega
  have e7 : (8 * i + 1 + 1 + 1 + 1 + 1 + 1 + 1) / 8 = i := by omega
  have m0 : 7 - (8 * i) % 8 = 7 := by omega
  have m1 : 7 - (8 * i + 1) % 8 = 6 := by omega
  have m2 : 7 - (8 * i + 1 + 1) % 8 = 5 := by omega
  have m3 : 7 - (8 * i + 1 + 1 + 1) % 8 = 4 := by omega
  have m4 : 7 - (8 * i + 1 + 1 + 1 + 1) % 8 = 3 := by omega
  have m5 : 7 - (8 * i + 1 + 1 + 1 + 1 + 1) % 8 = 2 := by omega
  have m6 : 7 - (8 * i + 1 + 1 + 1 + 1 + 1 + 1) % 8 = 1 := by omega
  have m7 : 7 - (8 * i + 1 + 1 + 1 + 1 + 1 + 1 + 1) % 8 = 0 := by omega
  have get_set : ∀ (l : List Nat) (v : Nat), i < l.length → (l.set i v)[i]? = some v := by
    intro l v h
    simp [h]
  unfold encodeChar packBits
  simp only [List.foldlM, List.foldl]
  rw [encodeBit_eq ascii 7 mb _ i old e0 hold, m0]
  simp only [Option.bind_eq_bind, Option.some_bind]
  rw [encodeBit_eq ascii 6 _ _ i _ e1 (get_set _ _ hlt), m1]
  simp only [Option.some_bind, List.set_set]
  rw [encodeBit_eq ascii 5 _ _ i _ e2 (get_set _ _ hlt), m2]
  simp only [Option.some_bind, List.set_set]
  rw [encodeBit_eq ascii 4 _ _ i _ e3 (get_set _ _ hlt), m3]
  simp only [Option.some_bind, List.set_set]
  rw [encodeBit_eq ascii 3 _ _ i _ e4 (get_set _ _ hlt), m4]
  simp only [Option.some_bind, List.set_set]
  rw [encodeBit_eq ascii 2 _ _ i _ e5 (get_set _ _ hlt), m5]
  simp only [Option.some_bind, List.set_set]
  rw [encodeBit_eq ascii 1 _ _ i _ e6 (get_set _ _ hlt), m6]
  simp only [Option.some_bind, List.set_set]
  rw [encodeBit_eq ascii 0 _ _ i _ e7 (get_set _ _ hlt), m7]
  simp only [Option.some_bind, List.set_set]
  rfl

theorem set_append_replicate (pre : List Nat) (z v : Nat) (hz : 0 < z) :
    (pre ++ List.replicate z 0).set pre.length v = (pre ++ [v]) ++ List.replicate (z - 1) 0 := by
  obtain ⟨z', rfl⟩ : ∃ z', z = z' + 1 := ⟨z - 1, by omega⟩
  simp [List.replicate_succ]

theorem getElem?_append_replicate (pre : List Nat) (z : Nat) (hz : 0 < z) :
    (pre ++ List.replicate z 0)[pre.length]? = some 0 := by
  obtain ⟨z', rfl⟩ : ∃ z', z = z' + 1 := ⟨z - 1, by omega⟩
  rw [List.getElem?_append_right (Nat.le_refl _)]
  simp [List.replicate_succ]

theorem encodeChars_eq (signedChar : Bool) (m rest : List Nat)
    (hm0 : ∀ b ∈ m, b ≠ 0) (hm : ∀ b ∈ m, b < 256) :
    ∀ (pre : List Nat) (z : Nat), m.length ≤ z →
      encodeChars signedChar (m ++ 0 :: rest) (pre ++ List.replicate z 0, 8 * pre.length) =
        some (pre ++ m ++ List.replicate (z - m.length) 0, 8 * (pre.length + m.length)) := by
  induction m with
  | nil => intro pre z _; simp [encodeChars]
  | cons c cs ih =>
    intro pre z hz
    have hc0 : c ≠ 0 := hm0 c (by simp)
    have hc : c < 256 := hm c (by simp)
    have hz' : 0 < z := by simp at hz; omega
    have key := ih (fun b hb => hm0 b (by simp [hb])) (fun b hb => hm b (by simp [hb]))
      (pre ++ [c]) (z - 1) (by simp at hz; omega)
    have step : ∀ st, encodeChars signedChar (c :: cs ++ 0 :: rest) st =
        (encodeChar (charToInt signedChar c) st).bind
          (encodeChars signedChar (cs ++ 0 :: rest)) := by
      intro st
      simp only [List.cons_append, encodeChars, hc0, if_false]
      rfl
    rw [step, encodeChar_eq _ _ _ 0 (getElem?_append_replicate pre z hz'),
      packBits_charToInt signedChar c hc, set_append_replicate pre z c hz']
    simp only [Option.some_bind]
    have e : 8 * pre.length + 8 = 8 * (pre ++ [c]).length := by simp; omega
    rw [e, key]
    have hl : (c :: cs).length = cs.length + 1 := rfl
    have e1 : z - 1 - cs.length = z - (c :: cs).length := by omega
    have e2 : (pre ++ [c]).length + cs.length = pre.length + (c :: cs).length := by
      simp; omega
    rw [e1, e2]
    simp

/-! ### The message block -/

theorem storeTail (X : List Nat) (f : Nat → Nat) (a0 a1 a2 a3 a4 a5 a6 a7 : Nat) :
    forLoop (fun i mb => store mb (X.length + i) (f i)) 8
      (X ++ [a0, a1, a2, a3, a4, a5, a6, a7]) =
      some (X ++ [f 0, f 1, f 2, f 3, f 4, f 5, f 6, f 7]) := by
  simp [forLoop, store, List.set_append_right]

theorem encodeMessageBlock_eq (signedChar : Bool) (m rest : List Nat)
    (hm0 : ∀ b ∈ m, b ≠ 0) (hm : ∀ b ∈ m, b < 256) (size : Nat) (hsize : m.length + 9 ≤ size) :
    encodeMessageBlock signedChar (m ++ 0 :: rest) (List.replicate size 0) m.length size =
      some (paddedBytes m size) := by
  have h1 := encodeChars_eq signedChar m rest hm0 hm [] size (by omega)
  simp only [List.nil_append, List.length_nil, Nat.zero_add] at h1
  unfold encodeMessageBlock
  simp only [h1, Option.bind_eq_bind, Option.some_bind]
  have e0 : 8 * m.length / 8 = m.length := by omega
  have e1 : 7 - 8 * m.length % 8 = 7 := by omega
  have hz : 0 < size - m.length := by omega
  rw [e0, e1, getElem?_append_replicate m _ hz]
  simp only [Option.some_bind]
  rw [store_eq_some _ _ _ (by simp; omega), set_append_replicate m _ _ hz]
  simp only [Option.some_bind]
  have hs : ¬ size < 8 := by omega
  simp only [hs, if_false]
  have e2 : size - m.length - 1 = (size - m.length - 9) + 8 := by omega
  have e3 : size - 8 = (m ++ [(0 ||| 1 <<< 7) % 256] ++ List.replicate (size - m.length - 9) 0).length := by
    simp; omega
  rw [e2, List.replicate_add, ← List.append_assoc, e3]
  have e4 : List.replicate 8 0 = [0, 0, 0, 0, 0, 0, 0, 0] := rfl
  rw [e4, storeTail]
  simp [paddedBytes, lengthBytes]

/-! ### The chunks -/

theorem length_pieces {α : Type} (k : Nat) : ∀ (N : Nat) (L : List α),
    (pieces k N L).length = N := by
  intro N
  induction N with
  | zero => intro L; rfl
  | succ N ih => intro L; simp [pieces, ih]

theorem pieces_replicate {α : Type} (k : Nat) (a : α) : ∀ N : Nat,
    pieces k N (List.replicate (k * N) a) = List.replicate N (List.replicate k a) := by
  intro N
  induction N with
  | zero => rfl
  | succ N ih =>
    have e : k * (N + 1) - k = k * N := by rw [Nat.mul_succ]; omega
    have e' : min k (k * (N + 1)) = k := by rw [Nat.mul_succ]; omega
    simp [pieces, List.replicate_succ, e, e', ih]

theorem pieces_set {α : Type} (k : Nat) (hk : 0 < k) (b : α) : ∀ (N : Nat) (L : List α) (i : Nat),
    i < k * N → L.length = k * N →
    ∃ c, (pieces k N L)[i / k]? = some c ∧ c.length = k ∧
      (pieces k N L).set (i / k) (c.set (i % k) b) = pieces k N (L.set i b) := by
  intro N
  induction N with
  | zero => intro L i hi; simp at hi
  | succ N ih =>
    intro L i hi hL
    rw [Nat.mul_succ] at hi hL
    by_cases h : i < k
    · refine ⟨L.take k, ?_, ?_, ?_⟩
      · simp [pieces, Nat.div_eq_of_lt h]
      · simp; omega
      · simp [pieces, Nat.div_eq_of_lt h, Nat.mod_eq_of_lt h, List.set_take,
          List.drop_set_of_lt b L h]
    · have hik : k ≤ i := by omega
      obtain ⟨c, hc, hcl, hset⟩ := ih (L.drop k) (i - k) (by omega) (by simp; omega)
      have e1 : i / k = (i - k) / k + 1 := by
        conv_lhs => rw [show i = (i - k) + k by omega]
        exact Nat.add_div_right _ hk
      have e2 : i % k = (i - k) % k := by
        conv_lhs => rw [show i = (i - k) + k by omega]
        exact Nat.add_mod_right _ _
      refine ⟨c, ?_, hcl, ?_⟩
      · rw [e1]; simpa [pieces] using hc
      · rw [e1, e2]
        simp only [pieces, List.set_cons_succ, hset]
        have t1 : (L.set i b).take k = L.take k := by
          rw [List.set_take, List.set_eq_of_length_le]
          simp; omega
        have t2 : (L.set i b).drop k = (L.drop k).set (i - k) b := by
          rw [List.drop_set, if_neg h]
        rw [t1, t2]

theorem fillChunks_eq (N : Nat) (mb : List Nat) (hmb : mb.length = 64 * N) :
    fillChunks mb (64 * N) (List.replicate N (List.replicate CHUNK_SIZE 0)) =
      some (pieces 64 N mb, N) := by
  have key := forLoop_inv
    (fun i (st : List (List Nat) × Nat) => do
      let b ← mb[i]?
      let chunk ← st.1[st.2]?
      let chunk ← store chunk (i % CHUNK_SIZE) b
      let chunks ← store st.1 st.2 chunk
      pure (chunks, if (i + 1) % CHUNK_SIZE = 0 then st.2 + 1 else st.2))
    (fun i st => st = (pieces 64 N (mb.take i ++ List.replicate (64 * N - i) 0), i / 64))
    (64 * N) (List.replicate N (List.replicate CHUNK_SIZE 0), 0)
    (by simp only [List.take_zero, List.nil_append, Nat.sub_zero, pieces_replicate,
          Nat.zero_div])
    (by
      intro i st hi hst
      subst hst
      obtain ⟨v, hb⟩ : ∃ v, mb[i]? = some v := ⟨mb[i], List.getElem?_eq_getElem (by omega)⟩
      obtain ⟨c, hc, hcl, hset⟩ := pieces_set 64 (by omega) v N
        (mb.take i ++ List.replicate (64 * N - i) 0) i hi (by simp; omega)
      have hI : i / 64 < N := by omega
      have hnext : (mb.take i ++ List.replicate (64 * N - i) 0).set i v =
          mb.take (i + 1) ++ List.replicate (64 * N - (i + 1)) 0 := by
        have hl : (mb.take i).length = i := by simp; omega
        have := set_append_replicate (mb.take i) (64 * N - i) v (by omega)
        rw [hl] at this
        rw [this, List.take_succ, hb]
        rfl
      refine ⟨_, ?_, rfl⟩
      simp only [hb, hc, Option.bind_eq_bind, Option.some_bind, CHUNK_SIZE]
      rw [store_eq_some _ _ _ (by rw [hcl]; omega)]
      simp only [Option.some_bind]
      rw [store_eq_some _ _ _ (by rw [length_pieces]; exact hI)]
      simp only [Option.some_bind, hset, hnext]
      have : (if (i + 1) % 64 = 0 then i / 64 + 1 else i / 64) = (i + 1) / 64 := by
        split <;> omega
      rw [this]
      rfl)
    (64 * N) (Nat.le_refl _)
  obtain ⟨s, hs, hP⟩ := key
  unfold fillChunks
  rw [hs, hP]
  have e : List.take (64 * N) mb = mb := List.take_of_length_le (by omega)
  have e2 : 64 * N / 64 = N := by omega
  simp [e, e2]

/-! ### Rotation, rounds and compression -/

theorem RIGHT_ROTATE_eq (x n : Nat) (hx : x < 2 ^ 32) (hn0 : 0 < n) (hn : n < 32) :
    RIGHT_ROTATE x n = ROTR x n := by
  unfold RIGHT_ROTATE ROTR
  have hsplit : (2 : Nat) ^ 32 = 2 ^ n * 2 ^ (32 - n) := by
    rw [← Nat.pow_add]; congr 1; omega
  have h1 : (x <<< (32 - n)) % 2 ^ 32 = 2 ^ (32 - n) * (x % 2 ^ n) := by
    rw [Nat.shiftLeft_eq, hsplit, Nat.mul_mod_mul_right, Nat.mul_comm]
  have h2 : x >>> n < 2 ^ (32 - n) := by
    rw [Nat.shiftRight_eq_div_pow]
    apply Nat.div_lt_of_lt_mul
    rw [← hsplit]; exact hx
  rw [h1, Nat.or_comm, ← Nat.mul_add_lt_is_or h2, Nat.shiftRight_eq_div_pow]
  rw [Nat.add_comm, Nat.mul_comm]

theorem sum5_mod (a b c d e : Nat) :
    (a + b + c + d + e) % 2 ^ 32 = add32 (add32 (add32 (add32 a b) c) d) e := by
  unfold add32
  omega

theorem sum4_mod (a b c d : Nat) :
    (a + b + c + d) % 2 ^ 32 = add32 (add32 (add32 a b) c) d := by
  unfold add32
  omega

theorem compressionRound_eq (ki wi : Nat) (v : Work) (ha : v.a < 2 ^ 32) (he : v.e < 2 ^ 32) :
    compressionRound ki wi v = FIPS.round ki wi v := by
  unfold compressionRound FIPS.round
  simp only [RIGHT_ROTATE_eq _ _ ha, RIGHT_ROTATE_eq _ _ he, Nat.lt_irrefl, Nat.reduceLT,
    Nat.zero_lt_succ, sum5_mod, bigSigma0, bigSigma1, Ch, Maj]
  rfl

theorem mod_lt32 (x : Nat) : x % 2 ^ 32 < 2 ^ 32 := Nat.mod_lt _ (by decide)

theorem compressionRound_bounded (ki wi : Nat) (v : Work) (hv : v.Bounded) :
    (compressionRound ki wi v).Bounded := by
  obtain ⟨ha, hb, hc, hd, he, hf, hg, hh⟩ := hv
  exact ⟨mod_lt32 _, ha, hb, hc, mod_lt32 _, he, hf, hg⟩

/-- The table `k` of the source holds the round constants of the
specification. -/
theorem K_eq : FIPS.K = k := by decide!

/-- The numbers `cubeRoot` finds for the round constants are the integer cube
roots of `p * 2 ^ 96`. -/
theorem cubeRoot_primes : ∀ p ∈ FIPS.primes,
    cubeRoot (p * 2 ^ 96) 35 ^ 3 ≤ p * 2 ^ 96 ∧
    p * 2 ^ 96 < (cubeRoot (p * 2 ^ 96) 35 + 1) ^ 3 := by
  decide!

theorem getElem?_eq_some_getD {α : Type} (l : List α) (i : Nat) (d : α) (h : i < l.length) :
    l[i]? = some (l.getD i d) := by
  simp [List.getD, List.getElem?_eq_getElem h]

theorem length_eq_eight {α : Type} (l : List α) (h : l.length = 8) :
    ∃ a b c d e f g x, l = [a, b, c, d, e, f, g, x] := by
  match l, h with
  | [a, b, c, d, e, f, g, x], _ => exact ⟨a, b, c, d, e, f, g, x, rfl⟩

theorem compression_loop (w : List Nat) (hw : w.length = 64) (v0 : Work) (hv0 : v0.Bounded) :
    forLoop (fun i v => do
      let ki ← k[i]?
      let wi ← w[i]?
      pure (compressionRound ki wi v)) 64 v0 = some (FIPS.rounds w 64 v0) := by
  obtain ⟨s, hs, hP, _⟩ := forLoop_inv
    (fun i v => do
      let ki ← k[i]?
      let wi ← w[i]?
      pure (compressionRound ki wi v))
    (fun i v => v = FIPS.rounds w i v0 ∧ v.Bounded) 64 v0 ⟨rfl, hv0⟩
    (by
      intro i v hi ⟨hv, hb⟩
      have hk : k[i]? = some (FIPS.K.getD i 0) := by
        have kl : k.length = 64 := rfl
        rw [K_eq]; exact getElem?_eq_some_getD _ _ _ (by omega)
      have hwi : w[i]? = some (w.getD i 0) := getElem?_eq_some_getD _ _ _ (by omega)
      refine ⟨compressionRound (FIPS.K.getD i 0) (w.getD i 0) v, ?_, ?_,
        compressionRound_bounded _ _ _ hb⟩
      · simp only [hk, hwi, Option.bind_eq_bind, Option.some_bind, Option.pure_def]
      · rw [compressionRound_eq _ _ _ hb.1 hb.2.2.2.2.1, hv]
        rfl)
    64 (Nat.le_refl _)
  rw [hs, hP]

theorem compression_eq (H w : List Nat) (hH : H.length = 8) (hHb : ∀ x ∈ H, x < 2 ^ 32)
    (hw : w.length = 64) :
    compression H w = some
      (let v := FIPS.rounds w 64
        ⟨H.getD 0 0, H.getD 1 0, H.getD 2 0, H.getD 3 0, H.getD 4 0, H.getD 5 0, H.getD 6 0,
          H.getD 7 0⟩
      [add32 (H.getD 0 0) v.a, add32 (H.getD 1 0) v.b, add32 (H.getD 2 0) v.c,
       add32 (H.getD 3 0) v.d, add32 (H.getD 4 0) v.e, add32 (H.getD 5 0) v.f,
       add32 (H.getD 6 0) v.g, add32 (H.getD 7 0) v.h]) := by
  obtain ⟨a, b, c, d, e, f, g, h, rfl⟩ := length_eq_eight H hH
  have hb : Work.Bounded ⟨a, b, c, d, e, f, g, h⟩ := by
    simp only [List.mem_cons, List.mem_singleton, forall_eq_or_imp, forall_eq] at hHb
    simp only [List.not_mem_nil, false_implies, implies_true, and_true] at hHb
    exact hHb
  have hl := compression_loop w hw _ hb
  unfold compression
  simp only [List.getElem?_cons_zero, List.getElem?_cons_succ, Option.bind_eq_bind,
    Option.some_bind, Option.pure_def] at hl ⊢
  rw [hl]
  simp [add32]

/-! ### Words of a chunk -/

theorem getElem?_pieces {α : Type} (k : Nat) : ∀ (N : Nat) (L : List α) (i : Nat), i < N →
    (pieces k N L)[i]? = some ((L.drop (k * i)).take k) := by
  intro N
  induction N with
  | zero => intro L i hi; omega
  | succ N ih =>
    intro L i hi
    cases i with
    | zero => simp [pieces]
    | succ i =>
      simp only [pieces, List.getElem?_cons_succ]
      rw [ih (L.drop k) i (by omega), List.drop_drop, Nat.mul_succ, Nat.add_comm]

theorem drop_eq_cons {α : Type} (l : List α) (n : Nat) (a : α) (h : l[n]? = some a) :
    l.drop n = a :: l.drop (n + 1) := by
  obtain ⟨hn, rfl⟩ := List.getElem?_eq_some_iff.1 h
  exact List.drop_eq_getElem_cons hn

theorem set_append_drop {α : Type} (A w : List α) (n : Nat) (v : α) (hA : A.length = n)
    (hn : n < w.length) :
    (A ++ w.drop n).set n v = (A ++ [v]) ++ w.drop (n + 1) := by
  rw [List.set_append_right _ _ (by omega), hA, Nat.sub_self,
    List.drop_eq_getElem_cons hn]
  simp only [List.set_cons_zero, List.append_assoc, List.singleton_append]

theorem byteBits_toWord : ∀ b < 256, toWord (byteBits b) = b := by
  decide!

theorem toWord_append_byteBits (bits : List Bool) (b : Nat) (hb : b < 256) :
    toWord (bits ++ byteBits b) = 256 * toWord bits + b := by
  have h := byteBits_toWord b hb
  unfold toWord at *
  rw [List.foldl_append]
  generalize List.foldl (fun acc b => 2 * acc + b.toNat) 0 bits = acc
  simp only [byteBits, List.foldl] at *
  omega

theorem chunkWord_eq (b0 b1 b2 b3 : Nat) (h0 : b0 < 256) (h1 : b1 < 256) (h2 : b2 < 256)
    (h3 : b3 < 256) :
    ((b0 <<< 24) % 2 ^ 32) ||| ((b1 <<< 16) % 2 ^ 32) ||| ((b2 <<< 8) % 2 ^ 32) ||| b3 =
      toWord ([b0, b1, b2, b3].flatMap byteBits) := by
  have e : toWord ([b0, b1, b2, b3].flatMap byteBits) =
      2 ^ 24 * b0 + (2 ^ 16 * b1 + (2 ^ 8 * b2 + b3)) := by
    have : [b0, b1, b2, b3].flatMap byteBits =
        (([] ++ byteBits b0) ++ byteBits b1 ++ byteBits b2) ++ byteBits b3 := by simp
    rw [this, toWord_append_byteBits _ _ h3, toWord_append_byteBits _ _ h2,
      toWord_append_byteBits _ _ h1, toWord_append_byteBits _ _ h0]
    simp [toWord]
    omega
  rw [e]
  have l3 : b3 < 2 ^ 8 := h3
  have l2 : 2 ^ 8 * b2 + b3 < 2 ^ 16 := by omega
  have l1 : 2 ^ 16 * b1 + (2 ^ 8 * b2 + b3) < 2 ^ 24 := by omega
  rw [Nat.mul_add_lt_is_or l1, Nat.mul_add_lt_is_or l2, Nat.mul_add_lt_is_or l3]
  have s0 : (b0 <<< 24) % 2 ^ 32 = 2 ^ 24 * b0 := by rw [Nat.shiftLeft_eq]; omega
  have s1 : (b1 <<< 16) % 2 ^ 32 = 2 ^ 16 * b1 := by rw [Nat.shiftLeft_eq]; omega
  have s2 : (b2 <<< 8) % 2 ^ 32 = 2 ^ 8 * b2 := by rw [Nat.shiftLeft_eq]; omega
  rw [s0, s1, s2, Nat.or_assoc, Nat.or_assoc]

/-! ### The message schedule -/

theorem length_chunkWords (chunk : List Nat) : (chunkWords chunk).length = 16 := by
  simp [chunkWords, length_pieces]

theorem getElem?_chunkWords (chunk : List Nat) (i : Nat) (hi : i < 16) (b0 b1 b2 b3 : Nat)
    (h0 : chunk[i * 4]? = some b0) (h1 : chunk[i * 4 + 1]? = some b1)
    (h2 : chunk[i * 4 + 2]? = some b2) (h3 : chunk[i * 4 + 3]? = some b3) :
    (chunkWords chunk)[i]? = some (toWord ([b0, b1, b2, b3].flatMap byteBits)) := by
  unfold chunkWords
  rw [List.getElem?_map, getElem?_pieces 4 16 chunk i hi]
  have e : 4 * i = i * 4 := Nat.mul_comm _ _
  rw [e, drop_eq_cons _ _ _ h0, drop_eq_cons _ _ _ h1, drop_eq_cons _ _ _ h2,
    drop_eq_cons _ _ _ h3]
  rfl

theorem messageSchedule_first (chunkIndex : Nat) (chunks : List (List Nat)) (chunk : List Nat)
    (hc : chunks[chunkIndex]? = some chunk) (hcl : chunk.length = 64)
    (hcb : ∀ b ∈ chunk, b < 256) (w : List Nat) (hw : w.length = 64) :
    forLoop (fun i w => do
      let chunk ← chunks[chunkIndex]?
      let b0 ← chunk[i * 4]?
      let b1 ← chunk[i * 4 + 1]?
      let b2 ← chunk[i * 4 + 2]?
      let b3 ← chunk[i * 4 + 3]?
      store w i (((b0 <<< 24) % 2 ^ 32) ||| ((b1 <<< 16) % 2 ^ 32) |||
        ((b2 <<< 8) % 2 ^ 32) ||| b3)) 16 w = some (chunkWords chunk ++ w.drop 16) := by
  obtain ⟨s, hs, hP⟩ := forLoop_inv
    (fun i w => do
      let chunk ← chunks[chunkIndex]?
      let b0 ← chunk[i * 4]?
      let b1 ← chunk[i * 4 + 1]?
      let b2 ← chunk[i * 4 + 2]?
      let b3 ← chunk[i * 4 + 3]?
      store w i (((b0 <<< 24) % 2 ^ 32) ||| ((b1 <<< 16) % 2 ^ 32) |||
        ((b2 <<< 8) % 2 ^ 32) ||| b3))
    (fun i wi => wi = (chunkWords chunk).take i ++ w.drop i) 16 w (by simp)
    (by
      intro i wi hi hwi
      subst hwi
      have get : ∀ j, j < 64 → ∃ b, chunk[j]? = some b ∧ b < 256 := by
        intro j hj
        have hj' : j < chunk.length := by omega
        exact ⟨chunk[j], List.getElem?_eq_getElem hj', hcb _ (List.getElem_mem _)⟩
      obtain ⟨b0, h0, l0⟩ := get (i * 4) (by omega)
      obtain ⟨b1, h1, l1⟩ := get (i * 4 + 1) (by omega)
      obtain ⟨b2, h2, l2⟩ := get (i * 4 + 2) (by omega)
      obtain ⟨b3, h3, l3⟩ := get (i * 4 + 3) (by omega)
      have hword := getElem?_chunkWords chunk i hi b0 b1 b2 b3 h0 h1 h2 h3
      have hlen : ((chunkWords chunk).take i).length = i := by
        simp [length_chunkWords]; omega
      refine ⟨_, ?_, rfl⟩
      simp only [hc, h0, h1, h2, h3, Option.bind_eq_bind, Option.some_bind]
      rw [store_eq_some _ _ _ (by simp [length_chunkWords, hw]; omega),
        set_append_drop _ _ _ _ hlen (by omega), chunkWord_eq _ _ _ _ l0 l1 l2 l3,
        List.take_succ, hword]
      rfl)
    16 (Nat.le_refl _)
  rw [hs, hP, List.take_of_length_le (by rw [length_chunkWords])]

theorem length_expand (block : List Nat) (n : Nat) :
    (expand block n).length = block.length + n := by
  induction n with
  | zero => rfl
  | succ n ih => simp [expand, ih]; omega

theorem add32_lt (x y : Nat) : add32 x y < 2 ^ 32 := Nat.mod_lt _ (by decide)

theorem expand_lt (block : List Nat) (hb : ∀ x ∈ block, x < 2 ^ 32) (n : Nat) :
    ∀ x ∈ expand block n, x < 2 ^ 32 := by
  induction n with
  | zero => exact hb
  | succ n ih =>
    intro x hx
    simp only [expand, List.mem_append, List.mem_singleton] at hx
    rcases hx with hx | rfl
    · exact ih x hx
    · exact add32_lt _ _

theorem getD_lt (l : List Nat) (h : ∀ x ∈ l, x < 2 ^ 32) (i : Nat) : l.getD i 0 < 2 ^ 32 := by
  by_cases hi : i < l.length
  · rw [List.getD_eq_getElem _ _ hi]; exact h _ (List.getElem_mem _)
  · rw [List.getD_eq_default _ _ (by omega)]; decide

theorem messageSchedule_second (block : List Nat) (hbl : block.length = 16)
    (hb : ∀ x ∈ block, x < 2 ^ 32) (w : List Nat) (hw : w.length = 64) :
    forLoop (fun j w => do
      let i := 16 + j
      let w15 ← w[i - 15]?
      let w2 ← w[i - 2]?
      let w16 ← w[i - 16]?
      let w7 ← w[i - 7]?
      let sigma0 := RIGHT_ROTATE w15 7 ^^^ RIGHT_ROTATE w15 18 ^^^ (w15 >>> 3)
      let sigma1 := RIGHT_ROTATE w2 17 ^^^ RIGHT_ROTATE w2 19 ^^^ (w2 >>> 10)
      store w i ((w16 + sigma0 + w7 + sigma1) % 2 ^ 32)) 48 (block ++ w.drop 16) =
      some (schedule block) := by
  obtain ⟨s, hs, hP⟩ := forLoop_inv
    (fun j w => do
      let i := 16 + j
      let w15 ← w[i - 15]?
      let w2 ← w[i - 2]?
      let w16 ← w[i - 16]?
      let w7 ← w[i - 7]?
      let sigma0 := RIGHT_ROTATE w15 7 ^^^ RIGHT_ROTATE w15 18 ^^^ (w15 >>> 3)
      let sigma1 := RIGHT_ROTATE w2 17 ^^^ RIGHT_ROTATE w2 19 ^^^ (w2 >>> 10)
      store w i ((w16 + sigma0 + w7 + sigma1) % 2 ^ 32))
    (fun j wj => wj = expand block j ++ w.drop (16 + j)) 48 (block ++ w.drop 16) rfl
    (by
      intro j wj hj hwj
      subst hwj
      have hlen : (expand block j).length = 16 + j := by rw [length_expand, hbl]
      have hlt := expand_lt block hb j
      have get : ∀ t, t < 16 + j →
          (expand block j ++ w.drop (16 + j))[t]? = some ((expand block j).getD t 0) := by
        intro t ht
        rw [List.getElem?_append_left (by omega)]
        exact getElem?_eq_some_getD _ _ _ (by omega)
      refine ⟨_, ?_, rfl⟩
      simp only [get (16 + j - 15) (by omega), get (16 + j - 2) (by omega),
        get (16 + j - 16) (by omega), get (16 + j - 7) (by omega), Option.bind_eq_bind,
        Option.some_bind]
      rw [store_eq_some _ _ _ (by simp [hlen, hw]; omega),
        set_append_drop _ _ _ _ hlen (by omega)]
      simp only [expand, nextWord, hlen, smallSigma0, smallSigma1, SHR,
        Nat.shiftRight_eq_div_pow, sum4_mod,
        RIGHT_ROTATE_eq _ _ (getD_lt _ hlt _), Nat.reduceLT]
      rfl)
    48 (Nat.le_refl _)
  rw [hs, hP]
  have : w.drop (16 + 48) = [] := List.drop_of_length_le (by omega)
  rw [this, List.append_nil]
  rfl

theorem toWord_lt (bits : List Bool) : toWord bits < 2 ^ bits.length := by
  unfold toWord
  suffices h : ∀ (bits : List Bool) (acc : Nat),
      List.foldl (fun acc b => 2 * acc + b.toNat) acc bits < (acc + 1) * 2 ^ bits.length by
    simpa using h bits 0
  intro bits
  induction bits with
  | nil => intro acc; simp
  | cons b bs ih =>
    intro acc
    simp only [List.foldl, List.length_cons]
    refine Nat.lt_of_lt_of_le (ih _) ?_
    have : b.toNat ≤ 1 := by cases b <;> simp
    rw [Nat.pow_succ, Nat.mul_comm (2 ^ bs.length) 2, ← Nat.mul_assoc]
    exact Nat.mul_le_mul_right _ (by omega)

theorem length_flatMap_byteBits (l : List Nat) : (l.flatMap byteBits).length = 8 * l.length := by
  induction l with
  | nil => rfl
  | cons a l ih => simp [List.flatMap_cons, ih, byteBits]; omega

theorem mem_pieces_length {α : Type} (k : Nat) : ∀ (N : Nat) (L : List α),
    ∀ q ∈ pieces k N L, q.length ≤ k := by
  intro N
  induction N with
  | zero => intro L q hq; simp [pieces] at hq
  | succ N ih =>
    intro L q hq
    simp only [pieces, List.mem_cons] at hq
    rcases hq with rfl | hq
    · simp [List.length_take]
    · exact ih _ q hq

theorem chunkWords_lt (chunk : List Nat) : ∀ x ∈ chunkWords chunk, x < 2 ^ 32 := by
  intro x hx
  simp only [chunkWords, List.mem_map] at hx
  obtain ⟨q, hq, rfl⟩ := hx
  have h1 := mem_pieces_length 4 16 chunk q hq
  refine Nat.lt_of_lt_of_le (toWord_lt _) ?_
  rw [length_flatMap_byteBits]
  exact Nat.pow_le_pow_right (by decide) (by omega)

theorem messageSchedule_eq (chunkIndex : Nat) (chunks : List (List Nat)) (numChunks : Nat)
    (chunk : List Nat) (hc : chunks[chunkIndex]? = some chunk) (hcl : chunk.length = 64)
    (hcb : ∀ b ∈ chunk, b < 256) (w : List Nat) (hw : w.length = 64) :
    messageSchedule chunkIndex chunks numChunks w = some (schedule (chunkWords chunk)) := by
  have h1 := messageSchedule_first chunkIndex chunks chunk hc hcl hcb w hw
  have h2 := messageSchedule_second (chunkWords chunk) (length_chunkWords chunk)
    (chunkWords_lt chunk) w hw
  unfold messageSchedule
  simp only [Option.bind_eq_bind] at h1 h2 ⊢
  rw [h1, Option.some_bind, h2]

theorem length_schedule (block : List Nat) (h : block.length = 16) :
    (schedule block).length = 64 := by
  rw [schedule, length_expand, h]

/-! ### The digest bytes and the padding on bits -/

theorem byte_of_shift (x s : Nat) : (x >>> s) &&& 0xFF = x / 2 ^ s % 256 := by
  rw [Nat.shiftRight_eq_div_pow]
  exact Nat.and_pow_two_sub_one_eq_mod _ 8

theorem byte_low (x : Nat) : x &&& 255 = x % 256 :=
  Nat.and_pow_two_sub_one_eq_mod _ 8

theorem writeDigest_eq (H : List Nat) (hH : H.length = 8) :
    writeDigest H (List.replicate outputBufferSize 0) = some (H.flatMap wordBytes) := by
  obtain ⟨a, b, c, d, e, f, g, h, rfl⟩ := length_eq_eight H hH
  simp [writeDigest, forLoop, store, wordBytes, List.replicate, Nat.shiftRight_eq_div_pow,
    byte_low]

theorem flatMap_replicate_zero (z : Nat) :
    (List.replicate z 0).flatMap byteBits = List.replicate (8 * z) false := by
  induction z with
  | zero => rfl
  | succ z ih =>
    rw [List.replicate_succ, List.flatMap_cons, ih, Nat.mul_succ, Nat.add_comm (8 * z) 8,
      List.replicate_add]
    rfl

theorem testBit_255 (j : Nat) (hj : j < 8) : Nat.testBit 255 j = true := by
  have := Nat.testBit_two_pow_sub_one 8 j
  simpa [hj] using this

theorem testBit_lengthByte (L s j : Nat) (hj : j < 8) (hs : s + j < 64) :
    (((L % 2 ^ 64) >>> s) &&& 255).testBit j = L.testBit (s + j) := by
  rw [Nat.testBit_and, Nat.testBit_shiftRight, Nat.testBit_mod_two_pow, testBit_255 j hj]
  simp [hs]

theorem testBit_lengthByte_low (L j : Nat) (hj : j < 8) :
    ((L % 2 ^ 64) &&& 255).testBit j = L.testBit j := by
  have := testBit_lengthByte L 0 j hj (by omega)
  simpa using this

theorem lengthBytes_bits (L : Nat) :
    (lengthBytes (L % 2 ^ 64)).flatMap byteBits = bigEndian 64 L := by
  simp only [lengthBytes, byteBits, bigEndian, List.flatMap_cons, List.flatMap_nil,
    List.cons_append, List.nil_append, List.append_nil]
  simp only [testBit_lengthByte, testBit_lengthByte_low, Nat.reduceLT, Nat.reduceAdd,
    Nat.lt_add_one, Nat.zero_lt_succ]

theorem byteBits_128 : byteBits 128 = true :: List.replicate 7 false := by decide

theorem zeroBits_eq (n size : Nat) (hsize : size = (n * 8 + 72 + 511) / 512 * 512 / 8) :
    zeroBits (n * 8) = 7 + 8 * (size - n - 9) := by
  unfold zeroBits
  omega

theorem pad_messageBits (m : List Nat) (size : Nat)
    (hsize : size = (m.length * 8 + 72 + 511) / 512 * 512 / 8) :
    pad (messageBits m) = (paddedBytes m size).flatMap byteBits := by
  have hlen : (messageBits m).length = m.length * 8 := by
    rw [messageBits, length_flatMap_byteBits, Nat.mul_comm]
  unfold pad paddedBytes
  rw [hlen, zeroBits_eq m.length size hsize]
  simp only [List.flatMap_append, List.flatMap_cons, flatMap_replicate_zero, lengthBytes_bits,
    byteBits_128, List.replicate_add, messageBits]
  simp

/-- The size of a message block is a multiple of 64 that leaves room for the
padding. -/
theorem blockSize_eq (n : Nat) :
    (n * 8 + 72 + 511) / 512 * 512 / 8 = 64 * ((n * 8 + 72 + 511) / 512) ∧
    n + 9 ≤ (n * 8 + 72 + 511) / 512 * 512 / 8 := by
  omega

theorem length_paddedBytes (m : List Nat) (size : Nat) (h : m.length + 9 ≤ size) :
    (paddedBytes m size).length = size := by
  simp [paddedBytes, lengthBytes]
  omega

/-! ### Parsing and the loop over the chunks -/

theorem take_flatMap_byteBits (k : Nat) : ∀ l : List Nat,
    (l.flatMap byteBits).take (8 * k) = (l.take k).flatMap byteBits := by
  induction k with
  | zero => intro l; simp
  | succ k ih =>
    intro l
    cases l with
    | nil => simp
    | cons a l =>
      have e : 8 * (k + 1) = (byteBits a).length + 8 * k := by simp [byteBits]; omega
      rw [List.flatMap_cons, e, List.take_append, ih]
      simp [List.flatMap_cons]

theorem drop_flatMap_byteBits (k : Nat) : ∀ l : List Nat,
    (l.flatMap byteBits).drop (8 * k) = (l.drop k).flatMap byteBits := by
  induction k with
  | zero => intro l; simp
  | succ k ih =>
    intro l
    cases l with
    | nil => simp
    | cons a l =>
      have e : 8 * (k + 1) = (byteBits a).length + 8 * k := by simp [byteBits]; omega
      rw [List.flatMap_cons, e, List.drop_append, ih]
      simp

theorem pieces_flatMap (k : Nat) : ∀ (N : Nat) (l : List Nat),
    pieces (8 * k) N (l.flatMap byteBits) = (pieces k N l).map (fun q => q.flatMap byteBits) := by
  intro N
  induction N with
  | zero => intro l; rfl
  | succ N ih =>
    intro l
    simp only [pieces, List.map_cons, take_flatMap_byteBits, drop_flatMap_byteBits, ih]

theorem parse_bytes (bytes : List Nat) (N : Nat) (h : bytes.length = 64 * N) :
    parse (bytes.flatMap byteBits) = (pieces 64 N bytes).map chunkWords := by
  unfold parse
  have hl : (bytes.flatMap byteBits).length / 512 = N := by
    rw [length_flatMap_byteBits, h]; omega
  rw [hl, show (512 : Nat) = 8 * 64 from rfl, pieces_flatMap, List.map_map]
  apply List.map_congr_left
  intro chunk _
  simp only [Function.comp, chunkWords]
  rw [show (32 : Nat) = 8 * 4 from rfl, pieces_flatMap, List.map_map]
  rfl

theorem compress_length (H block : List Nat) : (compress H block).length = 8 := rfl

theorem compress_lt (H block : List Nat) : ∀ x ∈ compress H block, x < 2 ^ 32 := by
  intro x hx
  simp only [compress, List.mem_cons, List.mem_singleton, List.not_mem_nil, or_false] at hx
  rcases hx with h | h | h | h | h | h | h | h <;> (rw [h]; exact add32_lt _ _)

theorem foldl_compress_inv (blocks : List (List Nat)) :
    (blocks.foldl compress H0).length = 8 ∧ ∀ x ∈ blocks.foldl compress H0, x < 2 ^ 32 := by
  induction blocks using List.reverseRecOn with
  | nil => exact ⟨rfl, by decide⟩
  | append_singleton bs b _ =>
    rw [List.foldl_append]
    exact ⟨compress_length _ _, compress_lt _ _⟩

theorem lengthBytes_lt (L : Nat) : ∀ b ∈ lengthBytes L, b < 256 := by
  intro b hb
  simp only [lengthBytes, List.mem_cons, List.mem_singleton, List.not_mem_nil, or_false] at hb
  have key : ∀ x : Nat, x &&& 0xFF < 256 := fun x => by
    rw [byte_low]; exact Nat.mod_lt _ (by decide)
  rcases hb with h | h | h | h | h | h | h | h <;> (rw [h]; exact key _)

theorem paddedBytes_lt (m : List Nat) (hm : ∀ b ∈ m, b < 256) (size : Nat) :
    ∀ b ∈ paddedBytes m size, b < 256 := by
  intro b hb
  rw [paddedBytes] at hb
  rcases List.mem_append.1 hb with h | h
  · rcases List.mem_append.1 h with h | h
    · exact hm b h
    · rcases List.mem_cons.1 h with h | h
      · omega
      · have := (List.mem_replicate.1 h).2
        omega
  · exact lengthBytes_lt _ b h

theorem compression_schedule (H block : List Nat) (hH : H.length = 8)
    (hHb : ∀ x ∈ H, x < 2 ^ 32) (hbl : block.length = 16) :
    compression H (schedule block) = some (compress H block) :=
  compression_eq H (schedule block) hH hHb (length_schedule block hbl)

theorem hashLoop_eq (bytes : List Nat) (N : Nat) (hlen : bytes.length = 64 * N)
    (hb : ∀ b ∈ bytes, b < 256) (w0 : List Nat) (hw0 : w0.length = 64) :
    ∃ w, forLoop (fun chunkIndex (st : List Nat × List Nat) => do
        let w ← messageSchedule chunkIndex (pieces 64 N bytes) N st.2
        let hashVal ← compression st.1 w
        pure (hashVal, w)) N (hashInit, w0) =
      some (((pieces 64 N bytes).map chunkWords).foldl compress H0, w) := by
  have step : ∀ i (st : List Nat × List Nat), i < N →
      (st.1 = (((pieces 64 N bytes).take i).map chunkWords).foldl compress H0 ∧
        st.2.length = 64) →
      ∃ s', (do
        let w ← messageSchedule i (pieces 64 N bytes) N st.2
        let hashVal ← compression st.1 w
        pure (hashVal, w)) = some s' ∧
        (s'.1 = (((pieces 64 N bytes).take (i + 1)).map chunkWords).foldl compress H0 ∧
          s'.2.length = 64) := by
    intro i st hi ⟨h1, h2⟩
    have hc := getElem?_pieces 64 N bytes i hi
    have hcl : ((bytes.drop (64 * i)).take 64).length = 64 := by
      simp [List.length_take, List.length_drop]; omega
    have hcb : ∀ b ∈ (bytes.drop (64 * i)).take 64, b < 256 := fun b hb' =>
      hb b (List.mem_of_mem_drop (List.mem_of_mem_take hb'))
    have hinv := foldl_compress_inv (((pieces 64 N bytes).take i).map chunkWords)
    rw [← h1] at hinv
    have hs1 := messageSchedule_eq i (pieces 64 N bytes) N _ hc hcl hcb st.2 h2
    have hs2 := compression_schedule st.1 (chunkWords ((bytes.drop (64 * i)).take 64))
      hinv.1 hinv.2 (length_chunkWords _)
    refine ⟨(compress st.1 (chunkWords ((bytes.drop (64 * i)).take 64)),
      schedule (chunkWords ((bytes.drop (64 * i)).take 64))), ?_, ?_,
      length_schedule _ (length_chunkWords _)⟩
    · simp only [hs1, hs2, Option.bind_eq_bind, Option.some_bind, Option.pure_def]
    · simp only [List.take_succ, hc, Option.toList, List.map_append, List.foldl_append,
        List.map_cons, List.map_nil, List.foldl_cons, List.foldl_nil, ← h1]
  obtain ⟨s, hs, hP, _⟩ := forLoop_inv _ _ N (hashInit, w0)
    (show hashInit = (((pieces 64 N bytes).take 0).map chunkWords).foldl compress H0 ∧
        w0.length = 64 from ⟨rfl, hw0⟩) step N (Nat.le_refl _)
  rw [List.take_of_length_le (by rw [length_pieces])] at hP
  exact ⟨s.2, hs.trans (congrArg some (Prod.ext hP rfl))⟩

/-! ### The digest engine computes SHA-256 -/

theorem sha256_eq_bytes (m : List Nat) (N : Nat) (hN : N = (m.length * 8 + 72 + 511) / 512) :
    FIPS.sha256 m =
      (((pieces 64 N (paddedBytes m (64 * N))).map chunkWords).foldl compress H0).flatMap
        wordBytes := by
  have hsize : 64 * N = (m.length * 8 + 72 + 511) / 512 * 512 / 8 := by omega
  have hlen : (paddedBytes m (64 * N)).length = 64 * N :=
    length_paddedBytes m _ (by omega)
  rw [FIPS.sha256, hashBits, pad_messageBits m (64 * N) hsize, parse_bytes _ N hlen]

theorem perform_sha256_hashing_eq (signedChar : Bool) (m rest : List Nat)
    (hm0 : ∀ b ∈ m, b ≠ 0) (hm : ∀ b ∈ m, b < 256) (hlen : m.length * 8 + 72 + 511 < 2 ^ 31) :
    perform_sha256_hashing signedChar (m ++ 0 :: rest) = some (0, FIPS.sha256 m) := by
  obtain ⟨N, hN⟩ : ∃ N, N = (m.length * 8 + 72 + 511) / 512 := ⟨_, rfl⟩
  have hsize : (m.length * 8 + 72 + 511) / 512 * 512 / 8 = 64 * N := by omega
  have hchunks : (64 * N + CHUNK_SIZE - 1) / CHUNK_SIZE = N := by
    simp only [CHUNK_SIZE]; omega
  have hguard : ¬ (2 ^ 31 ≤ m.length * 8 + 72 + 511) := by omega
  have hpl : (paddedBytes m (64 * N)).length = 64 * N := length_paddedBytes m _ (by omega)
  obtain ⟨w, hw⟩ := hashLoop_eq (paddedBytes m (64 * N)) N hpl (paddedBytes_lt m hm _)
    (List.replicate 64 0) (by simp)
  have hfold := foldl_compress_inv ((pieces 64 N (paddedBytes m (64 * N))).map chunkWords)
  unfold perform_sha256_hashing
  simp only [strlen_append m rest hm0, Option.bind_eq_bind, Option.some_bind, hguard,
    if_false, hsize, hchunks, encodeMessageBlock_eq signedChar m rest hm0 hm (64 * N) (by omega),
    fillChunks_eq N _ hpl, Option.pure_def]
  simp only [Option.bind_eq_bind, Option.pure_def] at hw
  rw [hw]
  simp only [Option.some_bind, writeDigest_eq _ hfold.1, Option.pure_def]
  rw [sha256_eq_bytes m N hN]

/-! ### The device -/

theorem length_hashBits (M : List Bool) : (hashBits M).length = 8 :=
  (foldl_compress_inv _).1

theorem length_flatMap_wordBytes (H : List Nat) : (H.flatMap wordBytes).length = 4 * H.length := by
  induction H with
  | nil => rfl
  | cons a H ih => simp [List.flatMap_cons, ih, wordBytes]; omega

theorem length_sha256 (m : List Nat) : (FIPS.sha256 m).length = 32 := by
  rw [FIPS.sha256, length_flatMap_wordBytes, length_hashBits]

theorem sha256_lt (m : List Nat) : ∀ b ∈ FIPS.sha256 m, b < 256 := by
  intro b hb
  simp only [FIPS.sha256, List.mem_flatMap, wordBytes, List.mem_cons, List.mem_singleton,
    List.not_mem_nil, or_false] at hb
  obtain ⟨w, _, h | h | h | h⟩ := hb <;> (rw [h]; exact Nat.mod_lt _ (by decide))

theorem effectiveInput_ne_zero (window : List Nat) : ∀ b ∈ effectiveInput window, b ≠ 0 := by
  intro b hb
  have := List.mem_takeWhile_imp hb
  simpa using this

theorem effectiveInput_append (m rest : List Nat) (hm : ∀ b ∈ m, b ≠ 0) :
    effectiveInput (m ++ 0 :: rest) = m := by
  induction m with
  | nil => simp [effectiveInput]
  | cons c cs ih =>
    have hc : c ≠ 0 := hm c (by simp)
    have := ih (fun b hb => hm b (by simp [hb]))
    simp only [effectiveInput] at this ⊢
    simp [List.takeWhile_cons, hc, this]

theorem window_split (window : List Nat) (h : 0 ∈ window) :
    ∃ rest, window = effectiveInput window ++ 0 :: rest := by
  induction window with
  | nil => simp at h
  | cons c cs ih =>
    by_cases hc : c = 0
    · subst hc
      exact ⟨cs, by simp [effectiveInput]⟩
    · have h' : 0 ∈ cs := by
        rcases List.mem_cons.1 h with h | h
        · exact absurd h.symm hc
        · exact h
      obtain ⟨rest, hrest⟩ := ih h'
      refine ⟨rest, ?_⟩
      simp only [effectiveInput] at hrest ⊢
      simp only [List.takeWhile_cons, bne_iff_ne, ne_eq, hc, not_false_eq_true, decide_True,
        if_true, List.cons_append]
      rw [← hrest]

/-- The start of a hash on a window that holds the zero-free message `m`
followed by a zero byte. -/
theorem start_hash_eq (signedChar : Bool) (s : SHA256DeviceState) (size : Nat)
    (m rest : List Nat) (hin : s.inputBuffer = m ++ 0 :: rest)
    (hlen : s.inputBuffer.length = inputBufferSize) (hb : ∀ b ∈ s.inputBuffer, b < 256)
    (hout : s.outputBuffer.length = outputBufferSize) (hm : ∀ b ∈ m, b ≠ 0) :
    sha_device_write signedChar s CTRL_REG 1 size =
      some { inputBuffer := s.inputBuffer, outputBuffer := FIPS.sha256 m,
             control := 1, status := 1 } := by
  have hmlen : m.length * 8 + 72 + 511 < 2 ^ 31 := by
    rw [hin] at hlen
    simp only [List.length_append, List.length_cons, inputBufferSize] at hlen
    omega
  have hmb : ∀ b ∈ m, b < 256 := fun b hb' => hb b (by rw [hin]; simp [hb'])
  have hp := perform_sha256_hashing_eq signedChar m rest hm hmb hmlen
  rw [← hin] at hp
  have hcopy : memcpy s.outputBuffer (FIPS.sha256 m) outputBufferSize = FIPS.sha256 m := by
    rw [memcpy, List.take_of_length_le (by rw [length_sha256]),
      List.drop_of_length_le (by rw [hout]), List.append_nil]
  simp [sha_device_write, hp, hcopy]

/-- One-byte writes of a message into the input window replace the bytes at
the addresses written and nothing else. -/
theorem writeBytes_eq (signedChar : Bool) (msg : List Nat) (hmsg : ∀ b ∈ msg, b < 256) :
    ∀ (pre post : List Nat) (s : SHA256DeviceState), s.inputBuffer = pre ++ post →
      msg.length ≤ post.length → pre.length + post.length ≤ inputBufferSize →
      writeBytes signedChar msg (INPUT_REG + pre.length) s =
        some { s with inputBuffer := pre ++ msg ++ post.drop msg.length } := by
  induction msg with
  | nil =>
    intro pre post s hs _ _
    simp [writeBytes, ← hs]
  | cons b bs ih =>
    intro pre post s hs hlen hsize
    have hb : b < 256 := hmsg b (by simp)
    obtain ⟨p, post', rfl⟩ : ∃ p post', post = p :: post' := by
      cases post with
      | nil => simp at hlen
      | cons p post' => exact ⟨p, post', rfl⟩
    simp only [List.length_cons, inputBufferSize] at hlen hsize
    have haddr : INPUT_REG + pre.length ≠ CTRL_REG := by simp only [INPUT_REG, CTRL_REG]; omega
    have hwin : INPUT_REG ≤ INPUT_REG + pre.length ∧
        INPUT_REG + pre.length < INPUT_REG + inputBufferSize := by
      simp only [INPUT_REG, inputBufferSize]; omega
    have hstore : store s.inputBuffer (INPUT_REG + pre.length - INPUT_REG) (b % 256) =
        some ((pre ++ [b]) ++ post') := by
      rw [Nat.add_sub_cancel_left, store_eq_some _ _ _ (by rw [hs]; simp), hs,
        Nat.mod_eq_of_lt hb]
      simp
    have hstep : sha_device_write signedChar s (INPUT_REG + pre.length) b 1 =
        some { s with inputBuffer := (pre ++ [b]) ++ post' } := by
      simp only [sha_device_write, haddr, if_false, hwin, and_self, if_true, hstore,
        Option.bind_eq_bind, Option.some_bind, Option.pure_def]
    have key := ih (fun x hx => hmsg x (by simp [hx])) (pre ++ [b]) post'
      { s with inputBuffer := (pre ++ [b]) ++ post' } rfl (by omega)
      (by simp only [List.length_append, List.length_singleton, inputBufferSize]; omega)
    have e : INPUT_REG + (pre ++ [b]).length = INPUT_REG + pre.length + 1 := by
      simp; omega
    rw [e] at key
    simp only [writeBytes, hstep, Option.some_bind, key]
    simp

theorem toUInt64_byte (b : Nat) (hb : b < 256) : toUInt64 (b : Int) = b := by
  unfold toUInt64
  have : ((b : Int) % 2 ^ 64) = (b : Int) := Int.emod_eq_of_lt (by omega) (by omega)
  rw [this]
  simp

/-- A one-byte read in the output window returns the byte stored there. -/
theorem read_output_byte (signedChar : Bool) (s : SHA256DeviceState)
    (hlen : s.outputBuffer.length = outputBufferSize) (hb : ∀ b ∈ s.outputBuffer, b < 256)
    (k : Nat) (hk : k < 32) :
    sha_device_read signedChar s (OUTPUT_REG + k) 1 = s.outputBuffer[k]? := by
  have h1 : OUTPUT_REG + k ≠ ID_REG := by simp only [OUTPUT_REG, ID_REG]; omega
  have h2 : OUTPUT_REG + k ≠ CTRL_REG := by simp only [OUTPUT_REG, CTRL_REG]; omega
  have h3 : OUTPUT_REG + k ≠ STATUS_REG := by simp only [OUTPUT_REG, STATUS_REG]; omega
  have h4 : ¬ (INPUT_REG ≤ OUTPUT_REG + k ∧ OUTPUT_REG + k < INPUT_REG + inputBufferSize) := by
    simp only [OUTPUT_REG, INPUT_REG, inputBufferSize]; omega
  have h5 : OUTPUT_REG ≤ OUTPUT_REG + k ∧ OUTPUT_REG + k < OUTPUT_REG + outputBufferSize := by
    simp only [OUTPUT_REG, outputBufferSize]; omega
  have h6 : ¬ ((k + 1) % 2 ^ 32 > outputBufferSize) := by
    simp only [outputBufferSize]; omega
  have hk' : k < s.outputBuffer.length := by rw [hlen]; exact hk
  have hget : s.outputBuffer[k]? = some s.outputBuffer[k] := List.getElem?_eq_getElem hk'
  have hlt : s.outputBuffer[k] < 256 := hb _ (List.getElem_mem _)
  simp only [sha_device_read, h1, h2, h3, h4, h5, h6, if_false, if_true, and_self,
    Nat.add_sub_cancel_left, hget, Option.bind_eq_bind, Option.some_bind, Option.pure_def,
    toUInt64_byte _ hlt]

/-! ## The claims -/

/-- C1: for every zero-free byte string `m` of at most 1023 bytes (bytes of
value 0x80 and above included, whether or not `char` is signed),
`perform_sha256_hashing` on `m` followed by a zero terminator returns 0 and
leaves in `digest` the 32 bytes of the FIPS 180-4 SHA-256 digest of `m`: the
eight words of the final hash state, each most significant byte first, in
index order. -/
theorem C1_perform_sha256_hashing_fips (signedChar : Bool) (m rest : List Nat)
    (hlen : m.length ≤ 1023) (hbyte : ∀ b ∈ m, b < 256) (hnz : ∀ b ∈ m, b ≠ 0) :
    perform_sha256_hashing signedChar (m ++ 0 :: rest) = some (0, FIPS.sha256 m) ∧
    (FIPS.sha256 m).length = 32 ∧
    FIPS.sha256 m = (FIPS.hashBits (FIPS.messageBits m)).flatMap FIPS.wordBytes ∧
    (FIPS.hashBits (FIPS.messageBits m)).length = 8 :=
  ⟨perform_sha256_hashing_eq signedChar m rest hnz hbyte (by omega), length_sha256 m, rfl,
    length_hashBits _⟩

theorem C1_perform_sha256_hashing_fips_witness :
    ([0x61, 0x80, 0xFF].length ≤ 1023 ∧ (∀ b ∈ [0x61, 0x80, 0xFF], b < 256) ∧
      (∀ b ∈ [0x61, 0x80, 0xFF], b ≠ 0)) ∧
    (perform_sha256_hashing true ([0x61, 0x80, 0xFF] ++ 0 :: [0x62]) =
        some (0, FIPS.sha256 [0x61, 0x80, 0xFF]) ∧
      (FIPS.sha256 [0x61, 0x80, 0xFF]).length = 32 ∧
      FIPS.sha256 [0x61, 0x80, 0xFF] =
        (FIPS.hashBits (FIPS.messageBits [0x61, 0x80, 0xFF])).flatMap FIPS.wordBytes ∧
      (FIPS.hashBits (FIPS.messageBits [0x61, 0x80, 0xFF])).length = 8) :=
  ⟨⟨by decide, by decide, by decide⟩,
    C1_perform_sha256_hashing_fips true [0x61, 0x80, 0xFF] [0x62] (by decide) (by decide)
      (by decide)⟩

/-- C2: for every device state whose input window contains a zero byte, the
write of 1 to `CTRL_REG` produces the state in which `outputBuffer` is SHA-256
of the effective input (the prefix of `inputBuffer` before its first zero
byte), `status` is 1, `control` is 1 and `inputBuffer` is unchanged. -/
theorem C2_start_hash_effective_input (signedChar : Bool) (s : SHA256DeviceState) (size : Nat)
    (hwf : s.WF) (hzero : 0 ∈ s.inputBuffer) :
    sha_device_write signedChar s CTRL_REG 1 size =
      some { inputBuffer := s.inputBuffer,
             outputBuffer := FIPS.sha256 (FIPS.effectiveInput s.inputBuffer),
             control := 1, status := 1 } := by
  obtain ⟨rest, hrest⟩ := window_split s.inputBuffer hzero
  exact start_hash_eq signedChar s size _ rest hrest hwf.1 hwf.2.2.1 hwf.2.1
    (effectiveInput_ne_zero _)

theorem C2_start_hash_effective_input_witness :
    (sampleState.WF ∧ 0 ∈ sampleState.inputBuffer) ∧
    sha_device_write true sampleState CTRL_REG 1 4 =
      some { inputBuffer := sampleState.inputBuffer,
             outputBuffer := FIPS.sha256 (FIPS.effectiveInput sampleState.inputBuffer),
             control := 1, status := 1 } :=
  ⟨⟨by decide!, by decide!⟩,
    C2_start_hash_effective_input true sampleState 4 (by decide!) (by decide!)⟩

/-- C3: from a state whose input window is all zero (the reset state), for
every zero-free byte string `msg` of fewer than 1024 bytes, the one-byte
writes of `msg[i]` to `INPUT_REG + i` followed by the write of 1 to `CTRL_REG`
end in a state in which the one-byte read of `OUTPUT_REG + k` returns byte `k`
of SHA-256 of `msg` for every `k < 32`, and the read of `STATUS_REG` returns
1. -/
theorem C3_write_then_start_hash (signedChar : Bool) (s0 : SHA256DeviceState)
    (msg : List Nat) (csize ssize : Nat) (hwf : s0.WF)
    (hreset : s0.inputBuffer = List.replicate inputBufferSize 0)
    (hlen : msg.length < 1024) (hbyte : ∀ b ∈ msg, b < 256) (hnz : ∀ b ∈ msg, b ≠ 0) :
    ∃ s, (writeBytes signedChar msg INPUT_REG s0).bind
        (fun s1 => sha_device_write signedChar s1 CTRL_REG 1 csize) = some s ∧
      (∀ k, k < 32 →
        sha_device_read signedChar s (OUTPUT_REG + k) 1 = (FIPS.sha256 msg)[k]?) ∧
      (∀ k, k < 32 → ∃ b, (FIPS.sha256 msg)[k]? = some b) ∧
      sha_device_read signedChar s STATUS_REG ssize = some 1 := by
  have hw := writeBytes_eq signedChar msg hbyte [] s0.inputBuffer s0 rfl
    (by rw [hwf.1]; simp only [inputBufferSize]; omega) (by rw [hwf.1]; simp)
  simp only [List.length_nil, Nat.add_zero, List.nil_append] at hw
  have hdrop : s0.inputBuffer.drop msg.length = 0 :: List.replicate (1023 - msg.length) 0 := by
    rw [hreset, List.drop_replicate,
      show inputBufferSize - msg.length = (1023 - msg.length) + 1 by
        simp only [inputBufferSize]; omega, List.replicate_succ]
  rw [hdrop] at hw
  have hstart := start_hash_eq signedChar
    { s0 with inputBuffer := msg ++ 0 :: List.replicate (1023 - msg.length) 0 } csize msg
    (List.replicate (1023 - msg.length) 0) rfl
    (by simp only [List.length_append, List.length_cons, List.length_replicate,
          inputBufferSize]; omega)
    (by
      intro b hb
      rcases List.mem_append.1 hb with h | h
      · exact hbyte b h
      · rcases List.mem_cons.1 h with h | h
        · omega
        · have := (List.mem_replicate.1 h).2
          omega)
    hwf.2.1 hnz
  refine ⟨_, by rw [hw, Option.some_bind, hstart], ?_, ?_, ?_⟩
  · intro k hk
    exact read_output_byte signedChar _ (length_sha256 msg) (sha256_lt msg) k hk
  · intro k hk
    exact ⟨_, List.getElem?_eq_getElem (by rw [length_sha256]; exact hk)⟩
  · simp [sha_device_read]

theorem C3_write_then_start_hash_witness :
    (sha_instance_init.WF ∧
      sha_instance_init.inputBuffer = List.replicate inputBufferSize 0 ∧
      [0x68, 0x65, 0x6C, 0x6C, 0x6F].length < 1024 ∧
      (∀ b ∈ [0x68, 0x65, 0x6C, 0x6C, 0x6F], b < 256) ∧
      (∀ b ∈ [0x68, 0x65, 0x6C, 0x6C, 0x6F], b ≠ 0)) ∧
    ∃ s, (writeBytes true [0x68, 0x65, 0x6C, 0x6C, 0x6F] INPUT_REG sha_instance_init).bind
        (fun s1 => sha_device_write true s1 CTRL_REG 1 4) = some s ∧
      (∀ k, k < 32 → sha_device_read true s (OUTPUT_REG + k) 1 =
        (FIPS.sha256 [0x68, 0x65, 0x6C, 0x6C, 0x6F])[k]?) ∧
      (∀ k, k < 32 → ∃ b, (FIPS.sha256 [0x68, 0x65, 0x6C, 0x6C, 0x6F])[k]? = some b) ∧
      sha_device_read true s STATUS_REG 4 = some 1 :=
  ⟨⟨by decide!, rfl, by decide, by decide, by decide⟩,
    C3_write_then_start_hash true sha_instance_init [0x68, 0x65, 0x6C, 0x6C, 0x6F] 4 4
      (by decide!) rfl (by decide) (by decide) (by decide)⟩

/-- C4: from any device state, whatever the input window held before, for
every zero-free byte string `msg` of at most 1023 bytes, the one-byte writes
of the bytes of `msg` and of one zero byte to `INPUT_REG + 0 ..
INPUT_REG + len msg`, followed by the write of 1 to `CTRL_REG`, leave
`outputBuffer` equal to SHA-256 of `msg` and `status` equal to 1. -/
theorem C4_terminated_write_then_start_hash (signedChar : Bool) (s0 : SHA256DeviceState)
    (msg : List Nat) (csize : Nat) (hwf : s0.WF)
    (hlen : msg.length ≤ 1023) (hbyte : ∀ b ∈ msg, b < 256) (hnz : ∀ b ∈ msg, b ≠ 0) :
    ∃ s, (writeBytes signedChar (msg ++ [0]) INPUT_REG s0).bind
        (fun s1 => sha_device_write signedChar s1 CTRL_REG 1 csize) = some s ∧
      s.outputBuffer = FIPS.sha256 msg ∧ s.status = 1 := by
  have hbyte' : ∀ b ∈ msg ++ [0], b < 256 := by
    intro b hb
    rcases List.mem_append.1 hb with h | h
    · exact hbyte b h
    · have := List.mem_singleton.1 h
      omega
  have hw := writeBytes_eq signedChar (msg ++ [0]) hbyte' [] s0.inputBuffer s0 rfl
    (by rw [hwf.1]; simp only [List.length_append, List.length_singleton, inputBufferSize]; omega)
    (by rw [hwf.1]; simp)
  simp only [List.length_nil, Nat.add_zero, List.nil_append, List.append_assoc,
    List.singleton_append] at hw
  have hstart := start_hash_eq signedChar
    { s0 with inputBuffer := msg ++ 0 :: s0.inputBuffer.drop (msg ++ [0]).length } csize msg
    (s0.inputBuffer.drop (msg ++ [0]).length) rfl
    (by simp only [List.length_append, List.length_cons, List.length_drop, hwf.1,
          List.length_singleton, List.length_nil, inputBufferSize]; omega)
    (by
      intro b hb
      rcases List.mem_append.1 hb with h | h
      · exact hbyte b h
      · rcases List.mem_cons.1 h with h | h
        · omega
        · exact hwf.2.2.1 b (List.mem_of_mem_drop h))
    hwf.2.1 hnz
  exact ⟨_, by rw [hw, Option.some_bind, hstart], rfl, rfl⟩

theorem C4_terminated_write_then_start_hash_witness :
    (sampleState.WF ∧ [0x78, 0x79].length ≤ 1023 ∧ (∀ b ∈ [0x78, 0x79], b < 256) ∧
      (∀ b ∈ [0x78, 0x79], b ≠ 0)) ∧
    ∃ s, (writeBytes false ([0x78, 0x79] ++ [0]) INPUT_REG sampleState).bind
        (fun s1 => sha_device_write false s1 CTRL_REG 1 1) = some s ∧
      s.outputBuffer = FIPS.sha256 [0x78, 0x79] ∧ s.status = 1 :=
  ⟨⟨by decide!, by decide, by decide, by decide⟩,
    C4_terminated_write_then_start_hash false sampleState [0x78, 0x79] 1 (by decide!)
      (by decide) (by decide) (by decide)⟩

/-- C5: for every device state, the write of 0 to `CTRL_REG` produces a state
in which `status` is 0, all 1024 bytes of `inputBuffer` are 0, all 32 bytes of
`outputBuffer` are 0 and `control` is 0, and in which a read of `ID_REG` still
returns 0xFEEDCAFE. -/
theorem C5_reset_clears_state (signedChar : Bool) (s : SHA256DeviceState) (size rsize : Nat)
    (hwf : s.WF) :
    ∃ s', sha_device_write signedChar s CTRL_REG 0 size = some s' ∧
      s'.status = 0 ∧ s'.inputBuffer = List.replicate 1024 0 ∧
      s'.outputBuffer = List.replicate 32 0 ∧ s'.control = 0 ∧
      sha_device_read signedChar s' ID_REG rsize = some 0xFEEDCAFE := by
  have hin : memset s.inputBuffer 0 inputBufferSize = List.replicate 1024 0 := by
    rw [memset, List.drop_of_length_le (by rw [hwf.1]), List.append_nil]
  have hout : memset s.outputBuffer 0 outputBufferSize = List.replicate 32 0 := by
    rw [memset, List.drop_of_length_le (by rw [hwf.2.1]), List.append_nil]
  refine ⟨{ inputBuffer := List.replicate 1024 0, outputBuffer := List.replicate 32 0,
            control := 0, status := 0 }, ?_, rfl, rfl, rfl, rfl, ?_⟩
  · have h01 : ¬ ((0 : Nat) = deviceEN) := by decide
    simp only [sha_device_write, if_true, h01, if_false, hin, hout, Nat.zero_mod]
  · simp only [sha_device_read, if_true]

theorem C5_reset_clears_state_witness :
    sampleState.WF ∧
    ∃ s', sha_device_write true sampleState CTRL_REG 0 4 = some s' ∧
      s'.status = 0 ∧ s'.inputBuffer = List.replicate 1024 0 ∧
      s'.outputBuffer = List.replicate 32 0 ∧ s'.control = 0 ∧
      sha_device_read true s' ID_REG 4 = some 0xFEEDCAFE :=
  ⟨by decide!, C5_reset_clears_state true sampleState 4 4 (by decide!)⟩

/-- C6: for every device state and every 32-bit value `v` other than 0 and 1,
the write of `v` to `CTRL_REG` sets `control` to `v` and leaves `status`,
`inputBuffer` and `outputBuffer` unchanged. -/
theorem C6_other_control_values (signedChar : Bool) (s : SHA256DeviceState) (v size : Nat)
    (hv : v < 2 ^ 32) (h0 : v ≠ 0) (h1 : v ≠ 1) :
    sha_device_write signedChar s CTRL_REG v size =
      some { inputBuffer := s.inputBuffer, outputBuffer := s.outputBuffer,
             control := v, status := s.status } := by
  have hv' : v % 2 ^ 32 = v := Nat.mod_eq_of_lt hv
  simp only [sha_device_write, if_true, deviceEN, deviceRST, h0, h1, if_false, hv']

theorem C6_other_control_values_witness :
    (0xDEADBEEF < 2 ^ 32 ∧ 0xDEADBEEF ≠ 0 ∧ 0xDEADBEEF ≠ 1) ∧
    sha_device_write true sampleState CTRL_REG 0xDEADBEEF 4 =
      some { inputBuffer := sampleState.inputBuffer, outputBuffer := sampleState.outputBuffer,
             control := 0xDEADBEEF, status := sampleState.status } :=
  ⟨⟨by decide, by decide, by decide⟩,
    C6_other_control_values true sampleState 0xDEADBEEF 4 (by decide) (by decide) (by decide)⟩

/-- C7: the digest depends only on the prefix of the input window before its
first zero byte.  Two device states whose windows both hold the zero-free
bytes `m` followed by a zero byte, and anything after it, get the same
`outputBuffer` from the write of 1 to `CTRL_REG`; that digest is the one
`perform_sha256_hashing` computes for `m` alone, and it is the one of the
window that holds `m` followed by zero bytes up to 1024. -/
theorem C7_digest_depends_on_effective_input (signedChar : Bool) (s1 s2 : SHA256DeviceState)
    (m rest1 rest2 : List Nat) (size1 size2 : Nat) (hwf1 : s1.WF) (hwf2 : s2.WF)
    (hin1 : s1.inputBuffer = m ++ 0 :: rest1) (hin2 : s2.inputBuffer = m ++ 0 :: rest2)
    (hnz : ∀ b ∈ m, b ≠ 0) :
    ∃ d, (sha_device_write signedChar s1 CTRL_REG 1 size1).map (fun s => s.outputBuffer)
          = some d ∧
      (sha_device_write signedChar s2 CTRL_REG 1 size2).map (fun s => s.outputBuffer)
          = some d ∧
      perform_sha256_hashing signedChar (m ++ [0]) = some (0, d) ∧
      (sha_device_write signedChar
          { s1 with inputBuffer := m ++ List.replicate (1024 - m.length) 0 } CTRL_REG 1
          size1).map (fun s => s.outputBuffer) = some d := by
  have hmlen : m.length ≤ 1023 := by
    have := hwf1.1
    rw [hin1] at this
    simp only [List.length_append, List.length_cons, inputBufferSize] at this
    omega
  have hmb : ∀ b ∈ m, b < 256 := fun b hb => hwf1.2.2.1 b (by rw [hin1]; simp [hb])
  have e1 := start_hash_eq signedChar s1 size1 m rest1 hin1 hwf1.1 hwf1.2.2.1 hwf1.2.1 hnz
  have e2 := start_hash_eq signedChar s2 size2 m rest2 hin2 hwf2.1 hwf2.2.2.1 hwf2.2.1 hnz
  have hsplit : m ++ List.replicate (1024 - m.length) 0 =
      m ++ 0 :: List.replicate (1023 - m.length) 0 := by
    rw [show 1024 - m.length = (1023 - m.length) + 1 by omega, List.replicate_succ]
  have e3 := start_hash_eq signedChar
    { s1 with inputBuffer := m ++ List.replicate (1024 - m.length) 0 } size1 m
    (List.replicate (1023 - m.length) 0) hsplit
    (by simp only [List.length_append, List.length_replicate, inputBufferSize]; omega)
    (by
      intro b hb
      rcases List.mem_append.1 hb with h | h
      · exact hmb b h
      · have := (List.mem_replicate.1 h).2
        omega)
    hwf1.2.1 hnz
  refine ⟨FIPS.sha256 m, by rw [e1]; rfl, by rw [e2]; rfl, ?_, by rw [e3]; rfl⟩
  exact perform_sha256_hashing_eq signedChar m [] hnz hmb (by omega)

theorem C7_digest_depends_on_effective_input_witness :
    (sampleState.WF ∧ sampleState2.WF ∧
      sampleState.inputBuffer = [0x61, 0x62, 0x63] ++ 0 :: (0x7A :: List.replicate 1019 0) ∧
      sampleState2.inputBuffer = [0x61, 0x62, 0x63] ++ 0 :: List.replicate 1020 0x55 ∧
      (∀ b ∈ [0x61, 0x62, 0x63], b ≠ 0)) ∧
    ∃ d, (sha_device_write true sampleState CTRL_REG 1 4).map (fun s => s.outputBuffer)
          = some d ∧
      (sha_device_write true sampleState2 CTRL_REG 1 4).map (fun s => s.outputBuffer)
          = some d ∧
      perform_sha256_hashing true ([0x61, 0x62, 0x63] ++ [0]) = some (0, d) ∧
      (sha_device_write true
          { sampleState with
            inputBuffer := [0x61, 0x62, 0x63] ++
              List.replicate (1024 - [0x61, 0x62, 0x63].length) 0 } CTRL_REG 1
          4).map (fun s => s.outputBuffer) = some d :=
  ⟨⟨by decide!, by decide!, rfl, rfl, by decide⟩,
    C7_digest_depends_on_effective_input true sampleState sampleState2 [0x61, 0x62, 0x63]
      (0x7A :: List.replicate 1019 0) (List.replicate 1020 0x55) 4 4 (by decide!) (by decide!)
      rfl rfl (by decide)⟩

/-- C8: on the device state whose input window holds 1024 bytes `a` and no
zero byte, the write of 1 to `CTRL_REG` does not stay inside the window:
`strlen` in `perform_sha256_hashing` reads past the last element of
`inputBuffer`, so the execution leaves defined behaviour and the model yields
no state. -/
theorem C8_unterminated_window_overrun (signedChar : Bool) (size : Nat) :
    writeBytes signedChar (List.replicate 1024 0x61) INPUT_REG sha_instance_init =
      some fullState ∧
    fullState.WF ∧ strlen fullState.inputBuffer = none ∧
    sha_device_write signedChar fullState CTRL_REG 1 size = none := by
  have h : strlen fullState.inputBuffer = none :=
    strlen_none _ (by
      intro b hb
      have := (List.mem_replicate.1 hb).2
      omega)
  have hw := writeBytes_eq signedChar (List.replicate 1024 0x61)
    (by
      intro b hb
      have := (List.mem_replicate.1 hb).2
      omega)
    [] sha_instance_init.inputBuffer sha_instance_init rfl
    (by simp only [sha_instance_init, List.length_replicate, inputBufferSize, Nat.le_refl])
    (by simp only [sha_instance_init, List.length_replicate, List.length_nil, Nat.zero_add,
          Nat.le_refl])
  refine ⟨?_, by decide!, h, ?_⟩
  · have hd : List.drop (List.replicate 1024 0x61).length sha_instance_init.inputBuffer = [] :=
      List.drop_of_length_le (by
        simp only [sha_instance_init, List.length_replicate, inputBufferSize, Nat.le_refl])
    rw [hd] at hw
    simp only [List.nil_append, List.append_nil, List.length_nil, Nat.add_zero] at hw
    exact hw
  · simp [sha_device_write, perform_sha256_hashing, h]

/-- C9: start-hash is idempotent.  For every device state whose input window
contains a zero byte, the write of 1 to `CTRL_REG` yields a state that a
second write of 1 to `CTRL_REG` leaves exactly as it is. -/
theorem C9_start_hash_idempotent (signedChar : Bool) (s : SHA256DeviceState)
    (size1 size2 : Nat) (hwf : s.WF) (hzero : 0 ∈ s.inputBuffer) :
    ∃ s1, sha_device_write signedChar s CTRL_REG 1 size1 = some s1 ∧
      sha_device_write signedChar s1 CTRL_REG 1 size2 = some s1 := by
  obtain ⟨rest, hrest⟩ := window_split s.inputBuffer hzero
  have e1 := start_hash_eq signedChar s size1 _ rest hrest hwf.1 hwf.2.2.1 hwf.2.1
    (effectiveInput_ne_zero _)
  have e2 := start_hash_eq signedChar
    { inputBuffer := s.inputBuffer,
      outputBuffer := FIPS.sha256 (FIPS.effectiveInput s.inputBuffer),
      control := 1, status := 1 } size2 _ rest hrest hwf.1 hwf.2.2.1 (length_sha256 _)
    (effectiveInput_ne_zero _)
  exact ⟨_, e1, e2⟩

theorem C9_start_hash_idempotent_witness :
    (sampleState.WF ∧ 0 ∈ sampleState.inputBuffer) ∧
    ∃ s1, sha_device_write true sampleState CTRL_REG 1 4 = some s1 ∧
      sha_device_write true s1 CTRL_REG 1 4 = some s1 :=
  ⟨⟨by decide!, by decide!⟩,
    C9_start_hash_idempotent true sampleState 4 4 (by decide!) (by decide!)⟩

set_option maxRecDepth 1000000 in
theorem sha256_nil : FIPS.sha256 [] =
    [0xe3, 0xb0, 0xc4, 0x42, 0x98, 0xfc, 0x1c, 0x14, 0x9a, 0xfb, 0xf4, 0xc8, 0x99, 0x6f, 0xb9,
     0x24, 0x27, 0xae, 0x41, 0xe4, 0x64, 0x9b, 0x93, 0x4c, 0xa4, 0x95, 0x99, 0x1b, 0x78, 0x52,
     0xb8, 0x55] := by
  decide!

/-- C10: on the freshly initialised device, the write of 1 to `CTRL_REG`
leaves in `outputBuffer` the 32 bytes e3b0c442 98fc1c14 9afbf4c8 996fb924
27ae41e4 649b934c a495991b 7852b855, which are SHA-256 of the empty
message. -/
theorem C10_empty_window_digest (signedChar : Bool) (size : Nat) :
    (sha_device_write signedChar sha_instance_init CTRL_REG 1 size).map
        (fun s => s.outputBuffer) =
      some [0xe3, 0xb0, 0xc4, 0x42, 0x98, 0xfc, 0x1c, 0x14, 0x9a, 0xfb, 0xf4, 0xc8, 0x99, 0x6f,
        0xb9, 0x24, 0x27, 0xae, 0x41, 0xe4, 0x64, 0x9b, 0x93, 0x4c, 0xa4, 0x95, 0x99, 0x1b,
        0x78, 0x52, 0xb8, 0x55] ∧
    FIPS.sha256 [] =
      [0xe3, 0xb0, 0xc4, 0x42, 0x98, 0xfc, 0x1c, 0x14, 0x9a, 0xfb, 0xf4, 0xc8, 0x99, 0x6f,
        0xb9, 0x24, 0x27, 0xae, 0x41, 0xe4, 0x64, 0x9b, 0x93, 0x4c, 0xa4, 0x95, 0x99, 0x1b,
        0x78, 0x52, 0xb8, 0x55] := by
  have e := start_hash_eq signedChar sha_instance_init size [] (List.replicate 1023 0) rfl
    (by simp [sha_instance_init]) (by
      intro b hb
      have := (List.mem_replicate.1 hb).2
      omega) (by simp [sha_instance_init]) (by simp)
  rw [e, sha256_nil]
  exact ⟨rfl, rfl⟩

/-! ### Reads of more than one byte -/

theorem toUInt64_ofNat (n : Nat) : toUInt64 (n : Int) = n % 2 ^ 64 := by
  unfold toUInt64
  have : ((n : Int) % 2 ^ 64) = ((n % 2 ^ 64 : Nat) : Int) := by
    push_cast
    rfl
  rw [this, Int.toNat_ofNat]

theorem toUInt64_negSucc (n : Nat) : toUInt64 (Int.negSucc n) = 2 ^ 64 - (n % 2 ^ 64 + 1) := by
  unfold toUInt64
  rw [Int.negSucc_emod n (by decide)]
  have h : n % 2 ^ 64 < 2 ^ 64 := Nat.mod_lt _ (by decide)
  have : ((2 : Int) ^ 64 - 1 - ((n : Int) % 2 ^ 64)) =
      ((2 ^ 64 - (n % 2 ^ 64 + 1) : Nat) : Int) := by
    rw [Int.ofNat_sub (by omega)]
    push_cast
    omega
  rw [this, Int.toNat_ofNat]

/-- The bits of an `int` after its conversion to `uint64_t`: the low 64 bits
of its two's complement representation. -/
theorem testBit_toUInt64 (x : Int) (i : Nat) :
    (toUInt64 x).testBit i = (decide (i < 64) && x.testBit i) := by
  cases x with
  | ofNat n =>
    rw [Int.ofNat_eq_coe, toUInt64_ofNat, Nat.testBit_mod_two_pow]
    rfl
  | negSucc n =>
    rw [toUInt64_negSucc,
      Nat.testBit_two_pow_sub_succ (Nat.mod_lt _ (by decide)), Nat.testBit_mod_two_pow]
    simp only [Int.testBit]
    by_cases h : i < 64 <;> simp [h]

/-- The operator `|` on `int`s commutes with the conversion to `uint64_t`. -/
theorem toUInt64_lor (a b : Int) :
    toUInt64 (Int.lor a b) = toUInt64 a ||| toUInt64 b := by
  apply Nat.eq_of_testBit_eq
  intro i
  rw [Nat.testBit_or, testBit_toUInt64, testBit_toUInt64, testBit_toUInt64, Int.testBit_lor,
    Bool.and_or_distrib_left]

theorem getElem?_getD_of_lt (l : List Nat) (i : Nat) (h : i < l.length) :
    l[i]? = some (l.getD i 0) :=
  getElem?_eq_some_getD l i 0 h

/-- A read of one byte inside the input window. -/
theorem read_input_one (signedChar : Bool) (s : SHA256DeviceState) (A : Nat)
    (hlen : s.inputBuffer.length = inputBufferSize) (hA : INPUT_REG ≤ A)
    (hA' : A + 1 ≤ INPUT_REG + 1024) :
    sha_device_read signedChar s A 1 =
      some (toUInt64 (charToInt signedChar (s.inputBuffer.getD (A - INPUT_REG) 0))) := by
  simp only [INPUT_REG, inputBufferSize] at hA hA' hlen
  have h1 : A ≠ ID_REG := by simp only [ID_REG]; omega
  have h2 : A ≠ CTRL_REG := by simp only [CTRL_REG]; omega
  have h3 : A ≠ STATUS_REG := by simp only [STATUS_REG]; omega
  have h4 : INPUT_REG ≤ A ∧ A < INPUT_REG + inputBufferSize := by
    simp only [INPUT_REG, inputBufferSize]; omega
  have h5 : ¬ ((A - INPUT_REG + 1) % 2 ^ 32 > inputBufferSize) := by
    simp only [INPUT_REG, inputBufferSize]; omega
  have g0 := getElem?_getD_of_lt s.inputBuffer (A - INPUT_REG)
    (by simp only [INPUT_REG]; omega)
  simp only [sha_device_read, h1, h2, h3, h4, h5, if_false, if_true, and_self, g0,
    Option.bind_eq_bind, Option.some_bind, Option.pure_def]

/-- A read of two bytes inside the input window. -/
theorem read_input_two (signedChar : Bool) (s : SHA256DeviceState) (A : Nat)
    (hlen : s.inputBuffer.length = inputBufferSize) (hA : INPUT_REG ≤ A)
    (hA' : A + 2 ≤ INPUT_REG + 1024) :
    sha_device_read signedChar s A 2 =
      some (toUInt64 (charToInt signedChar (s.inputBuffer.getD (A - INPUT_REG) 0)) |||
        toUInt64 (wrapInt
          (charToInt signedChar (s.inputBuffer.getD (A - INPUT_REG + 1) 0) * 2 ^ 8))) := by
  simp only [INPUT_REG, inputBufferSize] at hA hA' hlen
  have h1 : A ≠ ID_REG := by simp only [ID_REG]; omega
  have h2 : A ≠ CTRL_REG := by simp only [CTRL_REG]; omega
  have h3 : A ≠ STATUS_REG := by simp only [STATUS_REG]; omega
  have h4 : INPUT_REG ≤ A ∧ A < INPUT_REG + inputBufferSize := by
    simp only [INPUT_REG, inputBufferSize]; omega
  have h5 : ¬ ((A - INPUT_REG + 2) % 2 ^ 32 > inputBufferSize) := by
    simp only [INPUT_REG, inputBufferSize]; omega
  have g0 := getElem?_getD_of_lt s.inputBuffer (A - INPUT_REG)
    (by simp only [INPUT_REG]; omega)
  have g1 := getElem?_getD_of_lt s.inputBuffer (A - INPUT_REG + 1)
    (by simp only [INPUT_REG]; omega)
  simp only [sha_device_read, h1, h2, h3, h4, h5, if_false, if_true, and_self, g0, g1,
    Option.bind_eq_bind, Option.some_bind, Option.pure_def, toUInt64_lor]

/-- A read of four bytes inside the input window. -/
theorem read_input_four (signedChar : Bool) (s : SHA256DeviceState) (A : Nat)
    (hlen : s.inputBuffer.length = inputBufferSize) (hA : INPUT_REG ≤ A)
    (hA' : A + 4 ≤ INPUT_REG + 1024) :
    sha_device_read signedChar s A 4 =
      some (toUInt64 (charToInt signedChar (s.inputBuffer.getD (A - INPUT_REG) 0)) |||
        toUInt64 (wrapInt
          (charToInt signedChar (s.inputBuffer.getD (A - INPUT_REG + 1) 0) * 2 ^ 8)) |||
        toUInt64 (wrapInt
          (charToInt signedChar (s.inputBuffer.getD (A - INPUT_REG + 2) 0) * 2 ^ 16)) |||
        toUInt64 (wrapInt
          (charToInt signedChar (s.inputBuffer.getD (A - INPUT_REG + 3) 0) * 2 ^ 24))) := by
  simp only [INPUT_REG, inputBufferSize] at hA hA' hlen
  have h1 : A ≠ ID_REG := by simp only [ID_REG]; omega
  have h2 : A ≠ CTRL_REG := by simp only [CTRL_REG]; omega
  have h3 : A ≠ STATUS_REG := by simp only [STATUS_REG]; omega
  have h4 : INPUT_REG ≤ A ∧ A < INPUT_REG + inputBufferSize := by
    simp only [INPUT_REG, inputBufferSize]; omega
  have h5 : ¬ ((A - INPUT_REG + 4) % 2 ^ 32 > inputBufferSize) := by
    simp only [INPUT_REG, inputBufferSize]; omega
  have g0 := getElem?_getD_of_lt s.inputBuffer (A - INPUT_REG)
    (by simp only [INPUT_REG]; omega)
  have g1 := getElem?_getD_of_lt s.inputBuffer (A - INPUT_REG + 1)
    (by simp only [INPUT_REG]; omega)
  have g2 := getElem?_getD_of_lt s.inputBuffer (A - INPUT_REG + 2)
    (by simp only [INPUT_REG]; omega)
  have g3 := getElem?_getD_of_lt s.inputBuffer (A - INPUT_REG + 3)
    (by simp only [INPUT_REG]; omega)
  simp only [sha_device_read, h1, h2, h3, h4, h5, if_false, if_true, and_self, g0, g1, g2, g3,
    Option.bind_eq_bind, Option.some_bind, Option.pure_def, toUInt64_lor]

/-- A read of two or four bytes inside the output window. -/
theorem read_output_wide (signedChar : Bool) (s : SHA256DeviceState) (A : Nat)
    (hlen : s.outputBuffer.length = outputBufferSize) (hA : OUTPUT_REG ≤ A) :
    (A + 2 ≤ OUTPUT_REG + 32 →
      sha_device_read signedChar s A 2 =
        some (toUInt64 ((s.outputBuffer.getD (A - OUTPUT_REG) 0 : Nat) : Int) |||
          toUInt64 (wrapInt (((s.outputBuffer.getD (A - OUTPUT_REG + 1) 0 : Nat) : Int)
            * 2 ^ 8)))) ∧
    (A + 4 ≤ OUTPUT_REG + 32 →
      sha_device_read signedChar s A 4 =
        some (toUInt64 ((s.outputBuffer.getD (A - OUTPUT_REG) 0 : Nat) : Int) |||
          toUInt64 (wrapInt (((s.outputBuffer.getD (A - OUTPUT_REG + 1) 0 : Nat) : Int)
            * 2 ^ 8)) |||
          toUInt64 (wrapInt (((s.outputBuffer.getD (A - OUTPUT_REG + 2) 0 : Nat) : Int)
            * 2 ^ 16)) |||
          toUInt64 (wrapInt (((s.outputBuffer.getD (A - OUTPUT_REG + 3) 0 : Nat) : Int)
            * 2 ^ 24)))) := by
  simp only [OUTPUT_REG, outputBufferSize] at hA hlen
  have h1 : A ≠ ID_REG := by simp only [ID_REG]; omega
  have h2 : A ≠ CTRL_REG := by simp only [CTRL_REG]; omega
  have h3 : A ≠ STATUS_REG := by simp only [STATUS_REG]; omega
  have h4 : ¬ (INPUT_REG ≤ A ∧ A < INPUT_REG + inputBufferSize) := by
    simp only [INPUT_REG, inputBufferSize]; omega
  constructor
  · intro hA'
    simp only [OUTPUT_REG] at hA'
    have h5 : OUTPUT_REG ≤ A ∧ A < OUTPUT_REG + outputBufferSize := by
      simp only [OUTPUT_REG, outputBufferSize]; omega
    have h6 : ¬ ((A - OUTPUT_REG + 2) % 2 ^ 32 > outputBufferSize) := by
      simp only [OUTPUT_REG, outputBufferSize]; omega
    have g0 := getElem?_getD_of_lt s.outputBuffer (A - OUTPUT_REG)
      (by simp only [OUTPUT_REG]; omega)
    have g1 := getElem?_getD_of_lt s.outputBuffer (A - OUTPUT_REG + 1)
      (by simp only [OUTPUT_REG]; omega)
    simp only [sha_device_read, h1, h2, h3, h4, h5, h6, if_false, if_true, and_self, g0, g1,
      Option.bind_eq_bind, Option.some_bind, Option.pure_def, toUInt64_lor]
  · intro hA'
    simp only [OUTPUT_REG] at hA'
    have h5 : OUTPUT_REG ≤ A ∧ A < OUTPUT_REG + outputBufferSize := by
      simp only [OUTPUT_REG, outputBufferSize]; omega
    have h6 : ¬ ((A - OUTPUT_REG + 4) % 2 ^ 32 > outputBufferSize) := by
      simp only [OUTPUT_REG, outputBufferSize]; omega
    have g0 := getElem?_getD_of_lt s.outputBuffer (A - OUTPUT_REG)
      (by simp only [OUTPUT_REG]; omega)
    have g1 := getElem?_getD_of_lt s.outputBuffer (A - OUTPUT_REG + 1)
      (by simp only [OUTPUT_REG]; omega)
    have g2 := getElem?_getD_of_lt s.outputBuffer (A - OUTPUT_REG + 2)
      (by simp only [OUTPUT_REG]; omega)
    have g3 := getElem?_getD_of_lt s.outputBuffer (A - OUTPUT_REG + 3)
      (by simp only [OUTPUT_REG]; omega)
    simp only [sha_device_read, h1, h2, h3, h4, h5, h6, if_false, if_true, and_self, g0, g1,
      g2, g3, Option.bind_eq_bind, Option.some_bind, Option.pure_def, toUInt64_lor]

/-! ## The claims, continued -/

set_option maxRecDepth 1000000 in
theorem sha256_abc : FIPS.sha256 [0x61, 0x62, 0x63] =
    [0xba, 0x78, 0x16, 0xbf, 0x8f, 0x01, 0xcf, 0xea, 0x41, 0x41, 0x40, 0xde, 0x5d, 0xae, 0x22,
     0x23, 0xb0, 0x03, 0x61, 0xa3, 0x96, 0x17, 0x7a, 0x9c, 0xb4, 0x10, 0xff, 0x61, 0xf2, 0x00,
     0x15, 0xad] := by
  decide!

/-- C11: `perform_sha256_hashing` on the three bytes `abc` followed by a zero
terminator returns 0 and leaves in `digest` the bytes ba7816bf 8f01cfea
414140de 5dae2223 b00361a3 96177a9c b410ff61 f20015ad, whatever follows the
terminator in the array. -/
theorem C11_digest_abc (signedChar : Bool) (rest : List Nat) :
    perform_sha256_hashing signedChar ([0x61, 0x62, 0x63] ++ 0 :: rest) =
      some (0, [0xba, 0x78, 0x16, 0xbf, 0x8f, 0x01, 0xcf, 0xea, 0x41, 0x41, 0x40, 0xde, 0x5d,
        0xae, 0x22, 0x23, 0xb0, 0x03, 0x61, 0xa3, 0x96, 0x17, 0x7a, 0x9c, 0xb4, 0x10, 0xff,
        0x61, 0xf2, 0x00, 0x15, 0xad]) ∧
    [0x61, 0x62, 0x63] = "abc".toList.map Char.toNat := by
  refine ⟨?_, by decide⟩
  rw [perform_sha256_hashing_eq signedChar [0x61, 0x62, 0x63] rest (by decide) (by decide)
    (by decide), sha256_abc]

set_option maxRecDepth 1000000 in
theorem sha256_message56 : FIPS.sha256 message56 =
    [0x24, 0x8d, 0x6a, 0x61, 0xd2, 0x06, 0x38, 0xb8, 0xe5, 0xc0, 0x26, 0x93, 0x0c, 0x3e, 0x60,
     0x39, 0xa3, 0x3c, 0xe4, 0x59, 0x64, 0xff, 0x21, 0x67, 0xf6, 0xec, 0xed, 0xd4, 0x19, 0xdb,
     0x06, 0xc1] := by
  decide!

/-- C12: `perform_sha256_hashing` on the 56 bytes of
`abcdbcdecdefdefgefghfghighijhijkijkljklmklmnlmnomnopnopq` followed by a zero
terminator returns 0 and leaves in `digest` the bytes 248d6a61 d20638b8
e5c02693 0c3e6039 a33ce459 64ff2167 f6ecedd4 19db06c1; the message block the
function builds for it has 128 bytes, two chunks. -/
theorem C12_digest_two_blocks (signedChar : Bool) (rest : List Nat) :
    perform_sha256_hashing signedChar (message56 ++ 0 :: rest) =
      some (0, [0x24, 0x8d, 0x6a, 0x61, 0xd2, 0x06, 0x38, 0xb8, 0xe5, 0xc0, 0x26, 0x93, 0x0c,
        0x3e, 0x60, 0x39, 0xa3, 0x3c, 0xe4, 0x59, 0x64, 0xff, 0x21, 0x67, 0xf6, 0xec, 0xed,
        0xd4, 0x19, 0xdb, 0x06, 0xc1]) ∧
    message56 =
      "abcdbcdecdefdefgefghfghighijhijkijkljklmklmnlmnomnopnopq".toList.map Char.toNat ∧
    message56.length = 56 ∧
    (message56.length * 8 + 72 + 511) / 512 * 512 / 8 = 128 ∧
    encodeMessageBlock signedChar (message56 ++ 0 :: rest) (List.replicate 128 0) 56 128 =
      some (paddedBytes message56 128) := by
  refine ⟨?_, by decide, rfl, rfl, ?_⟩
  · rw [perform_sha256_hashing_eq signedChar message56 rest (by decide) (by decide)
      (by decide), sha256_message56]
  · exact encodeMessageBlock_eq signedChar message56 rest (by decide) (by decide) 128
      (by decide)

theorem runWrites_append (signedChar : Bool) (ops1 ops2 : List (Nat × Nat × Nat)) :
    ∀ s : SHA256DeviceState, runWrites signedChar (ops1 ++ ops2) s =
      (runWrites signedChar ops1 s).bind (runWrites signedChar ops2) := by
  induction ops1 with
  | nil => intro s; rfl
  | cons op ops ih =>
    intro s
    obtain ⟨addr, data, size⟩ := op
    simp only [List.cons_append, runWrites]
    cases sha_device_write signedChar s addr data size with
    | none => rfl
    | some s1 => exact ih s1

theorem read_ID_REG (signedChar : Bool) (s : SHA256DeviceState) (size : Nat) :
    sha_device_read signedChar s ID_REG size = some DEVICE_ID := by
  simp only [sha_device_read, if_true]

/-- C13: the device id is constant and read-only.  In every state reached
from `sha_instance_init` by a sequence of `sha_device_write` calls, writes to
`ID_REG` included, `sha_device_read` at `ID_REG` returns 0xFEEDCAFE for every
access size, and `sha256_ioctl` with the command `SHA256_IOC_GET_ID` and an
accessible argument returns 0, stores 0xFEEDCAFE through the argument and
leaves the device as it is; a further write to `ID_REG` changes nothing. -/
theorem C13_device_id_constant (signedChar : Bool) (ops : List (Nat × Nat × Nat))
    (s : SHA256DeviceState) (size data wsize : Nat)
    (hreach : runWrites signedChar ops sha_instance_init = some s) :
    sha_device_read signedChar s ID_REG size = some 0xFEEDCAFE ∧
    sha256_ioctl signedChar s SHA256_IOC_GET_ID true =
      some { ret := 0, dev := s, out := some 0xFEEDCAFE } ∧
    runWrites signedChar (ops ++ [(ID_REG, data, wsize)]) sha_instance_init = some s := by
  refine ⟨read_ID_REG signedChar s size, ?_, ?_⟩
  · simp only [sha256_ioctl, if_true, ioread32, read_ID_REG, Option.map_some',
      Option.bind_eq_bind, Option.some_bind, Option.pure_def]
    rfl
  · rw [runWrites_append, hreach, Option.some_bind]
    have h1 : ID_REG ≠ CTRL_REG := by decide
    have h2 : ¬ (INPUT_REG ≤ ID_REG ∧ ID_REG < INPUT_REG + inputBufferSize) := by decide
    simp only [runWrites, sha_device_write, h1, h2, if_false, Option.some_bind]

theorem C13_device_id_constant_witness :
    runWrites true [(ID_REG, 0x12345678, 4), (INPUT_REG, 0x41, 1), (CTRL_REG, 1, 4)]
        sha_instance_init =
      some { inputBuffer := 0x41 :: List.replicate 1023 0,
             outputBuffer := FIPS.sha256 [0x41], control := 1, status := 1 } ∧
    (sha_device_read true
        { inputBuffer := 0x41 :: List.replicate 1023 0,
          outputBuffer := FIPS.sha256 [0x41], control := 1, status := 1 } ID_REG 4 =
        some 0xFEEDCAFE ∧
      sha256_ioctl true
        { inputBuffer := 0x41 :: List.replicate 1023 0,
          outputBuffer := FIPS.sha256 [0x41], control := 1, status := 1 }
        SHA256_IOC_GET_ID true =
      some { ret := 0,
             dev := { inputBuffer := 0x41 :: List.replicate 1023 0,
                      outputBuffer := FIPS.sha256 [0x41], control := 1, status := 1 },
             out := some 0xFEEDCAFE } ∧
      runWrites true
          ([(ID_REG, 0x12345678, 4), (INPUT_REG, 0x41, 1), (CTRL_REG, 1, 4)] ++
            [(ID_REG, 0, 4)]) sha_instance_init =
        some { inputBuffer := 0x41 :: List.replicate 1023 0,
               outputBuffer := FIPS.sha256 [0x41], control := 1, status := 1 }) :=
  have h : runWrites true [(ID_REG, 0x12345678, 4), (INPUT_REG, 0x41, 1), (CTRL_REG, 1, 4)]
        sha_instance_init =
      some { inputBuffer := 0x41 :: List.replicate 1023 0,
             outputBuffer := FIPS.sha256 [0x41], control := 1, status := 1 } := by
    set_option maxRecDepth 1000000 in decide!
  ⟨h, C13_device_id_constant true _ _ 4 0 4 h⟩

/-- C14: evaluation of `sha_device_read` in the input window of a state whose
window starts with the bytes 0x80, 0x01, 0x02, 0x83, for which the claim
promises 0x80, 0x0180 and 0x83020180.  Where `char` is signed the byte 0x80 is
sign-extended and the reads of size 1, 2 and 4 all return
0xFFFFFFFFFFFFFF80; where `char` is unsigned the reads of size 1 and 2 return
0x80 and 0x0180, and the read of size 4 returns 0xFFFFFFFF83020180 because
`0x83 << 24` does not fit an `int`. -/
theorem C14_input_read_sign_extension :
    highByteState.WF ∧
    sha_device_read true highByteState INPUT_REG 1 = some 0xFFFFFFFFFFFFFF80 ∧
    sha_device_read true highByteState INPUT_REG 2 = some 0xFFFFFFFFFFFFFF80 ∧
    sha_device_read true highByteState INPUT_REG 4 = some 0xFFFFFFFFFFFFFF80 ∧
    sha_device_read false highByteState INPUT_REG 1 = some 0x80 ∧
    sha_device_read false highByteState INPUT_REG 2 = some 0x0180 ∧
    sha_device_read false highByteState INPUT_REG 4 = some 0xFFFFFFFF83020180 := by
  have hlen : highByteState.inputBuffer.length = inputBufferSize := by decide!
  refine ⟨by decide!, ?_, ?_, ?_, ?_, ?_, ?_⟩
  · rw [read_input_one true _ _ hlen (by decide) (by decide)]; decide!
  · rw [read_input_two true _ _ hlen (by decide) (by decide)]; decide!
  · rw [read_input_four true _ _ hlen (by decide) (by decide)]; decide!
  · rw [read_input_one false _ _ hlen (by decide) (by decide)]; decide!
  · rw [read_input_two false _ _ hlen (by decide) (by decide)]; decide!
  · rw [read_input_four false _ _ hlen (by decide) (by decide)]; decide!

/-- C15: evaluation of `sha_device_read` in the output window of the state
reached from the freshly initialised device by a write of 1 to `CTRL_REG`.
The bytes 8 to 11 of `outputBuffer` are 0x9a, 0xfb, 0xf4, 0xc8; the reads of
size 1 and 2 at `OUTPUT_REG + 8` return 0x9a and 0xfb9a, and the read of size
4 returns 0xFFFFFFFFC8F4FB9A, not 0xC8F4FB9A, because `0xc8 << 24` does not
fit an `int` and the negative result is converted to `uint64_t`. -/
theorem C15_output_read_sign_extension (signedChar : Bool) :
    digestState.WF ∧
    sha_device_write signedChar sha_instance_init CTRL_REG 1 4 = some digestState ∧
    sha_device_read signedChar digestState (OUTPUT_REG + 8) 1 = some 0x9a ∧
    sha_device_read signedChar digestState (OUTPUT_REG + 8) 2 = some 0xfb9a ∧
    sha_device_read signedChar digestState (OUTPUT_REG + 8) 4 = some 0xFFFFFFFFC8F4FB9A ∧
    ¬ (0xFFFFFFFFC8F4FB9A < 2 ^ (8 * 4)) := by
  have hlen : digestState.outputBuffer.length = outputBufferSize := by decide
  have hwide := read_output_wide signedChar digestState (OUTPUT_REG + 8) hlen (by decide)
  have hstart := start_hash_eq signedChar sha_instance_init 4 [] (List.replicate 1023 0) rfl
    (by simp [sha_instance_init]) (by
      intro b hb
      have := (List.mem_replicate.1 hb).2
      omega) (by simp [sha_instance_init]) (by simp)
  refine ⟨by decide!, ?_, ?_, ?_, ?_, by decide⟩
  · rw [hstart, sha256_nil]; rfl
  · rw [read_output_byte signedChar _ hlen (by decide) 8 (by decide)]; rfl
  · rw [hwide.1 (by decide)]; decide!
  · rw [hwide.2 (by decide)]; decide!

/-- C20: evaluation of the round trip on the input window for the byte 0x80.
Where `char` is signed, the one-byte write of 0x80 at `INPUT_REG` followed by
the one-byte read at `INPUT_REG` returns 0xFFFFFFFFFFFFFF80, not 0x80; the
byte 0x7F comes back as 0x7F, and where `char` is unsigned 0x80 comes back as
0x80. -/
theorem C20_round_trip_high_byte :
    sampleState.WF ∧
    (sha_device_write true sampleState INPUT_REG 0x80 1).bind
        (fun s => sha_device_read true s INPUT_REG 1) = some 0xFFFFFFFFFFFFFF80 ∧
    (sha_device_write true sampleState INPUT_REG 0x7F 1).bind
        (fun s => sha_device_read true s INPUT_REG 1) = some 0x7F ∧
    (sha_device_write false sampleState INPUT_REG 0x80 1).bind
        (fun s => sha_device_read false s INPUT_REG 1) = some 0x80 := by
  decide!

/-- A read that is neither a register read nor wholly inside one of the two
windows returns the sentinel, whatever the size. -/
theorem read_outside (signedChar : Bool) (s : SHA256DeviceState) (A S : Nat)
    (hS : S < 2 ^ 32 - 1024)
    (h1 : A ≠ ID_REG) (h2 : A ≠ CTRL_REG) (h3 : A ≠ STATUS_REG)
    (hin : ¬ (INPUT_REG ≤ A ∧ A + S ≤ INPUT_REG + inputBufferSize))
    (hout : ¬ (OUTPUT_REG ≤ A ∧ A + S ≤ OUTPUT_REG + outputBufferSize)) :
    sha_device_read signedChar s A S = some 0xDEADBEEF := by
  simp only [INPUT_REG, OUTPUT_REG, inputBufferSize, outputBufferSize] at hin hout
  by_cases hwin : INPUT_REG ≤ A ∧ A < INPUT_REG + inputBufferSize
  · have hover : (A - INPUT_REG + S) % 2 ^ 32 > inputBufferSize := by
      simp only [INPUT_REG, inputBufferSize] at hwin ⊢
      omega
    simp only [sha_device_read, h1, h2, h3, hwin, hover, if_false, if_true, and_self]
  · by_cases hwout : OUTPUT_REG ≤ A ∧ A < OUTPUT_REG + outputBufferSize
    · have hover : (A - OUTPUT_REG + S) % 2 ^ 32 > outputBufferSize := by
        simp only [OUTPUT_REG, outputBufferSize] at hwout ⊢
        omega
      simp only [sha_device_read, h1, h2, h3, hwin, hwout, hover, if_false, if_true,
        and_self]
    · simp only [sha_device_read, h1, h2, h3, hwin, hwout, if_false]

/-- C16, as the source behaves: for every device state, every size `S` in
{1, 2, 4} and every address `A` that is not `ID_REG`, `CTRL_REG` or
`STATUS_REG` and is not a read lying wholly inside the input window or wholly
inside the output window, `sha_device_read` returns 0xDEADBEEF in full,
whatever `S` is; the low `S` bytes of that value are 0xEF, 0xBEEF and
0xDEADBEEF.  The function returns a value only: it has no access to change
the device state. -/
theorem C16_sentinel_not_truncated (signedChar : Bool) (s : SHA256DeviceState) (A S : Nat)
    (hS : S = 1 ∨ S = 2 ∨ S = 4)
    (h1 : A ≠ ID_REG) (h2 : A ≠ CTRL_REG) (h3 : A ≠ STATUS_REG)
    (hin : ¬ (INPUT_REG ≤ A ∧ A + S ≤ INPUT_REG + inputBufferSize))
    (hout : ¬ (OUTPUT_REG ≤ A ∧ A + S ≤ OUTPUT_REG + outputBufferSize)) :
    sha_device_read signedChar s A S = some 0xDEADBEEF ∧
    0xDEADBEEF % 2 ^ (8 * S) = (if S = 1 then 0xEF else if S = 2 then 0xBEEF else 0xDEADBEEF) := by
  refine ⟨read_outside signedChar s A S ?_ h1 h2 h3 hin hout, ?_⟩
  · rcases hS with h | h | h <;> (rw [h]; decide)
  · rcases hS with h | h | h <;> (rw [h]; decide)

theorem C16_sentinel_not_truncated_witness :
    ((1 = 1 ∨ 1 = 2 ∨ 1 = 4) ∧ INIT_REG ≠ ID_REG ∧ INIT_REG ≠ CTRL_REG ∧
      INIT_REG ≠ STATUS_REG ∧
      ¬ (INPUT_REG ≤ INIT_REG ∧ INIT_REG + 1 ≤ INPUT_REG + inputBufferSize) ∧
      ¬ (OUTPUT_REG ≤ INIT_REG ∧ INIT_REG + 1 ≤ OUTPUT_REG + outputBufferSize)) ∧
    (sha_device_read true sampleState INIT_REG 1 = some 0xDEADBEEF ∧
      0xDEADBEEF % 2 ^ (8 * 1) =
        (if 1 = 1 then 0xEF else if 1 = 2 then 0xBEEF else 0xDEADBEEF)) :=
  ⟨⟨by decide, by decide, by decide, by decide, by decide, by decide⟩,
    C16_sentinel_not_truncated true sampleState INIT_REG 1 (by decide) (by decide) (by decide)
      (by decide) (by decide) (by decide)⟩

/-- C16 as stated fails: the one-byte read at `INIT_REG`, an address the
device does not serve, returns 0xDEADBEEF and not 0xEF. -/
theorem C16_sentinel_truncated_counterexample :
    sha_device_read true sampleState INIT_REG 1 = some 0xDEADBEEF ∧
    sha_device_read true sampleState INIT_REG 1 ≠ some 0xEF ∧
    sha_device_read true sampleState (INPUT_REG + 1023) 2 = some 0xDEADBEEF ∧
    sha_device_read true sampleState (INPUT_REG + 1023) 2 ≠ some 0xBEEF := by
  decide!

/-- C17, as the source behaves: for every device state and every access size
`S` outside {1, 2, 4}, a read at an address other than `ID_REG`, `CTRL_REG`
and `STATUS_REG` returns the sentinel 0xDEADBEEF, never window contents; at
the three registers the size is not looked at and the read returns
0xFEEDCAFE, `control` and `status`. -/
theorem C17_invalid_size (signedChar : Bool) (s : SHA256DeviceState) (A S : Nat)
    (hS1 : S ≠ 1) (hS2 : S ≠ 2) (hS4 : S ≠ 4) :
    (A ≠ ID_REG → A ≠ CTRL_REG → A ≠ STATUS_REG →
      sha_device_read signedChar s A S = some 0xDEADBEEF) ∧
    sha_device_read signedChar s ID_REG S = some 0xFEEDCAFE ∧
    sha_device_read signedChar s CTRL_REG S = some s.control ∧
    sha_device_read signedChar s STATUS_REG S = some s.status := by
  refine ⟨?_, ?_, ?_, ?_⟩
  · intro h1 h2 h3
    unfold sha_device_read
    simp only [h1, h2, h3, if_false]
    repeat' split
    all_goals rfl
  · simp only [sha_device_read, if_true]
  · simp only [sha_device_read, if_true, CTRL_REG, ID_REG]
    rfl
  · simp only [sha_device_read, if_true, STATUS_REG, CTRL_REG, ID_REG]
    rfl

theorem C17_invalid_size_witness :
    ((3 : Nat) ≠ 1 ∧ (3 : Nat) ≠ 2 ∧ (3 : Nat) ≠ 4) ∧
    ((INPUT_REG ≠ ID_REG → INPUT_REG ≠ CTRL_REG → INPUT_REG ≠ STATUS_REG →
        sha_device_read true sampleState INPUT_REG 3 = some 0xDEADBEEF) ∧
      sha_device_read true sampleState ID_REG 3 = some 0xFEEDCAFE ∧
      sha_device_read true sampleState CTRL_REG 3 = some sampleState.control ∧
      sha_device_read true sampleState STATUS_REG 3 = some sampleState.status) :=
  ⟨⟨by decide, by decide, by decide⟩,
    C17_invalid_size true sampleState INPUT_REG 3 (by decide) (by decide) (by decide)⟩

/-- C17 as stated fails: the read of size 3 at `ID_REG` returns the device id
0xFEEDCAFE, and the reads of size 3 at `CTRL_REG` and `STATUS_REG` return
`control` and `status`, not the sentinel. -/
theorem C17_invalid_size_counterexample :
    sha_device_read true sampleState ID_REG 3 = some 0xFEEDCAFE ∧
    sha_device_read true sampleState ID_REG 3 ≠ some 0xDEADBEEF ∧
    sha_device_read true sampleState CTRL_REG 3 = some 7 ∧
    sha_device_read true sampleState STATUS_REG 8 = some 0 := by
  decide!

/-- A write inside the input window stores the low byte of the data at the
offset of the address. -/
theorem write_input_eq (signedChar : Bool) (s : SHA256DeviceState) (A data size : Nat)
    (hlen : s.inputBuffer.length = inputBufferSize) (hA : INPUT_REG ≤ A)
    (hA' : A < INPUT_REG + inputBufferSize) :
    sha_device_write signedChar s A data size =
      some { s with inputBuffer := s.inputBuffer.set (A - INPUT_REG) (data % 256) } := by
  have h1 : A ≠ CTRL_REG := by
    simp only [INPUT_REG, CTRL_REG] at hA ⊢
    omega
  have hst : store s.inputBuffer (A - INPUT_REG) (data % 256) =
      some (s.inputBuffer.set (A - INPUT_REG) (data % 256)) :=
    store_eq_some _ _ _ (by
      rw [hlen]
      simp only [INPUT_REG, inputBufferSize] at hA hA' ⊢
      omega)
  simp only [sha_device_write, h1, if_false, hA, hA', and_self, if_true, hst,
    Option.bind_eq_bind, Option.some_bind, Option.pure_def]

/-- C18: for every device state, every data value, every access size and
every address `A` with `INPUT_REG <= A < INPUT_REG + 1024`,
`sha_device_write` sets `inputBuffer[A - INPUT_REG]` to `data mod 256` and
leaves every other byte of `inputBuffer`, all of `outputBuffer`, `control`
and `status` unchanged: the higher bytes of a wider write are discarded, not
stored in the neighbouring bytes. -/
theorem C18_input_write_frame (signedChar : Bool) (s : SHA256DeviceState)
    (A data size : Nat) (hlen : s.inputBuffer.length = inputBufferSize)
    (hA : INPUT_REG ≤ A) (hA' : A < INPUT_REG + inputBufferSize) :
    ∃ s', sha_device_write signedChar s A data size = some s' ∧
      s'.inputBuffer[A - INPUT_REG]? = some (data % 256) ∧
      (∀ j, j ≠ A - INPUT_REG → s'.inputBuffer[j]? = s.inputBuffer[j]?) ∧
      s'.inputBuffer.length = inputBufferSize ∧
      s'.outputBuffer = s.outputBuffer ∧ s'.control = s.control ∧ s'.status = s.status := by
  refine ⟨_, write_input_eq signedChar s A data size hlen hA hA', ?_, ?_, ?_, rfl, rfl, rfl⟩
  · exact List.getElem?_set_self (by
      rw [hlen]
      simp only [INPUT_REG, inputBufferSize] at hA hA' ⊢
      omega)
  · intro j hj
    exact List.getElem?_set_ne (Ne.symm hj)
  · simp only [List.length_set, hlen]

theorem C18_input_write_frame_witness :
    (sampleState.inputBuffer.length = inputBufferSize ∧ INPUT_REG ≤ INPUT_REG + 5 ∧
      INPUT_REG + 5 < INPUT_REG + inputBufferSize) ∧
    ∃ s', sha_device_write true sampleState (INPUT_REG + 5) 0x11223344 4 = some s' ∧
      s'.inputBuffer[INPUT_REG + 5 - INPUT_REG]? = some (0x11223344 % 256) ∧
      (∀ j, j ≠ INPUT_REG + 5 - INPUT_REG →
        s'.inputBuffer[j]? = sampleState.inputBuffer[j]?) ∧
      s'.inputBuffer.length = inputBufferSize ∧
      s'.outputBuffer = sampleState.outputBuffer ∧ s'.control = sampleState.control ∧
      s'.status = sampleState.status :=
  ⟨⟨by decide!, by decide, by decide⟩,
    C18_input_write_frame true sampleState (INPUT_REG + 5) 0x11223344 4 (by decide!)
      (by decide) (by decide)⟩

/-- C19: for every device state, every data value and size, and every address
`A` that is neither `CTRL_REG` nor inside the input window
`[INPUT_REG, INPUT_REG + 1024)`, `sha_device_write` leaves the whole device
state unchanged; in particular at `ID_REG`, at `STATUS_REG` and at every
address of the output window. -/
theorem C19_other_write_no_effect (signedChar : Bool) (s : SHA256DeviceState)
    (A data size : Nat) (hctrl : A ≠ CTRL_REG)
    (hwin : ¬ (INPUT_REG ≤ A ∧ A < INPUT_REG + inputBufferSize)) :
    sha_device_write signedChar s A data size = some s ∧
    sha_device_write signedChar s ID_REG data size = some s ∧
    sha_device_write signedChar s STATUS_REG data size = some s ∧
    (∀ k, k < outputBufferSize →
      sha_device_write signedChar s (OUTPUT_REG + k) data size = some s) := by
  have key : ∀ B, B ≠ CTRL_REG → ¬ (INPUT_REG ≤ B ∧ B < INPUT_REG + inputBufferSize) →
      sha_device_write signedChar s B data size = some s := by
    intro B h1 h2
    simp only [sha_device_write, h1, h2, if_false]
  refine ⟨key A hctrl hwin, key _ (by decide) (by decide), key _ (by decide) (by decide), ?_⟩
  intro k hk
  apply key
  · simp only [OUTPUT_REG, CTRL_REG]; omega
  · simp only [OUTPUT_REG, INPUT_REG, inputBufferSize]; omega

theorem C19_other_write_no_effect_witness :
    (0x430 ≠ CTRL_REG ∧ ¬ (INPUT_REG ≤ 0x430 ∧ 0x430 < INPUT_REG + inputBufferSize)) ∧
    (sha_device_write true sampleState 0x430 0xFFFFFFFF 4 = some sampleState ∧
      sha_device_write true sampleState ID_REG 0xFFFFFFFF 4 = some sampleState ∧
      sha_device_write true sampleState STATUS_REG 0xFFFFFFFF 4 = some sampleState ∧
      (∀ k, k < outputBufferSize →
        sha_device_write true sampleState (OUTPUT_REG + k) 0xFFFFFFFF 4 = some sampleState)) :=
  ⟨⟨by decide, by decide⟩,
    C19_other_write_no_effect true sampleState 0x430 0xFFFFFFFF 4 (by decide) (by decide)⟩

/-- The value a one-byte read returns after a one-byte write of `b` at the
same address of the input window: the byte `b` converted from `char` to
`uint64_t`, which is `b` itself when `char` is unsigned or `b` is below
0x80, and `b` with the bits 8 to 63 set otherwise. -/
theorem round_trip_value (signedChar : Bool) (s : SHA256DeviceState) (A b : Nat)
    (hlen : s.inputBuffer.length = inputBufferSize) (hA : INPUT_REG ≤ A)
    (hA' : A < INPUT_REG + inputBufferSize) (hb : b < 256) :
    (sha_device_write signedChar s A b 1).bind
        (fun s' => sha_device_read signedChar s' A 1) =
      some (if signedChar = true ∧ 128 ≤ b then b + (2 ^ 64 - 2 ^ 8) else b) := by
  have hoff : A - INPUT_REG < s.inputBuffer.length := by
    rw [hlen]
    simp only [INPUT_REG, inputBufferSize] at hA hA' ⊢
    omega
  rw [write_input_eq signedChar s A b 1 hlen hA hA', Option.some_bind,
    read_input_one signedChar _ A (by simp only [List.length_set, hlen]) hA
      (by simp only [INPUT_REG, inputBufferSize] at hA' ⊢; omega)]
  have hget : (s.inputBuffer.set (A - INPUT_REG) (b % 256)).getD (A - INPUT_REG) 0 = b := by
    rw [List.getD_eq_getElem _ _ (by simp only [List.length_set]; exact hoff)]
    simp [Nat.mod_eq_of_lt hb]
  rw [hget]
  congr 1
  have hsmall : b % 2 ^ 64 = b := Nat.mod_eq_of_lt (by omega)
  cases signedChar with
  | false =>
    simp only [charToInt, Bool.false_and, Bool.false_eq_true, if_false, false_and,
      toUInt64_ofNat, hsmall]
  | true =>
    by_cases h : 128 ≤ b
    · simp only [charToInt, Bool.true_and, h, decide_True, if_true, true_and]
      have e : ((b : Int) - 256) = Int.negSucc (255 - b) := by
        rw [Int.negSucc_eq]
        omega
      rw [e, toUInt64_negSucc]
      omega
    · simp only [charToInt, Bool.true_and, h, decide_False, Bool.false_eq_true, if_false,
        and_false, toUInt64_ofNat, hsmall]

/-! ### The control register -/

theorem read_CTRL_REG (signedChar : Bool) (s : SHA256DeviceState) (size : Nat) :
    sha_device_read signedChar s CTRL_REG size = some s.control := by
  simp only [sha_device_read, CTRL_REG, ID_REG, if_true, if_false,
    show ¬ ((8 : Nat) = 0) by decide]

theorem read_STATUS_REG (signedChar : Bool) (s : SHA256DeviceState) (size : Nat) :
    sha_device_read signedChar s STATUS_REG size = some s.status := by
  simp only [sha_device_read, STATUS_REG, CTRL_REG, ID_REG, if_true, if_false,
    show ¬ ((12 : Nat) = 0) by decide, show ¬ ((12 : Nat) = 8) by decide]

theorem write_reset_eq (signedChar : Bool) (s : SHA256DeviceState) (size : Nat) (hwf : s.WF) :
    sha_device_write signedChar s CTRL_REG 0 size =
      some { inputBuffer := List.replicate 1024 0, outputBuffer := List.replicate 32 0,
             control := 0, status := 0 } := by
  have hin : memset s.inputBuffer 0 inputBufferSize = List.replicate 1024 0 := by
    rw [memset, List.drop_of_length_le (by rw [hwf.1]), List.append_nil]
  have hout : memset s.outputBuffer 0 outputBufferSize = List.replicate 32 0 := by
    rw [memset, List.drop_of_length_le (by rw [hwf.2.1]), List.append_nil]
  have h01 : ¬ ((0 : Nat) = deviceEN) := by decide
  simp only [sha_device_write, if_true, h01, if_false, hin, hout, Nat.zero_mod]

theorem write_ctrl_other (signedChar : Bool) (s : SHA256DeviceState) (v size : Nat)
    (h0 : v ≠ 0) (h1 : v ≠ 1) :
    sha_device_write signedChar s CTRL_REG v size =
      some { inputBuffer := s.inputBuffer, outputBuffer := s.outputBuffer,
             control := v % 2 ^ 32, status := s.status } := by
  simp only [sha_device_write, if_true, deviceEN, deviceRST, h0, h1, if_false]

theorem start_hash_window (signedChar : Bool) (s : SHA256DeviceState) (size : Nat)
    (hwf : s.WF) (hzero : 0 ∈ s.inputBuffer) :
    sha_device_write signedChar s CTRL_REG 1 size =
      some { inputBuffer := s.inputBuffer,
             outputBuffer := FIPS.sha256 (FIPS.effectiveInput s.inputBuffer),
             control := 1, status := 1 } := by
  obtain ⟨rest, hrest⟩ := window_split s.inputBuffer hzero
  exact start_hash_eq signedChar s size _ rest hrest hwf.1 hwf.2.2.1 hwf.2.1
    (effectiveInput_ne_zero _)

theorem perform_sha256_hashing_none (signedChar : Bool) (window : List Nat)
    (h : ∀ b ∈ window, b ≠ 0) : perform_sha256_hashing signedChar window = none := by
  simp only [perform_sha256_hashing, strlen_none window h, Option.bind_eq_bind,
    Option.none_bind]

theorem start_hash_none (signedChar : Bool) (s : SHA256DeviceState) (size : Nat)
    (h : ∀ b ∈ s.inputBuffer, b ≠ 0) :
    sha_device_write signedChar s CTRL_REG 1 size = none := by
  simp only [sha_device_write, if_true, deviceEN, perform_sha256_hashing_none _ _ h,
    Option.bind_eq_bind, Option.none_bind]

/-- A write the device serves: any write other than a start-hash on a window
without a zero byte. -/
theorem sha_device_write_WF (signedChar : Bool) (s : SHA256DeviceState) (addr data size : Nat)
    (hwf : s.WF) (hterm : addr = CTRL_REG → data = 1 → 0 ∈ s.inputBuffer) :
    ∃ s', sha_device_write signedChar s addr data size = some s' ∧ s'.WF ∧
      (s'.status = 0 ∨ s'.status = 1 ∨ s'.status = s.status) ∧
      (s'.outputBuffer = s.outputBuffer ∧ s'.status = s.status ∨
        s'.status = 0 ∧ s'.outputBuffer = List.replicate 32 0 ∨ s'.status = 1) := by
  by_cases hc : addr = CTRL_REG
  · subst hc
    by_cases h1 : data = 1
    · subst h1
      refine ⟨_, start_hash_window signedChar s size hwf (hterm rfl rfl), ?_, Or.inr (Or.inl rfl),
        Or.inr (Or.inr rfl)⟩
      exact ⟨hwf.1, length_sha256 _, hwf.2.2.1, sha256_lt _, Nat.one_lt_two_pow (by decide),
        Nat.one_lt_two_pow (by decide)⟩
    · by_cases h0 : data = 0
      · subst h0
        refine ⟨_, write_reset_eq signedChar s size hwf, ?_, Or.inl rfl, Or.inr (Or.inl ⟨rfl, rfl⟩)⟩
        refine ⟨List.length_replicate _ _, List.length_replicate _ _, ?_, ?_, Nat.two_pow_pos _,
          Nat.two_pow_pos _⟩
        · intro b hb
          rw [(List.mem_replicate.1 hb).2]; decide
        · intro b hb
          rw [(List.mem_replicate.1 hb).2]; decide
      · refine ⟨_, write_ctrl_other signedChar s data size h0 h1, ?_, Or.inr (Or.inr rfl),
          Or.inl ⟨rfl, rfl⟩⟩
        exact ⟨hwf.1, hwf.2.1, hwf.2.2.1, hwf.2.2.2.1, Nat.mod_lt _ (by decide), hwf.2.2.2.2.2⟩
  · by_cases hin : INPUT_REG ≤ addr ∧ addr < INPUT_REG + inputBufferSize
    · refine ⟨_, write_input_eq signedChar s addr data size hwf.1 hin.1 hin.2, ?_,
        Or.inr (Or.inr rfl), Or.inl ⟨rfl, rfl⟩⟩
      refine ⟨by simp [hwf.1], hwf.2.1, ?_, hwf.2.2.2.1, hwf.2.2.2.2.1, hwf.2.2.2.2.2⟩
      intro b hb
      rcases List.mem_or_eq_of_mem_set hb with h | h
      · exact hwf.2.2.1 b h
      · rw [h]; exact Nat.mod_lt _ (by decide)
    · refine ⟨s, ?_, hwf, Or.inr (Or.inr rfl), Or.inl ⟨rfl, rfl⟩⟩
      simp only [sha_device_write, hc, hin, if_false]

/-- The states in which `status` is 0 or 1 and a `status` of 0 comes with an
output buffer of zero bytes are closed under the writes the device serves. -/
theorem sha_device_write_inv (signedChar : Bool) (s s' : SHA256DeviceState)
    (addr data size : Nat) (hwf : s.WF) (hst : s.status = 0 ∨ s.status = 1)
    (hout : s.status = 0 → s.outputBuffer = List.replicate 32 0)
    (h : sha_device_write signedChar s addr data size = some s') :
    s'.WF ∧ (s'.status = 0 ∨ s'.status = 1) ∧
      (s'.status = 0 → s'.outputBuffer = List.replicate 32 0) := by
  have hterm : addr = CTRL_REG → data = 1 → 0 ∈ s.inputBuffer := by
    intro ha hd
    by_contra hz
    subst ha
    subst hd
    rw [start_hash_none signedChar s size (fun b hb hb0 => hz (hb0 ▸ hb))] at h
    exact Option.noConfusion h
  obtain ⟨t, ht, hwf', h1, h2⟩ := sha_device_write_WF signedChar s addr data size hwf hterm
  rw [ht] at h
  cases h
  refine ⟨hwf', ?_, ?_⟩
  · rcases h1 with h | h | h
    · exact Or.inl h
    · exact Or.inr h
    · rw [h]; exact hst
  · intro h0
    rcases h2 with ⟨ho, hs⟩ | ⟨_, ho⟩ | h
    · rw [ho]; exact hout (hs ▸ h0)
    · exact ho
    · rw [h] at h0; exact absurd h0 (by decide)

theorem runWrites_inv (signedChar : Bool) (ops : List (Nat × Nat × Nat)) :
    ∀ s0 s : SHA256DeviceState, s0.WF → (s0.status = 0 ∨ s0.status = 1) →
      (s0.status = 0 → s0.outputBuffer = List.replicate 32 0) →
      runWrites signedChar ops s0 = some s →
      s.WF ∧ (s.status = 0 ∨ s.status = 1) ∧
        (s.status = 0 → s.outputBuffer = List.replicate 32 0) := by
  induction ops with
  | nil =>
    intro s0 s hwf hst hout h
    simp only [runWrites, Option.some.injEq] at h
    subst h
    exact ⟨hwf, hst, hout⟩
  | cons op ops ih =>
    intro s0 s hwf hst hout h
    obtain ⟨addr, data, size⟩ := op
    simp only [runWrites] at h
    cases h1 : sha_device_write signedChar s0 addr data size with
    | none => rw [h1] at h; exact Option.noConfusion h
    | some s1 =>
      rw [h1] at h
      obtain ⟨a, b, c⟩ := sha_device_write_inv signedChar s0 s1 addr data size hwf hst hout h1
      exact ih s1 s a b c h

theorem sha_instance_init_WF : sha_instance_init.WF := by
  refine ⟨List.length_replicate _ _, List.length_replicate _ _, ?_, ?_, Nat.two_pow_pos _,
    Nat.two_pow_pos _⟩
  · intro b hb
    rw [(List.mem_replicate.1 hb).2]; decide
  · intro b hb
    rw [(List.mem_replicate.1 hb).2]; decide

/-! ### The driver loops -/

theorem sha256_write_loop_eq {σ : Type} (wr : σ → Nat → Nat → Option σ) (buf : List Nat)
    (ppos : Nat) : ∀ (n i : Nat) (bus : σ), i + n ≤ buf.length →
      sha256_write_loop wr buf ppos n i bus =
        ((List.range' i n).foldlM
          (fun b j => wr b (buf.getD j 0 % 256) (INPUT_REG + ppos + j)) bus).map
          fun b => (b, false) := by
  intro n
  induction n with
  | zero => intro i bus _; rfl
  | succ n ih =>
    intro i bus h
    have hi : i < buf.length := by omega
    have hget : buf[i]? = some (buf.getD i 0) := getElem?_getD_of_lt buf i hi
    rw [sha256_write_loop, hget, List.range'_succ, List.foldlM_cons]
    simp only [Option.bind_eq_bind]
    cases hw : wr bus (buf.getD i 0 % 256) (INPUT_REG + ppos + i) with
    | none => rfl
    | some b1 =>
      simp only [Option.some_bind]
      exact ih (i + 1) b1 (by omega)

theorem sha256_write_eq {σ : Type} (wr : σ → Nat → Nat → Option σ) (bus : σ) (buf : List Nat)
    (count ppos : Nat) (h : min count 1024 ≤ buf.length) :
    sha256_write wr bus buf count ppos =
      ((List.range (min count 1024)).foldlM
        (fun b j => wr b (buf.getD j 0 % 256) (INPUT_REG + ppos + j)) bus).map
        fun b => { ret := ((min count 1024 : Nat) : Int), bus := b,
                   pos := ppos + min count 1024 } := by
  have hc : (if count > inputBufferSize then inputBufferSize else count) = min count 1024 := by
    simp only [inputBufferSize]
    split <;> omega
  rw [sha256_write, hc, sha256_write_loop_eq wr buf ppos _ 0 bus (by omega),
    List.range_eq_range']
  cases (List.range' 0 (min count 1024)).foldlM
      (fun b j => wr b (buf.getD j 0 % 256) (INPUT_REG + ppos + j)) bus with
  | none => rfl
  | some b => rfl

theorem foldlM_logWrite8 (f g : Nat → Nat) (l : List Nat) :
    ∀ log : List (Nat × Nat),
      l.foldlM (fun b j => logWrite8 b (f j) (g j)) log =
        some (log ++ l.map fun j => (g j, f j)) := by
  induction l with
  | nil => intro log; simp only [List.foldlM_nil, List.map_nil, List.append_nil]; rfl
  | cons a l ih =>
    intro log
    rw [List.foldlM_cons]
    have h1 : logWrite8 log (f a) (g a) = some (log ++ [(g a, f a)]) := rfl
    rw [h1]
    simp only [Option.bind_eq_bind, Option.some_bind]
    rw [ih]
    simp only [List.map_cons, List.append_assoc, List.singleton_append]

theorem foldlM_iowrite8 (signedChar : Bool) (buf : List Nat) (ppos : Nat)
    (hb : ∀ b ∈ buf, b < 256) :
    ∀ (n i : Nat) (dev : SHA256DeviceState), i + n ≤ buf.length →
      INPUT_REG + ppos + i + n ≤ regionSize →
      (List.range' i n).foldlM
        (fun b j => iowrite8 signedChar b (buf.getD j 0 % 256) (INPUT_REG + ppos + j)) dev =
      writeBytes signedChar ((buf.drop i).take n) (INPUT_REG + ppos + i) dev := by
  intro n
  induction n with
  | zero => intro i dev _ _; rfl
  | succ n ih =>
    intro i dev h hr
    have hi : i < buf.length := by omega
    have hlt : buf.getD i 0 < 256 := by
      rw [List.getD_eq_getElem _ _ hi]
      exact hb _ (List.getElem_mem _)
    have hdrop : (buf.drop i).take (n + 1) = buf.getD i 0 :: (buf.drop (i + 1)).take n := by
      rw [List.drop_eq_getElem_cons hi, List.take_succ_cons, List.getD_eq_getElem _ _ hi]
    have haddr : INPUT_REG + ppos + i < regionSize := by omega
    rw [List.range'_succ, List.foldlM_cons, hdrop, writeBytes]
    simp only [iowrite8, haddr, if_true, Option.bind_eq_bind]
    rw [show buf.getD i 0 % 256 % 2 ^ 8 = buf.getD i 0 by omega]
    cases sha_device_write signedChar dev (INPUT_REG + ppos + i) (buf.getD i 0) 1 with
    | none => rfl
    | some d1 =>
      simp only [Option.some_bind]
      exact ih (i + 1) d1 (by omega) (by omega)

/-- The driver's write on the device is the sequence of one-byte device writes
of the first `min count 1024` bytes of the user buffer. -/
theorem sha256_write_device (signedChar : Bool) (dev : SHA256DeviceState) (buf : List Nat)
    (count ppos : Nat) (h : min count 1024 ≤ buf.length) (hb : ∀ b ∈ buf, b < 256)
    (hr : INPUT_REG + ppos + min count 1024 ≤ regionSize) :
    sha256_write (iowrite8 signedChar) dev buf count ppos =
      (writeBytes signedChar (buf.take (min count 1024)) (INPUT_REG + ppos) dev).map
        fun b => { ret := ((min count 1024 : Nat) : Int), bus := b,
                   pos := ppos + min count 1024 } := by
  rw [sha256_write_eq _ _ _ _ _ h, List.range_eq_range',
    foldlM_iowrite8 signedChar buf ppos hb _ 0 dev (by omega) (by omega)]
  rfl

theorem take_succ_set {α : Type} (l : List α) (i : Nat) (v : α) (h : i < l.length) :
    (l.set i v).take (i + 1) = l.take i ++ [v] := by
  rw [List.take_succ, List.getElem?_set_self h, List.set_take,
    List.set_eq_of_length_le (by rw [List.length_take]; omega)]
  rfl

theorem sha256_read_loop_eq {σ : Type} (rd : σ → Nat → Option (Nat × σ)) (val : Nat → Nat)
    (step : σ → Nat → σ) (P : σ → Prop) (ppos N : Nat)
    (hrd : ∀ b j, P b → j < N →
      rd b (OUTPUT_REG + ppos + j) = some (val j, step b j) ∧ P (step b j)) :
    ∀ (n i : Nat) (bus : σ) (buf : List Nat), P bus → i + n ≤ N → i + n ≤ buf.length →
      sha256_read_loop rd ppos n i (bus, buf) =
        some (((List.range' i n).foldl step bus,
          buf.take i ++ (List.range' i n).map (fun j => val j % 256) ++ buf.drop (i + n)),
          false) := by
  intro n
  induction n with
  | zero =>
    intro i bus buf _ _ _
    simp only [sha256_read_loop, List.range'_zero, List.foldl_nil, List.map_nil,
      List.append_nil, Nat.add_zero, List.take_append_drop]
  | succ n ih =>
    intro i bus buf hP hN hl
    have hi : i < buf.length := by omega
    obtain ⟨h1, h2⟩ := hrd bus i hP (by omega)
    rw [sha256_read_loop, h1]
    simp only [Option.bind_eq_bind, Option.some_bind, hi, if_true]
    rw [ih (i + 1) (step bus i) (buf.set i (val i % 256)) h2 (by omega)
      (by rw [List.length_set]; omega), take_succ_set _ _ _ hi,
      List.drop_set_of_lt _ _ (by omega), List.range'_succ, List.foldl_cons, List.map_cons,
      show i + 1 + n = i + (n + 1) by omega]
    simp only [List.append_assoc, List.singleton_append]

theorem sha256_read_eq {σ : Type} (rd : σ → Nat → Option (Nat × σ)) (val : Nat → Nat)
    (step : σ → Nat → σ) (P : σ → Prop) (bus : σ) (buf : List Nat) (count ppos : Nat)
    (hrd : ∀ b j, P b → j < min count 32 →
      rd b (OUTPUT_REG + j) = some (val j, step b j) ∧ P (step b j))
    (hP : P bus) (h : min count 32 ≤ buf.length) :
    sha256_read rd bus buf count ppos =
      some { ret := ((min count 32 : Nat) : Int),
             bus := (List.range (min count 32)).foldl step bus,
             pos := min count 32,
             buf := (List.range (min count 32)).map (fun j => val j % 256) ++
               buf.drop (min count 32) } := by
  have hc : (if count > outputBufferSize then outputBufferSize else count) = min count 32 := by
    simp only [outputBufferSize]
    split <;> omega
  rw [sha256_read, hc,
    sha256_read_loop_eq rd val step P 0 (min count 32) hrd _ 0 bus buf hP (by omega) (by omega)]
  simp only [Option.bind_eq_bind, Option.some_bind, List.take_zero, List.nil_append,
    Nat.zero_add, List.range_eq_range']
  rfl

theorem ioread8_output (signedChar : Bool) (dev : SHA256DeviceState) (hwf : dev.WF)
    (j : Nat) (hj : j < 32) :
    ioread8 signedChar dev (OUTPUT_REG + j) = some (dev.outputBuffer.getD j 0, dev) := by
  have hr : OUTPUT_REG + j < regionSize := by
    simp only [OUTPUT_REG, regionSize]; omega
  have hl : j < dev.outputBuffer.length := by rw [hwf.2.1]; exact hj
  have hlt : dev.outputBuffer.getD j 0 < 256 := by
    rw [List.getD_eq_getElem _ _ hl]
    exact hwf.2.2.2.1 _ (List.getElem_mem _)
  rw [ioread8, if_pos hr, read_output_byte signedChar dev hwf.2.1 hwf.2.2.2.1 j hj,
    getElem?_getD_of_lt _ _ hl]
  simp only [Option.map_some']
  rw [show dev.outputBuffer.getD j 0 % 2 ^ 8 = dev.outputBuffer.getD j 0 by omega]

theorem foldl_const {σ : Type} (l : List Nat) (b : σ) : l.foldl (fun b _ => b) b = b := by
  induction l with
  | nil => rfl
  | cons a l ih => exact ih

theorem map_getD_range (l : List Nat) (n : Nat) (h : n ≤ l.length) :
    (List.range n).map (fun j => l.getD j 0) = l.take n := by
  apply List.ext_getElem
  · simp only [List.length_map, List.length_range, List.length_take]; omega
  · intro i h1 h2
    simp only [List.length_map, List.length_range] at h1
    simp only [List.getElem_map, List.getElem_range, List.getElem_take]
    exact List.getD_eq_getElem _ _ (by omega)

/-- The driver's read on the device delivers the first `min count 32` bytes of
the output buffer and leaves the device as it was. -/
theorem sha256_read_device (signedChar : Bool) (dev : SHA256DeviceState) (buf : List Nat)
    (count ppos : Nat) (hwf : dev.WF) (h : min count 32 ≤ buf.length) :
    sha256_read (ioread8 signedChar) dev buf count ppos =
      some { ret := ((min count 32 : Nat) : Int), bus := dev, pos := min count 32,
             buf := dev.outputBuffer.take (min count 32) ++ buf.drop (min count 32) } := by
  have hlt : ∀ j, j < min count 32 → dev.outputBuffer.getD j 0 % 256 =
      dev.outputBuffer.getD j 0 := by
    intro j hj
    have hl : j < dev.outputBuffer.length := by rw [hwf.2.1]; simp only [outputBufferSize]; omega
    rw [List.getD_eq_getElem _ _ hl]
    exact Nat.mod_eq_of_lt (hwf.2.2.2.1 _ (List.getElem_mem _))
  rw [sha256_read_eq (ioread8 signedChar) (fun j => dev.outputBuffer.getD j 0) (fun b _ => b)
    (fun b => b = dev) dev buf count ppos
    (fun b j hb hj => by
      subst hb
      exact ⟨ioread8_output signedChar b hwf j (by omega), rfl⟩) rfl h, foldl_const]
  have hm : (List.range (min count 32)).map (fun j => dev.outputBuffer.getD j 0 % 256) =
      dev.outputBuffer.take (min count 32) := by
    rw [← map_getD_range _ _ (by rw [hwf.2.1]; simp only [outputBufferSize]; omega)]
    apply List.map_congr_left
    intro j hj
    exact hlt j (List.mem_range.1 hj)
  rw [hm]

theorem sha256_read_log (mem : Nat → Nat) (log : List Nat) (buf : List Nat) (count ppos : Nat)
    (h : min count 32 ≤ buf.length) :
    sha256_read (logRead8 mem) log buf count ppos =
      some { ret := ((min count 32 : Nat) : Int),
             bus := log ++ (List.range (min count 32)).map fun j => OUTPUT_REG + j,
             pos := min count 32,
             buf := (List.range (min count 32)).map (fun j => mem (OUTPUT_REG + j) % 256) ++
               buf.drop (min count 32) } := by
  rw [sha256_read_eq (logRead8 mem) (fun j => mem (OUTPUT_REG + j))
    (fun b j => b ++ [OUTPUT_REG + j]) (fun _ => True) log buf count ppos
    (fun b j _ _ => ⟨rfl, trivial⟩) trivial h]
  have hf : ∀ (l : List Nat) (b : List Nat),
      l.foldl (fun b j => b ++ [OUTPUT_REG + j]) b = b ++ l.map fun j => OUTPUT_REG + j := by
    intro l
    induction l with
    | nil => intro b; simp only [List.foldl_nil, List.map_nil, List.append_nil]
    | cons a l ih =>
      intro b
      rw [List.foldl_cons, ih]
      simp only [List.map_cons, List.append_assoc, List.singleton_append]
  rw [hf]

/-! ### The control commands of the driver -/

theorem ioctl_get_id (signedChar : Bool) (dev : SHA256DeviceState) :
    sha256_ioctl signedChar dev SHA256_IOC_GET_ID true =
      some { ret := 0, dev := dev, out := some DEVICE_ID } := by
  simp only [sha256_ioctl, if_true, ioread32, read_ID_REG, Option.map_some',
    Option.bind_eq_bind, Option.some_bind, Option.pure_def]
  rfl

theorem ioctl_get_status (signedChar : Bool) (dev : SHA256DeviceState) :
    sha256_ioctl signedChar dev SHA256_IOC_GET_STATUS true =
      some { ret := 0, dev := dev, out := some (dev.status % 2 ^ 32) } := by
  have h1 : ¬ (SHA256_IOC_GET_STATUS = SHA256_IOC_GET_ID) := by decide
  simp only [sha256_ioctl, h1, if_false, if_true, ioread32, read_STATUS_REG, Option.map_some',
    Option.bind_eq_bind, Option.some_bind, Option.pure_def]

theorem ioctl_start_hash (signedChar : Bool) (dev : SHA256DeviceState) (argOk : Bool) :
    sha256_ioctl signedChar dev SHA256_IOC_START_HASH argOk =
      (sha_device_write signedChar dev CTRL_REG 1 4).map
        fun d => { ret := 0, dev := d, out := none } := by
  have h1 : ¬ (SHA256_IOC_START_HASH = SHA256_IOC_GET_ID) := by decide
  have h2 : ¬ (SHA256_IOC_START_HASH = SHA256_IOC_GET_STATUS) := by decide
  have h3 : deviceEN % 2 ^ 32 = 1 := by decide
  simp only [sha256_ioctl, h1, h2, if_false, if_true, iowrite32, h3, Option.bind_eq_bind,
    Option.pure_def]
  cases sha_device_write signedChar dev CTRL_REG 1 4 with
  | none => rfl
  | some d => rfl

theorem ioctl_reset (signedChar : Bool) (dev : SHA256DeviceState) (argOk : Bool)
    (hwf : dev.WF) :
    sha256_ioctl signedChar dev SHA256_IOC_RESET argOk =
      some { ret := 0,
             dev := { inputBuffer := List.replicate 1024 0, outputBuffer := List.replicate 32 0,
                      control := 0, status := 0 },
             out := none } := by
  have h1 : ¬ (SHA256_IOC_RESET = SHA256_IOC_GET_ID) := by decide
  have h2 : ¬ (SHA256_IOC_RESET = SHA256_IOC_GET_STATUS) := by decide
  have h3 : ¬ (SHA256_IOC_RESET = SHA256_IOC_START_HASH) := by decide
  simp only [sha256_ioctl, h1, h2, h3, if_false, if_true, iowrite32, Nat.zero_mod,
    write_reset_eq signedChar dev 4 hwf, Option.bind_eq_bind, Option.some_bind, Option.pure_def]

theorem ioctl_unknown (signedChar : Bool) (dev : SHA256DeviceState) (cmd : Nat) (argOk : Bool)
    (h1 : cmd ≠ SHA256_IOC_GET_ID) (h2 : cmd ≠ SHA256_IOC_GET_STATUS)
    (h3 : cmd ≠ SHA256_IOC_START_HASH) (h4 : cmd ≠ SHA256_IOC_RESET) :
    sha256_ioctl signedChar dev cmd argOk = some { ret := -ENOTTY, dev := dev, out := none } := by
  simp only [sha256_ioctl, h1, h2, h3, h4, if_false]

/-- The session of the driver that hashes a message: write, `START_HASH`,
read. -/
theorem driver_session_eq (signedChar : Bool) (dev : SHA256DeviceState) (m ubuf : List Nat)
    (argOk : Bool) (hwf : dev.WF) (hreset : dev.inputBuffer = List.replicate inputBufferSize 0)
    (hlen : m.length ≤ 1023) (hbyte : ∀ b ∈ m, b < 256) (hnz : ∀ b ∈ m, b ≠ 0)
    (hubuf : 32 ≤ ubuf.length) :
    (sha256_write (iowrite8 signedChar) dev m m.length 0).bind (fun r1 =>
      (sha256_ioctl signedChar r1.bus SHA256_IOC_START_HASH argOk).bind (fun r2 =>
        (sha256_read (ioread8 signedChar) r2.dev ubuf 32 r1.pos).map (fun r3 =>
          (r1.ret, r2.ret, r3.ret, r3.buf)))) =
      some ((m.length : Int), 0, 32, FIPS.sha256 m ++ ubuf.drop 32) := by
  have hmin : min m.length 1024 = m.length := by omega
  have hw := sha256_write_device signedChar dev m m.length 0 (by omega) hbyte
    (by simp only [INPUT_REG, regionSize]; omega)
  rw [hmin, List.take_length, Nat.add_zero] at hw
  have hwb := writeBytes_eq signedChar m hbyte [] dev.inputBuffer dev rfl
    (by rw [hwf.1]; simp only [inputBufferSize]; omega) (by rw [hwf.1]; simp)
  simp only [List.length_nil, Nat.add_zero, List.nil_append] at hwb
  have hdrop : dev.inputBuffer.drop m.length = 0 :: List.replicate (1023 - m.length) 0 := by
    rw [hreset, List.drop_replicate,
      show inputBufferSize - m.length = (1023 - m.length) + 1 by
        simp only [inputBufferSize]; omega, List.replicate_succ]
  rw [hdrop] at hwb
  rw [hw, hwb]
  simp only [Option.map_some', Option.some_bind, Nat.zero_add]
  have hsh := start_hash_eq signedChar
    { dev with inputBuffer := m ++ 0 :: List.replicate (1023 - m.length) 0 } 4 m
    (List.replicate (1023 - m.length) 0) rfl
    (by simp only [List.length_append, List.length_cons, List.length_replicate,
          inputBufferSize]; omega)
    (by
      intro b hb
      rcases List.mem_append.1 hb with h | h
      · exact hbyte b h
      · rcases List.mem_cons.1 h with h | h
        · rw [h]; decide
        · rw [(List.mem_replicate.1 h).2]; decide)
    hwf.2.1 hnz
  rw [ioctl_start_hash, hsh]
  simp only [Option.map_some', Option.some_bind]
  rw [sha256_read_device signedChar _ ubuf 32 m.length
    ⟨by simp only [List.length_append, List.length_cons, List.length_replicate,
          inputBufferSize]; omega, length_sha256 _, (by
      intro b hb
      rcases List.mem_append.1 hb with h | h
      · exact hbyte b h
      · rcases List.mem_cons.1 h with h | h
        · rw [h]; decide
        · rw [(List.mem_replicate.1 h).2]; decide), sha256_lt _, Nat.one_lt_two_pow (by decide),
      Nat.one_lt_two_pow (by decide)⟩ (by omega)]
  simp only [Option.map_some', Nat.min_self]
  rw [List.take_of_length_le (by rw [length_sha256])]
  rfl

set_option maxRecDepth 1000000 in
theorem sha256_hello : FIPS.sha256 [0x68, 0x65, 0x6c, 0x6c, 0x6f] =
    [0x2c, 0xf2, 0x4d, 0xba, 0x5f, 0xb0, 0xa3, 0x0e, 0x26, 0xe8, 0x3b, 0x2a, 0xc5, 0xb9, 0xe2,
     0x9e, 0x1b, 0x16, 0x1e, 0x5c, 0x1f, 0xa7, 0x42, 0x5e, 0x73, 0x04, 0x33, 0x62, 0x93, 0x8b,
     0x98, 0x24] := by
  decide!

/-! ### The shape of the message block and of the schedule -/

theorem lengthBytes_eq (L : Nat) :
    lengthBytes L =
      [L / 2 ^ 56 % 256, L / 2 ^ 48 % 256, L / 2 ^ 40 % 256, L / 2 ^ 32 % 256,
       L / 2 ^ 24 % 256, L / 2 ^ 16 % 256, L / 2 ^ 8 % 256, L % 256] := by
  simp only [lengthBytes, byte_of_shift, byte_low, Nat.shiftRight_eq_div_pow]

theorem paddedBytes_eq (m : List Nat) (size : Nat) (h : m.length ≤ 1023) :
    paddedBytes m size =
      m ++ [0x80] ++ List.replicate (size - m.length - 9) 0 ++
        [8 * m.length / 2 ^ 56 % 256, 8 * m.length / 2 ^ 48 % 256,
         8 * m.length / 2 ^ 40 % 256, 8 * m.length / 2 ^ 32 % 256,
         8 * m.length / 2 ^ 24 % 256, 8 * m.length / 2 ^ 16 % 256,
         8 * m.length / 2 ^ 8 % 256, 8 * m.length % 256] := by
  have h8 : m.length * 8 % 2 ^ 64 = 8 * m.length := by omega
  rw [paddedBytes, h8, lengthBytes_eq]
  simp only [List.append_assoc, List.singleton_append, List.cons_append, List.nil_append]

theorem toWord_four_bytes (b0 b1 b2 b3 : Nat) (h0 : b0 < 256) (h1 : b1 < 256) (h2 : b2 < 256)
    (h3 : b3 < 256) :
    toWord ([b0, b1, b2, b3].flatMap byteBits) = b0 * 2 ^ 24 + b1 * 2 ^ 16 + b2 * 2 ^ 8 + b3 := by
  have : [b0, b1, b2, b3].flatMap byteBits =
      (([] ++ byteBits b0) ++ byteBits b1 ++ byteBits b2) ++ byteBits b3 := by simp
  rw [this, toWord_append_byteBits _ _ h3, toWord_append_byteBits _ _ h2,
    toWord_append_byteBits _ _ h1, toWord_append_byteBits _ _ h0]
  simp [toWord]
  omega

theorem chunkWords_getD (chunk : List Nat) (hcl : chunk.length = 64)
    (hcb : ∀ b ∈ chunk, b < 256) (i : Nat) (hi : i < 16) :
    (chunkWords chunk).getD i 0 =
      chunk.getD (4 * i) 0 * 2 ^ 24 + chunk.getD (4 * i + 1) 0 * 2 ^ 16 +
        chunk.getD (4 * i + 2) 0 * 2 ^ 8 + chunk.getD (4 * i + 3) 0 := by
  have hb : ∀ j, chunk.getD j 0 < 256 := by
    intro j
    by_cases hj : j < chunk.length
    · rw [List.getD_eq_getElem _ _ hj]; exact hcb _ (List.getElem_mem _)
    · rw [List.getD_eq_default _ _ (by omega)]; decide
  have hg : ∀ j, j < 64 → chunk[j]? = some (chunk.getD j 0) :=
    fun j hj => getElem?_getD_of_lt chunk j (by omega)
  have h := getElem?_chunkWords chunk i hi _ _ _ _ (hg (i * 4) (by omega))
    (hg (i * 4 + 1) (by omega)) (hg (i * 4 + 2) (by omega)) (hg (i * 4 + 3) (by omega))
  rw [List.getD_eq_getElem?_getD, h, Option.getD_some,
    toWord_four_bytes _ _ _ _ (hb _) (hb _) (hb _) (hb _), Nat.mul_comm i 4]

theorem expand_getD_stable (block : List Nat) (n i : Nat) (h : i < block.length + n) :
    ∀ m, n ≤ m → (expand block m).getD i 0 = (expand block n).getD i 0 := by
  intro m hm
  induction m with
  | zero =>
    have : n = 0 := by omega
    subst this
    rfl
  | succ m ih =>
    by_cases hn : n = m + 1
    · subst hn; rfl
    · have hl : i < (expand block m).length := by rw [length_expand]; omega
      rw [expand, List.getD_append _ _ _ _ hl]
      exact ih (by omega)

theorem expand_getD_last (block : List Nat) (n : Nat) :
    (expand block (n + 1)).getD (block.length + n) 0 = nextWord (expand block n) := by
  rw [expand, List.getD_append_right _ _ _ _ (by rw [length_expand]), length_expand,
    Nat.sub_self]
  rfl

theorem schedule_getD_first (block : List Nat) (i : Nat) (hi : i < block.length) :
    (schedule block).getD i 0 = block.getD i 0 :=
  expand_getD_stable block 0 i (by omega) 48 (by omega)

theorem schedule_getD_next (block : List Nat) (hbl : block.length = 16)
    (hb : ∀ x ∈ block, x < 2 ^ 32) (i : Nat) (h16 : 16 ≤ i) (h64 : i < 64) :
    (schedule block).getD i 0 =
      ((schedule block).getD (i - 16) 0 +
        (RIGHT_ROTATE ((schedule block).getD (i - 15) 0) 7 ^^^
          RIGHT_ROTATE ((schedule block).getD (i - 15) 0) 18 ^^^
          ((schedule block).getD (i - 15) 0 / 2 ^ 3)) +
        (schedule block).getD (i - 7) 0 +
        (RIGHT_ROTATE ((schedule block).getD (i - 2) 0) 17 ^^^
          RIGHT_ROTATE ((schedule block).getD (i - 2) 0) 19 ^^^
          ((schedule block).getD (i - 2) 0 / 2 ^ 10))) % 2 ^ 32 := by
  obtain ⟨n, rfl⟩ : ∃ n, i = 16 + n := ⟨i - 16, by omega⟩
  have hst : ∀ j, j < 16 + n → (schedule block).getD j 0 = (expand block n).getD j 0 :=
    fun j hj => expand_getD_stable block n j (by omega) 48 (by omega)
  have hlt : ∀ j, (schedule block).getD j 0 < 2 ^ 32 :=
    fun j => getD_lt _ (expand_lt block hb 48) j
  have h1 : (schedule block).getD (16 + n) 0 = nextWord (expand block n) := by
    have := expand_getD_stable block (n + 1) (16 + n) (by omega) 48 (by omega)
    rw [schedule, this, ← hbl, expand_getD_last]
  rw [h1, nextWord, length_expand, hbl, ← hst _ (by omega), ← hst _ (by omega),
    ← hst _ (by omega), ← hst _ (by omega), sum4_mod,
    RIGHT_ROTATE_eq _ 7 (hlt _) (by decide) (by decide),
    RIGHT_ROTATE_eq _ 18 (hlt _) (by decide) (by decide),
    RIGHT_ROTATE_eq _ 17 (hlt _) (by decide) (by decide),
    RIGHT_ROTATE_eq _ 19 (hlt _) (by decide) (by decide)]
  rfl

/-- The function `ROTR` is the rotation of a 32-bit word: bit `j` of the
result is bit `(j + n) mod 32` of the argument. -/
theorem ROTR_testBit (x n : Nat) (hx : x < 2 ^ 32) (hn0 : 0 < n) (hn : n < 32) (j : Nat)
    (hj : j < 32) : (ROTR x n).testBit j = x.testBit ((j + n) % 32) := by
  have hq : x / 2 ^ n < 2 ^ (32 - n) := by
    rw [Nat.div_lt_iff_lt_mul (Nat.two_pow_pos n), ← Nat.pow_add,
      show 32 - n + n = 32 by omega]
    exact hx
  rw [ROTR, Nat.add_comm, Nat.mul_comm, Nat.testBit_mul_pow_two_add _ hq]
  by_cases hlow : j < 32 - n
  · rw [if_pos hlow, ← Nat.shiftRight_eq_div_pow, Nat.testBit_shiftRight,
      Nat.mod_eq_of_lt (by omega), Nat.add_comm]
  · rw [if_neg hlow, Nat.testBit_mod_two_pow,
      show (j + n) % 32 = j - (32 - n) by omega]
    have : j - (32 - n) < n := by omega
    simp only [this, decide_True, Bool.true_and]

theorem ROTR_lt (x n : Nat) (hx : x < 2 ^ 32) (hn : n < 32) : ROTR x n < 2 ^ 32 := by
  have hq : x / 2 ^ n < 2 ^ (32 - n) := by
    rw [Nat.div_lt_iff_lt_mul (Nat.two_pow_pos n), ← Nat.pow_add,
      show 32 - n + n = 32 by omega]
    exact hx
  have hr : x % 2 ^ n < 2 ^ n := Nat.mod_lt _ (Nat.two_pow_pos n)
  have hp : (2 : Nat) ^ 32 = 2 ^ n * 2 ^ (32 - n) := by
    rw [← Nat.pow_add, show n + (32 - n) = 32 by omega]
  rw [ROTR, hp]
  calc x / 2 ^ n + x % 2 ^ n * 2 ^ (32 - n)
      < 2 ^ (32 - n) + x % 2 ^ n * 2 ^ (32 - n) := by omega
    _ = (x % 2 ^ n + 1) * 2 ^ (32 - n) := by rw [Nat.add_mul, Nat.one_mul, Nat.add_comm]
    _ ≤ 2 ^ n * 2 ^ (32 - n) := Nat.mul_le_mul_right _ hr

/-! ### The device object in memory -/

theorem uint32Bytes_lt (hostBigEndian : Bool) (x : Nat) :
    ∀ b ∈ uint32Bytes hostBigEndian x, b < 256 := by
  intro b hb
  cases hostBigEndian <;>
    simp only [uint32Bytes, if_true, if_false, Bool.false_eq_true, List.mem_cons,
      List.mem_singleton, List.not_mem_nil, or_false] at hb <;>
    omega

theorem length_uint32Bytes (hostBigEndian : Bool) (x : Nat) :
    (uint32Bytes hostBigEndian x).length = 4 := by
  cases hostBigEndian <;> rfl

theorem zero_mem_uint32Bytes_one (hostBigEndian : Bool) : 0 ∈ uint32Bytes hostBigEndian 1 := by
  cases hostBigEndian <;> decide

theorem effectiveInput_length_le (window : List Nat) :
    (effectiveInput window).length ≤ window.length :=
  (List.takeWhile_prefix _).length_le

theorem effectiveInput_lt (window : List Nat) (hb : ∀ b ∈ window, b < 256) :
    ∀ b ∈ effectiveInput window, b < 256 :=
  fun b h => hb b ((List.takeWhile_prefix _).subset h)

/-- The digest engine on a string that holds a zero byte somewhere. -/
theorem hashing_defined (signedChar : Bool) (mem : List Nat) (h0 : 0 ∈ mem)
    (hb : ∀ b ∈ mem, b < 256) (hl : mem.length ≤ 2000) :
    perform_sha256_hashing signedChar mem = some (0, FIPS.sha256 (effectiveInput mem)) := by
  obtain ⟨rest, hrest⟩ := window_split mem h0
  have hlen := effectiveInput_length_le mem
  have h := perform_sha256_hashing_eq signedChar (effectiveInput mem) rest
    (effectiveInput_ne_zero mem) (effectiveInput_lt mem hb) (by omega)
  rw [← hrest] at h
  exact h

theorem effectiveInput_append_right (window tail : List Nat) (h0 : 0 ∈ window) :
    effectiveInput (window ++ tail) = effectiveInput window := by
  obtain ⟨rest, hrest⟩ := window_split window h0
  have h : window ++ tail = effectiveInput window ++ 0 :: (rest ++ tail) := by
    conv => lhs; rw [hrest]
    simp only [List.append_assoc, List.cons_append]
  rw [h, effectiveInput_append _ _ (effectiveInput_ne_zero window)]

theorem objectBytes_facts (hostBigEndian : Bool) (s : SHA256DeviceState) (hwf : s.WF) :
    (∀ b ∈ objectBytes hostBigEndian s, b < 256) ∧
      (objectBytes hostBigEndian s).length = 1064 := by
  constructor
  · intro b hb
    simp only [objectBytes, List.mem_append] at hb
    rcases hb with ((h | h) | h) | h
    · exact hwf.2.2.1 b h
    · exact hwf.2.2.2.1 b h
    · exact uint32Bytes_lt _ _ b h
    · exact uint32Bytes_lt _ _ b h
  · simp only [objectBytes, List.length_append, length_uint32Bytes, hwf.1, hwf.2.1,
      inputBufferSize, outputBufferSize]

/-- The start of a hash on the object in memory is defined in every state:
`control` holds 1 when the scan starts, and three of its four bytes are 0. -/
theorem start_hash_layout (signedChar hostBigEndian : Bool) (s : SHA256DeviceState)
    (size : Nat) (hwf : s.WF) :
    sha_device_write_layout signedChar hostBigEndian s CTRL_REG 1 size =
      some { inputBuffer := s.inputBuffer,
             outputBuffer := FIPS.sha256 (FIPS.effectiveInput
               (objectBytes hostBigEndian { s with control := 1 })),
             control := 1, status := 1 } := by
  have hwf1 : SHA256DeviceState.WF { s with control := 1 } :=
    ⟨hwf.1, hwf.2.1, hwf.2.2.1, hwf.2.2.2.1, Nat.one_lt_two_pow (by decide), hwf.2.2.2.2.2⟩
  obtain ⟨hb, hl⟩ := objectBytes_facts hostBigEndian _ hwf1
  have h0 : 0 ∈ objectBytes hostBigEndian { s with control := 1 } := by
    simp only [objectBytes, List.mem_append]
    exact Or.inl (Or.inr (zero_mem_uint32Bytes_one hostBigEndian))
  have hp := hashing_defined signedChar _ h0 hb (by omega)
  have hcopy : ∀ m, memcpy s.outputBuffer (FIPS.sha256 m) outputBufferSize = FIPS.sha256 m := by
    intro m
    rw [memcpy, List.take_of_length_le (by rw [length_sha256]),
      List.drop_of_length_le (by rw [hwf.2.1]), List.append_nil]
  have h1 : (1 : Nat) % 2 ^ 32 = 1 := by decide
  simp only [sha_device_write_layout, if_true, deviceEN, h1, hp, Option.bind_eq_bind,
    Option.some_bind, Option.pure_def, hcopy]

/-- Where the C language defines the write, the write on the object in memory
is the same: the two differ only in a start-hash on a window without a zero
byte. -/
theorem write_layout_eq (signedChar hostBigEndian : Bool) (s : SHA256DeviceState)
    (addr data size : Nat) (hwf : s.WF)
    (hterm : addr = CTRL_REG → data = 1 → 0 ∈ s.inputBuffer) :
    sha_device_write_layout signedChar hostBigEndian s addr data size =
      sha_device_write signedChar s addr data size := by
  by_cases hc : addr = CTRL_REG
  · by_cases h1 : data = 1
    · subst hc
      subst h1
      have hz := hterm rfl rfl
      rw [start_hash_layout signedChar hostBigEndian s size hwf,
        start_hash_window signedChar s size hwf hz]
      have : objectBytes hostBigEndian { s with control := 1 } =
          s.inputBuffer ++ (s.outputBuffer ++ uint32Bytes hostBigEndian 1 ++
            uint32Bytes hostBigEndian s.status) := by
        simp only [objectBytes, List.append_assoc]
      rw [this, effectiveInput_append_right _ _ hz]
    · have h1' : ¬ (data = deviceEN) := h1
      simp only [sha_device_write_layout, sha_device_write, hc, if_true, h1', if_false]
  · simp only [sha_device_write_layout, sha_device_write, hc, if_false]

/-- The write on the object in memory is defined for every state, address and
value, and a write to `CTRL_REG` leaves the value in `control`. -/
theorem write_layout_total (signedChar hostBigEndian : Bool) (s : SHA256DeviceState)
    (addr data size : Nat) (hwf : s.WF) :
    ∃ s', sha_device_write_layout signedChar hostBigEndian s addr data size = some s' ∧
      s'.WF ∧ (addr = CTRL_REG → s'.control = data % 2 ^ 32) := by
  by_cases hc : addr = CTRL_REG
  · by_cases h1 : data = 1
    · subst hc
      subst h1
      refine ⟨_, start_hash_layout signedChar hostBigEndian s size hwf, ?_, fun _ => rfl⟩
      exact ⟨hwf.1, length_sha256 _, hwf.2.2.1, sha256_lt _, Nat.one_lt_two_pow (by decide),
        Nat.one_lt_two_pow (by decide)⟩
    · have hterm : addr = CTRL_REG → data = 1 → 0 ∈ s.inputBuffer :=
        fun _ h => absurd h h1
      obtain ⟨s', hs', hwf', _⟩ := sha_device_write_WF signedChar s addr data size hwf hterm
      refine ⟨s', ?_, hwf', ?_⟩
      · rw [write_layout_eq signedChar hostBigEndian s addr data size hwf hterm, hs']
      · intro _
        subst hc
        by_cases h0 : data = 0
        · subst h0
          rw [write_reset_eq signedChar s size hwf] at hs'
          cases hs'
          rfl
        · rw [write_ctrl_other signedChar s data size h0 h1] at hs'
          cases hs'
          rfl
  · have hterm : addr = CTRL_REG → data = 1 → 0 ∈ s.inputBuffer :=
      fun h _ => absurd h hc
    obtain ⟨s', hs', hwf', _⟩ := sha_device_write_WF signedChar s addr data size hwf hterm
    exact ⟨s', by rw [write_layout_eq signedChar hostBigEndian s addr data size hwf hterm, hs'],
      hwf', fun h => absurd h hc⟩

/-! ### The control function of the driver on a bus -/

theorem ioctl_bus_unknown {σ : Type} (rd : σ → Nat → Option (Nat × σ))
    (wr : σ → Nat → Nat → Option σ) (bus : σ) (cmd : Nat) (argOk : Bool)
    (h1 : cmd ≠ SHA256_IOC_GET_ID) (h2 : cmd ≠ SHA256_IOC_GET_STATUS)
    (h3 : cmd ≠ SHA256_IOC_START_HASH) (h4 : cmd ≠ SHA256_IOC_RESET) :
    sha256_ioctl_bus rd wr bus cmd argOk = some { ret := -ENOTTY, bus := bus, out := none } := by
  simp only [sha256_ioctl_bus, h1, h2, h3, h4, if_false]

theorem ioctl_bus_get_id {σ : Type} (rd : σ → Nat → Option (Nat × σ))
    (wr : σ → Nat → Nat → Option σ) (bus : σ) :
    sha256_ioctl_bus rd wr bus SHA256_IOC_GET_ID true =
      (rd bus ID_REG).map fun r => { ret := 0, bus := r.2, out := some (r.1 % 2 ^ 32) } := by
  simp only [sha256_ioctl_bus, if_true, Option.bind_eq_bind, Option.pure_def]
  cases rd bus ID_REG with
  | none => rfl
  | some r => rfl

theorem ioctl_bus_get_status {σ : Type} (rd : σ → Nat → Option (Nat × σ))
    (wr : σ → Nat → Nat → Option σ) (bus : σ) :
    sha256_ioctl_bus rd wr bus SHA256_IOC_GET_STATUS true =
      (rd bus STATUS_REG).map fun r => { ret := 0, bus := r.2, out := some (r.1 % 2 ^ 32) } := by
  have h1 : ¬ (SHA256_IOC_GET_STATUS = SHA256_IOC_GET_ID) := by decide
  simp only [sha256_ioctl_bus, h1, if_false, if_true, Option.bind_eq_bind, Option.pure_def]
  cases rd bus STATUS_REG with
  | none => rfl
  | some r => rfl

theorem ioctl_bus_start_hash {σ : Type} (rd : σ → Nat → Option (Nat × σ))
    (wr : σ → Nat → Nat → Option σ) (bus : σ) (argOk : Bool) :
    sha256_ioctl_bus rd wr bus SHA256_IOC_START_HASH argOk =
      (wr bus deviceEN CTRL_REG).map fun b => { ret := 0, bus := b, out := none } := by
  have h1 : ¬ (SHA256_IOC_START_HASH = SHA256_IOC_GET_ID) := by decide
  have h2 : ¬ (SHA256_IOC_START_HASH = SHA256_IOC_GET_STATUS) := by decide
  simp only [sha256_ioctl_bus, h1, h2, if_false, if_true, Option.bind_eq_bind, Option.pure_def]
  cases wr bus deviceEN CTRL_REG with
  | none => rfl
  | some b => rfl

theorem ioctl_bus_reset {σ : Type} (rd : σ → Nat → Option (Nat × σ))
    (wr : σ → Nat → Nat → Option σ) (bus : σ) (argOk : Bool) :
    sha256_ioctl_bus rd wr bus SHA256_IOC_RESET argOk =
      (wr bus 0 CTRL_REG).map fun b => { ret := 0, bus := b, out := none } := by
  have h1 : ¬ (SHA256_IOC_RESET = SHA256_IOC_GET_ID) := by decide
  have h2 : ¬ (SHA256_IOC_RESET = SHA256_IOC_GET_STATUS) := by decide
  have h3 : ¬ (SHA256_IOC_RESET = SHA256_IOC_START_HASH) := by decide
  simp only [sha256_ioctl_bus, h1, h2, h3, if_false, if_true, Option.bind_eq_bind,
    Option.pure_def]
  cases wr bus 0 CTRL_REG with
  | none => rfl
  | some b => rfl

/-- The function `sha256_ioctl` on the device is `sha256_ioctl_bus` over the
accessors of the device. -/
theorem sha256_ioctl_eq_bus (signedChar : Bool) (dev : SHA256DeviceState) (cmd : Nat)
    (argOk : Bool) :
    sha256_ioctl signedChar dev cmd argOk =
      (sha256_ioctl_bus (deviceRead32 signedChar) (iowrite32 signedChar) dev cmd argOk).map
        fun r => { ret := r.ret, dev := r.bus, out := r.out } := by
  have hm : ∀ x : Nat, x % 2 ^ 32 % 2 ^ 32 = x % 2 ^ 32 := fun x => Nat.mod_mod _ _
  simp only [sha256_ioctl, sha256_ioctl_bus, deviceRead32, ioread32, read_ID_REG,
    read_STATUS_REG, Option.map_some', Option.bind_eq_bind, Option.some_bind, Option.pure_def,
    hm]
  by_cases h1 : cmd = SHA256_IOC_GET_ID
  · simp only [h1, if_true]
    cases argOk <;> rfl
  · by_cases h2 : cmd = SHA256_IOC_GET_STATUS
    · simp only [h1, h2, if_true, if_false]
      cases argOk <;> rfl
    · by_cases h3 : cmd = SHA256_IOC_START_HASH
      · simp only [h1, h2, h3, if_true, if_false]
        cases iowrite32 signedChar dev deviceEN CTRL_REG with
        | none => rfl
        | some d => rfl
      · by_cases h4 : cmd = SHA256_IOC_RESET
        · simp only [h1, h2, h3, h4, if_true, if_false]
          cases iowrite32 signedChar dev 0 CTRL_REG with
          | none => rfl
          | some d => rfl
        · simp only [h1, h2, h3, h4, if_false]
          rfl

/-! ## The claims, third part -/

/-- C21: control register read-back.  For every state of the device the C
type admits, every 32-bit value `v`, 0 and 1 with the others, and every access
size: the write of `v` to `CTRL_REG` yields a state, and in it the read of
`CTRL_REG` returns `v`.  The write is the one on the object as it lies in
memory, which is defined also when `v = 1` and the input window holds no zero
byte: `s->control = data` is done before the digest engine is called, the scan
of the engine only reads, and it stops in `control` at the latest.  When `v`
is not 1 or the window holds a zero byte the write is `sha_device_write`
itself. -/
theorem C21_control_read_back (signedChar hostBigEndian : Bool) (s : SHA256DeviceState)
    (v size rsize : Nat) (hwf : s.WF) (hv : v < 2 ^ 32) :
    (∃ s', sha_device_write_layout signedChar hostBigEndian s CTRL_REG v size = some s' ∧
      s'.control = v ∧ sha_device_read signedChar s' CTRL_REG rsize = some v) ∧
    ((v = 1 → 0 ∈ s.inputBuffer) →
      sha_device_write signedChar s CTRL_REG v size =
        sha_device_write_layout signedChar hostBigEndian s CTRL_REG v size) := by
  constructor
  · obtain ⟨s', hs', _, hc⟩ :=
      write_layout_total signedChar hostBigEndian s CTRL_REG v size hwf
    have hc' : s'.control = v := by rw [hc rfl, Nat.mod_eq_of_lt hv]
    exact ⟨s', hs', hc', by rw [read_CTRL_REG, hc']⟩
  · intro hterm
    exact (write_layout_eq signedChar hostBigEndian s CTRL_REG v size hwf
      (fun _ h => hterm h)).symm

set_option maxRecDepth 1000000 in
theorem C21_control_read_back_witness :
    (fullState.WF ∧ 1 < 2 ^ 32 ∧ (∀ b ∈ fullState.inputBuffer, b ≠ 0)) ∧
    ∃ s', sha_device_write_layout true false fullState CTRL_REG 1 4 = some s' ∧
      s'.control = 1 ∧ sha_device_read true s' CTRL_REG 4 = some 1 :=
  ⟨⟨by decide!, by decide, fun b hb => by rw [(List.mem_replicate.1 hb).2]; decide⟩,
    (C21_control_read_back true false fullState 1 4 4 (by decide!) (by decide)).1⟩

/-- C22: end to end through the driver.  On a device whose input window is
all zero (the reset state), in a session whose position is 0, for every
message `m` of at most 1023 bytes none of which is zero and every user buffer
of at least 32 accessible bytes: `sha256_write` of the `m.length` bytes of `m`
returns `m.length`, the control command `SHA256_IOC_START_HASH` returns 0, and
`sha256_read` of 32 bytes returns 32 and leaves SHA-256 of `m` in the first 32
bytes of the user buffer.  SHA-256 of `hello` is
`2cf24dba5fb0a30e26e83b2ac5b9e29e1b161e5c1fa7425e73043362938b9824`. -/
theorem C22_driver_end_to_end (signedChar : Bool) (dev : SHA256DeviceState)
    (m ubuf : List Nat) (argOk : Bool) (hwf : dev.WF)
    (hreset : dev.inputBuffer = List.replicate inputBufferSize 0)
    (hlen : m.length ≤ 1023) (hbyte : ∀ b ∈ m, b < 256) (hnz : ∀ b ∈ m, b ≠ 0)
    (hubuf : 32 ≤ ubuf.length) :
    (sha256_write (iowrite8 signedChar) dev m m.length 0).bind (fun r1 =>
      (sha256_ioctl signedChar r1.bus SHA256_IOC_START_HASH argOk).bind (fun r2 =>
        (sha256_read (ioread8 signedChar) r2.dev ubuf 32 r1.pos).map (fun r3 =>
          (r1.ret, r2.ret, r3.ret, r3.buf)))) =
      some ((m.length : Int), 0, 32, FIPS.sha256 m ++ ubuf.drop 32) ∧
    (FIPS.sha256 m).length = 32 ∧
    FIPS.sha256 [0x68, 0x65, 0x6c, 0x6c, 0x6f] =
      [0x2c, 0xf2, 0x4d, 0xba, 0x5f, 0xb0, 0xa3, 0x0e, 0x26, 0xe8, 0x3b, 0x2a, 0xc5, 0xb9, 0xe2,
       0x9e, 0x1b, 0x16, 0x1e, 0x5c, 0x1f, 0xa7, 0x42, 0x5e, 0x73, 0x04, 0x33, 0x62, 0x93, 0x8b,
       0x98, 0x24] :=
  ⟨driver_session_eq signedChar dev m ubuf argOk hwf hreset hlen hbyte hnz hubuf,
    length_sha256 m, sha256_hello⟩

set_option maxRecDepth 1000000 in
theorem C22_driver_end_to_end_witness :
    (sha_instance_init.WF ∧
      sha_instance_init.inputBuffer = List.replicate inputBufferSize 0 ∧
      [0x68, 0x65, 0x6c, 0x6c, 0x6f].length ≤ 1023 ∧
      (∀ b ∈ [0x68, 0x65, 0x6c, 0x6c, 0x6f], b < 256) ∧
      (∀ b ∈ [0x68, 0x65, 0x6c, 0x6c, 0x6f], b ≠ 0) ∧
      32 ≤ (List.replicate 40 0xAA).length) ∧
    (sha256_write (iowrite8 true) sha_instance_init [0x68, 0x65, 0x6c, 0x6c, 0x6f] 5 0).bind
      (fun r1 => (sha256_ioctl true r1.bus SHA256_IOC_START_HASH true).bind (fun r2 =>
        (sha256_read (ioread8 true) r2.dev (List.replicate 40 0xAA) 32 r1.pos).map (fun r3 =>
          (r1.ret, r2.ret, r3.ret, r3.buf)))) =
      some (5, 0, 32, FIPS.sha256 [0x68, 0x65, 0x6c, 0x6c, 0x6f] ++
        (List.replicate 40 0xAA).drop 32) :=
  ⟨⟨by decide!, rfl, by decide, by decide, by decide, by decide⟩,
    (C22_driver_end_to_end true sha_instance_init [0x68, 0x65, 0x6c, 0x6c, 0x6f]
      (List.replicate 40 0xAA) true (by decide!) rfl (by decide) (by decide) (by decide)
      (by decide)).1⟩

/-- C23: `sha256_write` on an accessible user buffer.  For every position `c`,
every count `n` and every user buffer `buf` of bytes of which the first
`min n 1024` are accessible, `sha256_write` issues the one-byte writes of
`buf[i]` to `INPUT_REG + c + i` for `i = 0 .. min n 1024 - 1`, in increasing
order of `i` and nothing else, returns `min n 1024` and leaves the position at
`c + min n 1024`: on any bus its result is the one of these writes in a row,
and the bus that logs its writes has logged exactly these behind what it held
before. -/
theorem C23_sha256_write {σ : Type} (wr : σ → Nat → Nat → Option σ) (bus : σ)
    (log : List (Nat × Nat)) (buf : List Nat) (n c : Nat)
    (hbuf : min n 1024 ≤ buf.length) (hb : ∀ b ∈ buf, b < 256) :
    sha256_write wr bus buf n c =
      ((List.range (min n 1024)).foldlM
        (fun b i => wr b (buf.getD i 0) (INPUT_REG + c + i)) bus).map
        (fun b => { ret := ((min n 1024 : Nat) : Int), bus := b, pos := c + min n 1024 }) ∧
    sha256_write logWrite8 log buf n c =
      some { ret := ((min n 1024 : Nat) : Int),
             bus := log ++ (List.range (min n 1024)).map
               fun i => (INPUT_REG + c + i, buf.getD i 0),
             pos := c + min n 1024 } := by
  have hmod : ∀ i, buf.getD i 0 % 256 = buf.getD i 0 := by
    intro i
    apply Nat.mod_eq_of_lt
    by_cases hi : i < buf.length
    · rw [List.getD_eq_getElem _ _ hi]; exact hb _ (List.getElem_mem _)
    · rw [List.getD_eq_default _ _ (by omega)]; decide
  have h1 := sha256_write_eq wr bus buf n c hbuf
  have h2 := sha256_write_eq logWrite8 log buf n c hbuf
  simp only [hmod] at h1 h2
  refine ⟨h1, ?_⟩
  rw [h2, foldlM_logWrite8 (fun i => buf.getD i 0) (fun i => INPUT_REG + c + i)]
  rfl

theorem C23_sha256_write_witness :
    (min 3 1024 ≤ [0x68, 0x69, 0x21, 0x3F].length ∧ ∀ b ∈ [0x68, 0x69, 0x21, 0x3F], b < 256) ∧
    sha256_write logWrite8 [] [0x68, 0x69, 0x21, 0x3F] 3 7 =
      some { ret := ((min 3 1024 : Nat) : Int),
             bus := [] ++ (List.range (min 3 1024)).map
               fun i => (INPUT_REG + 7 + i, [0x68, 0x69, 0x21, 0x3F].getD i 0),
             pos := 7 + min 3 1024 } ∧
    [] ++ (List.range (min 3 1024)).map
        (fun i => (INPUT_REG + 7 + i, [0x68, 0x69, 0x21, 0x3F].getD i 0)) =
      [(0x17, 0x68), (0x18, 0x69), (0x19, 0x21)] :=
  ⟨⟨by decide, by decide⟩,
    (C23_sha256_write logWrite8 [] [] [0x68, 0x69, 0x21, 0x3F] 3 7 (by decide)
      (by decide)).2, by decide⟩

/-- C24: `sha256_read` on an accessible user buffer.  For every position `c`
the session had before, every count `n` and every user buffer of which the
first `min n 32` bytes are accessible, `sha256_read` on the device returns
`min n 32`, stores byte `i` of the output buffer, which is what the one-byte
read of `OUTPUT_REG + i` delivers, into `buf[i]` for `i < min n 32`, leaves
the rest of the buffer and the device as they were and the position at
`min n 32`.  On the bus that logs its reads the addresses read are
`OUTPUT_REG + i` for `i = 0 .. min n 32 - 1` in this order, whatever `c`
was. -/
theorem C24_sha256_read (signedChar : Bool) (dev : SHA256DeviceState) (mem : Nat → Nat)
    (log : List Nat) (buf : List Nat) (n c : Nat) (hwf : dev.WF)
    (hbuf : min n 32 ≤ buf.length) :
    sha256_read (ioread8 signedChar) dev buf n c =
      some { ret := ((min n 32 : Nat) : Int), bus := dev, pos := min n 32,
             buf := dev.outputBuffer.take (min n 32) ++ buf.drop (min n 32) } ∧
    (∀ i, i < min n 32 →
      ioread8 signedChar dev (OUTPUT_REG + i) = some (dev.outputBuffer.getD i 0, dev) ∧
      (dev.outputBuffer.take (min n 32) ++ buf.drop (min n 32)).getD i 0 =
        dev.outputBuffer.getD i 0) ∧
    sha256_read (logRead8 mem) log buf n c =
      some { ret := ((min n 32 : Nat) : Int),
             bus := log ++ (List.range (min n 32)).map fun i => OUTPUT_REG + i,
             pos := min n 32,
             buf := (List.range (min n 32)).map (fun i => mem (OUTPUT_REG + i) % 256) ++
               buf.drop (min n 32) } := by
  refine ⟨sha256_read_device signedChar dev buf n c hwf hbuf, ?_,
    sha256_read_log mem log buf n c hbuf⟩
  intro i hi
  refine ⟨ioread8_output signedChar dev hwf i (by omega), ?_⟩
  have hl : dev.outputBuffer.length = 32 := hwf.2.1
  rw [List.getD_eq_getElem?_getD, List.getD_eq_getElem?_getD,
    List.getElem?_append_left (by rw [List.length_take]; omega), List.getElem?_take_of_lt hi]

set_option maxRecDepth 1000000 in
theorem C24_sha256_read_witness :
    (digestState.WF ∧ min 100 32 ≤ (List.replicate 40 0xAA).length) ∧
    sha256_read (ioread8 false) digestState (List.replicate 40 0xAA) 100 5 =
      some { ret := ((min 100 32 : Nat) : Int), bus := digestState, pos := min 100 32,
             buf := digestState.outputBuffer.take (min 100 32) ++
               (List.replicate 40 0xAA).drop (min 100 32) } :=
  ⟨⟨by decide!, by decide⟩,
    (C24_sha256_read false digestState (fun _ => 0) [] (List.replicate 40 0xAA) 100 5
      (by decide!) (by decide)).1⟩

/-- C25: the control commands.  For every command value other than the four
defined commands, `0xDEADBEEF` for one, `sha256_ioctl` returns `-ENOTTY`,
stores nothing through the argument and makes no access to the bus: whatever
the accessors are, the result does not depend on them, the bus is as it was
and the bus that logs its accesses has logged none; on the device, the state
is unchanged.  For each of the four defined commands with an accessible
argument it returns 0: on the bus that logs its accesses after the one access
of the command (the read of `ID_REG`, the read of `STATUS_REG`, the write of 1
to `CTRL_REG`, the write of 0 to `CTRL_REG`), on any bus once that access has
returned, and on the device in every state the C type admits, a full input
window without a zero byte with the others. -/
theorem C25_ioctl_commands {σ : Type} (rd : σ → Nat → Option (Nat × σ))
    (wr : σ → Nat → Nat → Option σ) (bus : σ) (mem : Nat → Nat) (log : List Access)
    (signedChar hostBigEndian : Bool) (dev : SHA256DeviceState) (argOk : Bool) :
    (∀ cmd, cmd ≠ SHA256_IOC_GET_ID → cmd ≠ SHA256_IOC_GET_STATUS →
      cmd ≠ SHA256_IOC_START_HASH → cmd ≠ SHA256_IOC_RESET →
      sha256_ioctl_bus rd wr bus cmd argOk =
          some { ret := -ENOTTY, bus := bus, out := none } ∧
        sha256_ioctl_bus (logRead32 mem) logWrite32 log cmd argOk =
          some { ret := -ENOTTY, bus := log, out := none } ∧
        sha256_ioctl signedChar dev cmd argOk =
          some { ret := -ENOTTY, dev := dev, out := none }) ∧
    (sha256_ioctl_bus rd wr bus 0xDEADBEEF argOk =
        some { ret := -ENOTTY, bus := bus, out := none } ∧
      sha256_ioctl signedChar dev 0xDEADBEEF argOk =
        some { ret := -ENOTTY, dev := dev, out := none }) ∧
    (sha256_ioctl_bus rd wr bus SHA256_IOC_GET_ID true =
        (rd bus ID_REG).map (fun r => { ret := 0, bus := r.2, out := some (r.1 % 2 ^ 32) }) ∧
      sha256_ioctl_bus rd wr bus SHA256_IOC_GET_STATUS true =
        (rd bus STATUS_REG).map
          (fun r => { ret := 0, bus := r.2, out := some (r.1 % 2 ^ 32) }) ∧
      sha256_ioctl_bus rd wr bus SHA256_IOC_START_HASH argOk =
        (wr bus deviceEN CTRL_REG).map (fun b => { ret := 0, bus := b, out := none }) ∧
      sha256_ioctl_bus rd wr bus SHA256_IOC_RESET argOk =
        (wr bus 0 CTRL_REG).map (fun b => { ret := 0, bus := b, out := none })) ∧
    (sha256_ioctl_bus (logRead32 mem) logWrite32 log SHA256_IOC_GET_ID true =
        some { ret := 0, bus := log ++ [Access.read ID_REG],
               out := some (mem ID_REG % 2 ^ 32) } ∧
      sha256_ioctl_bus (logRead32 mem) logWrite32 log SHA256_IOC_GET_STATUS true =
        some { ret := 0, bus := log ++ [Access.read STATUS_REG],
               out := some (mem STATUS_REG % 2 ^ 32) } ∧
      sha256_ioctl_bus (logRead32 mem) logWrite32 log SHA256_IOC_START_HASH argOk =
        some { ret := 0, bus := log ++ [Access.write CTRL_REG 1], out := none } ∧
      sha256_ioctl_bus (logRead32 mem) logWrite32 log SHA256_IOC_RESET argOk =
        some { ret := 0, bus := log ++ [Access.write CTRL_REG 0], out := none }) ∧
    (dev.WF →
      sha256_ioctl_bus (deviceRead32 signedChar) (deviceWrite32 signedChar hostBigEndian) dev
          SHA256_IOC_GET_ID true =
        some { ret := 0, bus := dev, out := some DEVICE_ID } ∧
      sha256_ioctl_bus (deviceRead32 signedChar) (deviceWrite32 signedChar hostBigEndian) dev
          SHA256_IOC_GET_STATUS true =
        some { ret := 0, bus := dev, out := some dev.status } ∧
      (∃ dev', sha256_ioctl_bus (deviceRead32 signedChar)
          (deviceWrite32 signedChar hostBigEndian) dev SHA256_IOC_START_HASH argOk =
        some { ret := 0, bus := dev', out := none }) ∧
      sha256_ioctl_bus (deviceRead32 signedChar) (deviceWrite32 signedChar hostBigEndian) dev
          SHA256_IOC_RESET argOk =
        some { ret := 0,
               bus := { inputBuffer := List.replicate 1024 0,
                        outputBuffer := List.replicate 32 0, control := 0, status := 0 },
               out := none }) ∧
    (∀ cmd, sha256_ioctl signedChar dev cmd argOk =
      (sha256_ioctl_bus (deviceRead32 signedChar) (iowrite32 signedChar) dev cmd argOk).map
        fun r => { ret := r.ret, dev := r.bus, out := r.out }) := by
  refine ⟨fun cmd h1 h2 h3 h4 => ⟨ioctl_bus_unknown rd wr bus cmd argOk h1 h2 h3 h4,
      ioctl_bus_unknown _ _ log cmd argOk h1 h2 h3 h4,
      ioctl_unknown signedChar dev cmd argOk h1 h2 h3 h4⟩,
    ⟨ioctl_bus_unknown rd wr bus _ argOk (by decide) (by decide) (by decide) (by decide),
      ioctl_unknown signedChar dev _ argOk (by decide) (by decide) (by decide) (by decide)⟩,
    ⟨ioctl_bus_get_id rd wr bus, ioctl_bus_get_status rd wr bus,
      ioctl_bus_start_hash rd wr bus argOk, ioctl_bus_reset rd wr bus argOk⟩,
    ⟨?_, ?_, ?_, ?_⟩, ?_, fun cmd => sha256_ioctl_eq_bus signedChar dev cmd argOk⟩
  · rw [ioctl_bus_get_id]; rfl
  · rw [ioctl_bus_get_status]; rfl
  · rw [ioctl_bus_start_hash]; rfl
  · rw [ioctl_bus_reset]; rfl
  · intro hwf
    refine ⟨?_, ?_, ?_, ?_⟩
    · rw [ioctl_bus_get_id, deviceRead32, ioread32, read_ID_REG]
      rfl
    · rw [ioctl_bus_get_status, deviceRead32, ioread32, read_STATUS_REG]
      simp only [Option.map_some', Nat.mod_mod, Nat.mod_eq_of_lt hwf.2.2.2.2.2]
    · obtain ⟨dev', hd, _⟩ :=
        write_layout_total signedChar hostBigEndian dev CTRL_REG 1 4 hwf
      refine ⟨dev', ?_⟩
      rw [ioctl_bus_start_hash, deviceWrite32,
        show deviceEN % 2 ^ 32 = 1 by decide, hd]
      rfl
    · rw [ioctl_bus_reset, deviceWrite32, Nat.zero_mod,
        write_layout_eq signedChar hostBigEndian dev CTRL_REG 0 4 hwf
          (fun _ h => absurd h (by decide)),
        write_reset_eq signedChar dev 4 hwf]
      rfl

set_option maxRecDepth 1000000 in
theorem C25_ioctl_commands_witness :
    ((0x12345678 : Nat) ≠ SHA256_IOC_GET_ID ∧ (0x12345678 : Nat) ≠ SHA256_IOC_GET_STATUS ∧
      (0x12345678 : Nat) ≠ SHA256_IOC_START_HASH ∧ (0x12345678 : Nat) ≠ SHA256_IOC_RESET) ∧
    (sha256_ioctl_bus (deviceRead32 true) (deviceWrite32 true false) fullState 0x12345678 true =
        some { ret := -ENOTTY, bus := fullState, out := none } ∧
      sha256_ioctl_bus (logRead32 fun _ => 7) logWrite32 [Access.read 4] 0x12345678 true =
        some { ret := -ENOTTY, bus := [Access.read 4], out := none } ∧
      sha256_ioctl true fullState 0x12345678 true =
        some { ret := -ENOTTY, dev := fullState, out := none }) ∧
    fullState.WF ∧
    ∃ dev', sha256_ioctl_bus (deviceRead32 true) (deviceWrite32 true false) fullState
        SHA256_IOC_START_HASH true =
      some { ret := 0, bus := dev', out := none } :=
  ⟨⟨by decide, by decide, by decide, by decide⟩,
    (C25_ioctl_commands (deviceRead32 true) (deviceWrite32 true false) fullState (fun _ => 7)
      [Access.read 4] true false fullState true).1 0x12345678 (by decide) (by decide)
      (by decide) (by decide),
    by decide!,
    ((C25_ioctl_commands (deviceRead32 true) (deviceWrite32 true false) fullState (fun _ => 7)
      [Access.read 4] true false fullState true).2.2.2.2.1 (by decide!)).2.2.1⟩

/-- C26: reset, status, read.  For every state of the device the C type
admits, `hashedState` after a hash for one, every position of the session and
every user buffer of at least 32 accessible bytes: the control command
`SHA256_IOC_RESET` returns 0, then `SHA256_IOC_GET_STATUS` returns 0 and
delivers the status value 0, then `sha256_read` of 32 bytes returns 32 and
leaves 32 zero bytes in the first 32 bytes of the user buffer. -/
theorem C26_reset_status_read (signedChar : Bool) (dev : SHA256DeviceState) (ubuf : List Nat)
    (argOk : Bool) (c : Nat) (hwf : dev.WF) (hubuf : 32 ≤ ubuf.length) :
    (sha256_ioctl signedChar dev SHA256_IOC_RESET argOk).bind (fun r1 =>
      (sha256_ioctl signedChar r1.dev SHA256_IOC_GET_STATUS true).bind (fun r2 =>
        (sha256_read (ioread8 signedChar) r2.dev ubuf 32 c).map (fun r3 =>
          (r1.ret, r2.ret, r2.out, r3.ret, r3.buf)))) =
      some (0, 0, some 0, 32, List.replicate 32 0 ++ ubuf.drop 32) := by
  have hwf' : SHA256DeviceState.WF
      { inputBuffer := List.replicate 1024 0, outputBuffer := List.replicate 32 0,
        control := 0, status := 0 } := sha_instance_init_WF
  rw [ioctl_reset signedChar dev argOk hwf]
  simp only [Option.some_bind]
  rw [ioctl_get_status]
  simp only [Option.some_bind]
  rw [sha256_read_device signedChar _ ubuf 32 c hwf' (by omega)]
  simp only [Option.map_some', Nat.min_self]
  rw [List.take_of_length_le (by rw [List.length_replicate])]
  rfl

set_option maxRecDepth 1000000 in
theorem C26_reset_status_read_witness :
    (sha256_write (iowrite8 true) sha_instance_init [0x78] 1 0).bind
        (fun r => (sha256_ioctl true r.bus SHA256_IOC_START_HASH true).map fun r2 => r2.dev) =
      some hashedState ∧
    (hashedState.WF ∧ 32 ≤ (List.replicate 32 0xAA).length) ∧
    (sha256_ioctl true hashedState SHA256_IOC_RESET true).bind (fun r1 =>
      (sha256_ioctl true r1.dev SHA256_IOC_GET_STATUS true).bind (fun r2 =>
        (sha256_read (ioread8 true) r2.dev (List.replicate 32 0xAA) 32 32).map (fun r3 =>
          (r1.ret, r2.ret, r2.out, r3.ret, r3.buf)))) =
      some (0, 0, some 0, 32, List.replicate 32 0 ++ (List.replicate 32 0xAA).drop 32) :=
  ⟨by decide!, ⟨by decide!, by decide⟩,
    C26_reset_status_read true hashedState (List.replicate 32 0xAA) true 32 (by decide!)
      (by decide)⟩

/-- C27: the padding.  For every message `m` of `n ≤ 1023` bytes none of which
is zero, standing in the input string before a zero byte: `strlen` finds `n`;
the size `perform_sha256_hashing` computes for the message block,
`(n * 8 + 72 + 511) / 512 * 512 / 8`, is `64 * ⌈(n + 9) / 64⌉`, the least
multiple of 64 that is at least `n + 9`; and `encodeMessageBlock` on a buffer
of that many zero bytes returns the block of that length that holds `m`, then
the byte 0x80, then zero bytes, then in its last 8 bytes the number `8 * n`,
most significant byte first. -/
theorem C27_padding (signedChar : Bool) (m rest : List Nat) (hm0 : ∀ b ∈ m, b ≠ 0)
    (hm : ∀ b ∈ m, b < 256) (hlen : m.length ≤ 1023) :
    strlen (m ++ 0 :: rest) = some m.length ∧
    (m.length * 8 + 72 + 511) / 512 * 512 / 8 = 64 * ((m.length + 9 + 63) / 64) ∧
    m.length + 9 ≤ 64 * ((m.length + 9 + 63) / 64) ∧
    (∀ j, m.length + 9 ≤ 64 * j → 64 * ((m.length + 9 + 63) / 64) ≤ 64 * j) ∧
    ∃ block,
      encodeMessageBlock signedChar (m ++ 0 :: rest)
          (List.replicate ((m.length * 8 + 72 + 511) / 512 * 512 / 8) 0) m.length
          ((m.length * 8 + 72 + 511) / 512 * 512 / 8) = some block ∧
      block.length = 64 * ((m.length + 9 + 63) / 64) ∧
      block = m ++ [0x80] ++
        List.replicate (64 * ((m.length + 9 + 63) / 64) - m.length - 9) 0 ++
        [8 * m.length / 2 ^ 56 % 256, 8 * m.length / 2 ^ 48 % 256,
         8 * m.length / 2 ^ 40 % 256, 8 * m.length / 2 ^ 32 % 256,
         8 * m.length / 2 ^ 24 % 256, 8 * m.length / 2 ^ 16 % 256,
         8 * m.length / 2 ^ 8 % 256, 8 * m.length % 256] := by
  have hsize : (m.length * 8 + 72 + 511) / 512 * 512 / 8 = 64 * ((m.length + 9 + 63) / 64) := by
    omega
  have hle : m.length + 9 ≤ 64 * ((m.length + 9 + 63) / 64) := by omega
  refine ⟨strlen_append m rest hm0, hsize, hle, fun j hj => by omega, ?_⟩
  rw [hsize]
  refine ⟨_, encodeMessageBlock_eq signedChar m rest hm0 hm _ hle, length_paddedBytes m _ hle,
    paddedBytes_eq m _ hlen⟩

theorem C27_padding_witness :
    ((∀ b ∈ [0x61, 0x62, 0x63], b ≠ 0) ∧ (∀ b ∈ [0x61, 0x62, 0x63], b < 256) ∧
      [0x61, 0x62, 0x63].length ≤ 1023) ∧
    ∃ block,
      encodeMessageBlock true ([0x61, 0x62, 0x63] ++ 0 :: [0x7A])
          (List.replicate (([0x61, 0x62, 0x63].length * 8 + 72 + 511) / 512 * 512 / 8) 0)
          [0x61, 0x62, 0x63].length
          (([0x61, 0x62, 0x63].length * 8 + 72 + 511) / 512 * 512 / 8) = some block ∧
      block.length = 64 * (([0x61, 0x62, 0x63].length + 9 + 63) / 64) ∧
      block = [0x61, 0x62, 0x63] ++ [0x80] ++
        List.replicate (64 * (([0x61, 0x62, 0x63].length + 9 + 63) / 64) -
          [0x61, 0x62, 0x63].length - 9) 0 ++
        [8 * [0x61, 0x62, 0x63].length / 2 ^ 56 % 256,
         8 * [0x61, 0x62, 0x63].length / 2 ^ 48 % 256,
         8 * [0x61, 0x62, 0x63].length / 2 ^ 40 % 256,
         8 * [0x61, 0x62, 0x63].length / 2 ^ 32 % 256,
         8 * [0x61, 0x62, 0x63].length / 2 ^ 24 % 256,
         8 * [0x61, 0x62, 0x63].length / 2 ^ 16 % 256,
         8 * [0x61, 0x62, 0x63].length / 2 ^ 8 % 256, 8 * [0x61, 0x62, 0x63].length % 256] :=
  ⟨⟨by decide, by decide, by decide⟩,
    (C27_padding true [0x61, 0x62, 0x63] [0x7A] (by decide) (by decide) (by decide)).2.2.2.2⟩

/-- C28: the message schedule.  For every chunk `c` of 64 bytes,
`messageSchedule` returns an array `w` of 64 words in which, for `i < 16`,
`w[i]` is the 32-bit word of the bytes `c[4i] .. c[4i + 3]`, most significant
byte first, and for `16 ≤ i < 64`,
`w[i] = w[i - 16] + s0(w[i - 15]) + w[i - 7] + s1(w[i - 2])` modulo `2 ^ 32`,
with `s0(x) = ROTR(x, 7) xor ROTR(x, 18) xor SHR(x, 3)` and
`s1(x) = ROTR(x, 17) xor ROTR(x, 19) xor SHR(x, 10)`; whatever `w` held before
the call.  On a 32-bit word and for `0 < n < 32` the macro `RIGHT_ROTATE` is
the rotation to the right by `n` places: the result is a 32-bit word whose bit
`j` is bit `(j + n) mod 32` of the argument. -/
theorem C28_message_schedule (chunkIndex : Nat) (chunks : List (List Nat)) (numChunks : Nat)
    (c w0 : List Nat) (hc : chunks[chunkIndex]? = some c) (hcl : c.length = 64)
    (hcb : ∀ b ∈ c, b < 256) (hw : w0.length = 64) :
    (∃ w, messageSchedule chunkIndex chunks numChunks w0 = some w ∧ w.length = 64 ∧
      (∀ i, i < 16 →
        w.getD i 0 = c.getD (4 * i) 0 * 2 ^ 24 + c.getD (4 * i + 1) 0 * 2 ^ 16 +
          c.getD (4 * i + 2) 0 * 2 ^ 8 + c.getD (4 * i + 3) 0) ∧
      (∀ i, 16 ≤ i → i < 64 →
        w.getD i 0 =
          (w.getD (i - 16) 0 +
            (RIGHT_ROTATE (w.getD (i - 15) 0) 7 ^^^ RIGHT_ROTATE (w.getD (i - 15) 0) 18 ^^^
              (w.getD (i - 15) 0 / 2 ^ 3)) +
            w.getD (i - 7) 0 +
            (RIGHT_ROTATE (w.getD (i - 2) 0) 17 ^^^ RIGHT_ROTATE (w.getD (i - 2) 0) 19 ^^^
              (w.getD (i - 2) 0 / 2 ^ 10))) % 2 ^ 32) ∧
      ∀ i, w.getD i 0 < 2 ^ 32) ∧
    (∀ x n, x < 2 ^ 32 → 0 < n → n < 32 →
      RIGHT_ROTATE x n < 2 ^ 32 ∧
      ∀ j, j < 32 → (RIGHT_ROTATE x n).testBit j = x.testBit ((j + n) % 32)) := by
  refine ⟨⟨_, messageSchedule_eq chunkIndex chunks numChunks c hc hcl hcb w0 hw,
    length_schedule _ (length_chunkWords c), ?_, ?_, ?_⟩, ?_⟩
  · intro i hi
    rw [schedule_getD_first _ i (by rw [length_chunkWords]; exact hi),
      chunkWords_getD c hcl hcb i hi]
  · intro i h16 h64
    exact schedule_getD_next _ (length_chunkWords c) (chunkWords_lt c) i h16 h64
  · intro i
    exact getD_lt _ (expand_lt _ (chunkWords_lt c) 48) i
  · intro x n hx hn0 hn
    rw [RIGHT_ROTATE_eq x n hx hn0 hn]
    exact ⟨ROTR_lt x n hx hn, fun j hj => ROTR_testBit x n hx hn0 hn j hj⟩

theorem C28_message_schedule_witness :
    (([message56 ++ [0x80, 0, 0, 0, 0, 0, 0, 0]] : List (List Nat))[0]? =
        some (message56 ++ [0x80, 0, 0, 0, 0, 0, 0, 0]) ∧
      (message56 ++ [0x80, 0, 0, 0, 0, 0, 0, 0]).length = 64 ∧
      (∀ b ∈ message56 ++ [0x80, 0, 0, 0, 0, 0, 0, 0], b < 256) ∧
      (List.replicate 64 0xFFFFFFFF).length = 64) ∧
    ∃ w, messageSchedule 0 [message56 ++ [0x80, 0, 0, 0, 0, 0, 0, 0]] 1
        (List.replicate 64 0xFFFFFFFF) = some w ∧ w.length = 64 ∧
      (∀ i, i < 16 →
        w.getD i 0 = (message56 ++ [0x80, 0, 0, 0, 0, 0, 0, 0]).getD (4 * i) 0 * 2 ^ 24 +
          (message56 ++ [0x80, 0, 0, 0, 0, 0, 0, 0]).getD (4 * i + 1) 0 * 2 ^ 16 +
          (message56 ++ [0x80, 0, 0, 0, 0, 0, 0, 0]).getD (4 * i + 2) 0 * 2 ^ 8 +
          (message56 ++ [0x80, 0, 0, 0, 0, 0, 0, 0]).getD (4 * i + 3) 0) ∧
      (∀ i, 16 ≤ i → i < 64 →
        w.getD i 0 =
          (w.getD (i - 16) 0 +
            (RIGHT_ROTATE (w.getD (i - 15) 0) 7 ^^^ RIGHT_ROTATE (w.getD (i - 15) 0) 18 ^^^
              (w.getD (i - 15) 0 / 2 ^ 3)) +
            w.getD (i - 7) 0 +
            (RIGHT_ROTATE (w.getD (i - 2) 0) 17 ^^^ RIGHT_ROTATE (w.getD (i - 2) 0) 19 ^^^
              (w.getD (i - 2) 0 / 2 ^ 10))) % 2 ^ 32) ∧
      ∀ i, w.getD i 0 < 2 ^ 32 :=
  ⟨⟨rfl, by decide, by decide, by decide⟩,
    (C28_message_schedule 0 [message56 ++ [0x80, 0, 0, 0, 0, 0, 0, 0]] 1
      (message56 ++ [0x80, 0, 0, 0, 0, 0, 0, 0]) (List.replicate 64 0xFFFFFFFF) rfl (by decide)
      (by decide) (by decide)).1⟩

/-- C29: the compression.  For every hash state `H` of eight 32-bit words and
every schedule `w` of 64 words, `compression` replaces `H` by `H + R`, word by
word modulo `2 ^ 32`, where `R` is what 64 rounds make of the working
variables `(a, .., h) = H`; round `t` is
`T1 = h + S1(e) + Ch(e, f, g) + K[t] + w[t]`, `T2 = S0(a) + Maj(a, b, c)`,
`(a, b, c, d, e, f, g, h) := (T1 + T2, a, b, c, d + T1, e, f, g)` modulo
`2 ^ 32`, with `S1(e) = ROTR(e, 6) xor ROTR(e, 11) xor ROTR(e, 25)`,
`S0(a) = ROTR(a, 2) xor ROTR(a, 13) xor ROTR(a, 22)`,
`Ch(e, f, g) = (e and f) xor (not e and g)`,
`Maj(a, b, c) = (a and b) xor (a and c) xor (b and c)`, and `K[t]` the first 32
bits of the fractional part of the cube root of the prime of index `t`, which
is entry `t` of the table `k` of the source. -/
theorem C29_compression (H w : List Nat) (hH : H.length = 8) (hHb : ∀ x ∈ H, x < 2 ^ 32)
    (hw : w.length = 64) :
    (∃ R : Work,
      R = FIPS.rounds w 64 ⟨H.getD 0 0, H.getD 1 0, H.getD 2 0, H.getD 3 0, H.getD 4 0,
        H.getD 5 0, H.getD 6 0, H.getD 7 0⟩ ∧
      compression H w = some
        [(H.getD 0 0 + R.a) % 2 ^ 32, (H.getD 1 0 + R.b) % 2 ^ 32,
         (H.getD 2 0 + R.c) % 2 ^ 32, (H.getD 3 0 + R.d) % 2 ^ 32,
         (H.getD 4 0 + R.e) % 2 ^ 32, (H.getD 5 0 + R.f) % 2 ^ 32,
         (H.getD 6 0 + R.g) % 2 ^ 32, (H.getD 7 0 + R.h) % 2 ^ 32]) ∧
    (∀ v, FIPS.rounds w 0 v = v) ∧
    (∀ t v, FIPS.rounds w (t + 1) v =
      FIPS.round (FIPS.K.getD t 0) (w.getD t 0) (FIPS.rounds w t v)) ∧
    (∀ Kt Wt v, FIPS.round Kt Wt v =
      { a := ((v.h + (ROTR v.e 6 ^^^ ROTR v.e 11 ^^^ ROTR v.e 25) +
               ((v.e &&& v.f) ^^^ ((2 ^ 32 - 1 - v.e) &&& v.g)) + Kt + Wt) % 2 ^ 32 +
              ((ROTR v.a 2 ^^^ ROTR v.a 13 ^^^ ROTR v.a 22) +
               ((v.a &&& v.b) ^^^ (v.a &&& v.c) ^^^ (v.b &&& v.c))) % 2 ^ 32) % 2 ^ 32,
        b := v.a, c := v.b, d := v.c,
        e := (v.d + (v.h + (ROTR v.e 6 ^^^ ROTR v.e 11 ^^^ ROTR v.e 25) +
               ((v.e &&& v.f) ^^^ ((2 ^ 32 - 1 - v.e) &&& v.g)) + Kt + Wt) % 2 ^ 32) % 2 ^ 32,
        f := v.e, g := v.f, h := v.g }) ∧
    FIPS.K = k ∧
    (∀ t, t < 64 → FIPS.K.getD t 0 =
      FIPS.cubeRoot (FIPS.primes.getD t 0 * 2 ^ 96) 35 % 2 ^ 32) := by
  refine ⟨⟨_, rfl, compression_eq H w hH hHb hw⟩, fun _ => rfl, fun _ _ => rfl, ?_, K_eq, ?_⟩
  · intro Kt Wt v
    simp only [FIPS.round, bigSigma1, bigSigma0, Ch, Maj, compl32, ← sum5_mod]
    rfl
  · intro t ht
    have hl : t < FIPS.primes.length := by
      rw [show FIPS.primes.length = 64 by rfl]; exact ht
    rw [FIPS.K, List.getD_eq_getElem?_getD, List.getElem?_map,
      List.getElem?_eq_getElem hl, List.getD_eq_getElem _ _ hl]
    rfl

theorem C29_compression_witness :
    (hashInit.length = 8 ∧ (∀ x ∈ hashInit, x < 2 ^ 32) ∧ (List.replicate 64 7).length = 64) ∧
    ∃ R : Work,
      R = FIPS.rounds (List.replicate 64 7) 64 ⟨hashInit.getD 0 0, hashInit.getD 1 0,
        hashInit.getD 2 0, hashInit.getD 3 0, hashInit.getD 4 0, hashInit.getD 5 0,
        hashInit.getD 6 0, hashInit.getD 7 0⟩ ∧
      compression hashInit (List.replicate 64 7) = some
        [(hashInit.getD 0 0 + R.a) % 2 ^ 32, (hashInit.getD 1 0 + R.b) % 2 ^ 32,
         (hashInit.getD 2 0 + R.c) % 2 ^ 32, (hashInit.getD 3 0 + R.d) % 2 ^ 32,
         (hashInit.getD 4 0 + R.e) % 2 ^ 32, (hashInit.getD 5 0 + R.f) % 2 ^ 32,
         (hashInit.getD 6 0 + R.g) % 2 ^ 32, (hashInit.getD 7 0 + R.h) % 2 ^ 32] :=
  ⟨⟨by decide, by decide, by decide⟩,
    (C29_compression hashInit (List.replicate 64 7) (by decide) (by decide) (by decide)).1⟩

/-- C30: the invariant of the reachable states.  Every state `s` the device
reaches from `sha_instance_init` by a sequence of `sha_device_write` calls of
any addresses, data and sizes (each start-hash on a window that holds a zero
byte: on a window without one the execution is undefined, and the sequence
yields no state) is a state the C type admits in which `status` is 0 or 1, and
in which every byte of `outputBuffer` is 0 when `status` is 0.  From such a
state the device serves every further write, a start-hash on a window with a
zero byte included. -/
theorem C30_reachable_invariant (signedChar : Bool) (ops : List (Nat × Nat × Nat))
    (s : SHA256DeviceState) (hrun : runWrites signedChar ops sha_instance_init = some s) :
    s.WF ∧ (s.status = 0 ∨ s.status = 1) ∧
    (s.status = 0 → s.outputBuffer.length = 32 ∧ ∀ b ∈ s.outputBuffer, b = 0) ∧
    ∀ addr data size, (addr = CTRL_REG → data = 1 → 0 ∈ s.inputBuffer) →
      ∃ s', sha_device_write signedChar s addr data size = some s' ∧
        runWrites signedChar (ops ++ [(addr, data, size)]) sha_instance_init = some s' := by
  obtain ⟨hwf, hst, hout⟩ := runWrites_inv signedChar ops sha_instance_init s
    sha_instance_init_WF (Or.inl rfl) (fun _ => rfl) hrun
  refine ⟨hwf, hst, ?_, ?_⟩
  · intro h0
    rw [hout h0]
    exact ⟨List.length_replicate _ _, fun b hb => (List.mem_replicate.1 hb).2⟩
  · intro addr data size hterm
    obtain ⟨s', hs', _⟩ := sha_device_write_WF signedChar s addr data size hwf hterm
    refine ⟨s', hs', ?_⟩
    rw [runWrites_append, hrun, Option.some_bind]
    simp only [runWrites, hs', Option.some_bind]

set_option maxRecDepth 1000000 in
theorem C30_reachable_invariant_witness :
    runWrites true sampleWrites sha_instance_init = some sampleReached ∧
    sampleReached.WF ∧ (sampleReached.status = 0 ∨ sampleReached.status = 1) ∧
    (sampleReached.status = 0 →
      sampleReached.outputBuffer.length = 32 ∧ ∀ b ∈ sampleReached.outputBuffer, b = 0) :=
  ⟨by decide!,
    (C30_reachable_invariant true sampleWrites sampleReached (by decide!)).1,
    (C30_reachable_invariant true sampleWrites sampleReached (by decide!)).2.1,
    (C30_reachable_invariant true sampleWrites sampleReached (by decide!)).2.2.1⟩

/-! ### Writes that run past the input window -/

theorem writeBytes_append (signedChar : Bool) (a b : List Nat) :
    ∀ (addr : Nat) (s : SHA256DeviceState),
      writeBytes signedChar (a ++ b) addr s =
        (writeBytes signedChar a addr s).bind (writeBytes signedChar b (addr + a.length)) := by
  induction a with
  | nil => intro addr s; rfl
  | cons x xs ih =>
    intro addr s
    simp only [List.cons_append, writeBytes, List.length_cons]
    cases sha_device_write signedChar s addr x 1 with
    | none => rfl
    | some s1 =>
      simp only [Option.some_bind]
      have h := ih (addr + 1) s1
      rw [show addr + 1 + xs.length = addr + (xs.length + 1) by omega] at h
      exact h

theorem write_outside (signedChar : Bool) (s : SHA256DeviceState) (addr data size : Nat)
    (h : INPUT_REG + inputBufferSize ≤ addr) :
    sha_device_write signedChar s addr data size = some s := by
  have h1 : addr ≠ CTRL_REG := by
    simp only [INPUT_REG, inputBufferSize, CTRL_REG] at h ⊢; omega
  have h2 : ¬ (INPUT_REG ≤ addr ∧ addr < INPUT_REG + inputBufferSize) := by omega
  simp only [sha_device_write, h1, h2, if_false]

theorem writeBytes_outside (signedChar : Bool) (msg : List Nat) :
    ∀ (addr : Nat) (s : SHA256DeviceState), INPUT_REG + inputBufferSize ≤ addr →
      writeBytes signedChar msg addr s = some s := by
  induction msg with
  | nil => intro addr s _; rfl
  | cons b bs ih =>
    intro addr s h
    simp only [writeBytes, write_outside signedChar s addr b 1 h, Option.some_bind]
    exact ih (addr + 1) s (by omega)

/-- One-byte writes of a message from offset `c` of the input window on: the
bytes that fall inside the window are stored, the others are dropped. -/
theorem writeBytes_clipped (signedChar : Bool) (msg : List Nat) (hmsg : ∀ b ∈ msg, b < 256)
    (c : Nat) (s : SHA256DeviceState) (hlen : s.inputBuffer.length = inputBufferSize) :
    writeBytes signedChar msg (INPUT_REG + c) s =
      some { s with inputBuffer := s.inputBuffer.take c ++ msg.take (1024 - c) ++
        s.inputBuffer.drop (c + (msg.take (1024 - c)).length) } := by
  simp only [inputBufferSize] at hlen
  by_cases hc : 1024 ≤ c
  · rw [writeBytes_outside signedChar msg _ s (by simp only [inputBufferSize]; omega),
      show 1024 - c = 0 by omega, List.take_zero, List.append_nil, List.length_nil,
      List.take_of_length_le (by omega), List.drop_of_length_le (by omega), List.append_nil]
  · have hsplit : msg = msg.take (1024 - c) ++ msg.drop (1024 - c) :=
      (List.take_append_drop _ _).symm
    have hfirst := writeBytes_eq signedChar (msg.take (1024 - c))
      (fun b hb => hmsg b (List.mem_of_mem_take hb)) (s.inputBuffer.take c)
      (s.inputBuffer.drop c) s (List.take_append_drop _ _).symm
      (by rw [List.length_take, List.length_drop]; omega)
      (by rw [List.length_take, List.length_drop]; simp only [inputBufferSize]; omega)
    rw [List.length_take, Nat.min_eq_left (by omega), List.drop_drop] at hfirst
    have hrest : writeBytes signedChar (msg.drop (1024 - c))
        (INPUT_REG + c + (msg.take (1024 - c)).length)
        { s with inputBuffer := s.inputBuffer.take c ++ msg.take (1024 - c) ++
          s.inputBuffer.drop (c + (msg.take (1024 - c)).length) } =
        some { s with inputBuffer := s.inputBuffer.take c ++ msg.take (1024 - c) ++
          s.inputBuffer.drop (c + (msg.take (1024 - c)).length) } := by
      by_cases hm : msg.length ≤ 1024 - c
      · rw [List.drop_of_length_le hm]; rfl
      · apply writeBytes_outside
        rw [List.length_take]
        simp only [inputBufferSize]
        omega
    conv => lhs; rw [hsplit]
    rw [writeBytes_append, hfirst, Option.some_bind]
    exact hrest

theorem clipped_length (ib msg : List Nat) (c : Nat) (hlen : ib.length = 1024) :
    (ib.take c ++ msg.take (1024 - c) ++ ib.drop (c + (msg.take (1024 - c)).length)).length =
      1024 := by
  simp only [List.length_append, List.length_take, List.length_drop]
  omega

theorem clipped_getD (ib msg : List Nat) (c : Nat) (hlen : ib.length = 1024) (j : Nat) :
    (ib.take c ++ msg.take (1024 - c) ++ ib.drop (c + (msg.take (1024 - c)).length)).getD j 0 =
      if c ≤ j ∧ j < c + msg.length ∧ j < 1024 then msg.getD (j - c) 0 else ib.getD j 0 := by
  have hw : (msg.take (1024 - c)).length = min (1024 - c) msg.length := List.length_take _ _
  have ht : (ib.take c).length = min c 1024 := by rw [List.length_take, hlen]
  simp only [List.getD_eq_getElem?_getD]
  by_cases h1 : j < c
  · have hcond : ¬ (c ≤ j ∧ j < c + msg.length ∧ j < 1024) := by omega
    rw [if_neg hcond]
    by_cases h2 : j < 1024
    · rw [List.append_assoc, List.getElem?_append_left (by rw [ht]; omega),
        List.getElem?_take_of_lt h1]
    · rw [List.getElem?_eq_none (by rw [clipped_length ib msg c hlen]; omega),
        List.getElem?_eq_none (by omega)]
  · by_cases h2 : j < c + msg.length ∧ j < 1024
    · rw [if_pos ⟨by omega, h2.1, h2.2⟩,
        List.getElem?_append_left (by
          rw [List.length_append, ht, hw]; omega),
        List.getElem?_append_right (by rw [ht]; omega), ht, Nat.min_eq_left (by omega),
        List.getElem?_take_of_lt (by omega)]
    · have hcond : ¬ (c ≤ j ∧ j < c + msg.length ∧ j < 1024) := by omega
      rw [if_neg hcond]
      by_cases h3 : j < 1024
      · rw [List.getElem?_append_right (by rw [List.length_append, ht, hw]; omega),
          List.getElem?_drop, List.length_append, ht, hw]
        congr 2
        omega
      · rw [List.getElem?_eq_none (by rw [clipped_length ib msg c hlen]; omega),
          List.getElem?_eq_none (by omega)]

theorem clipped_lt (ib msg : List Nat) (c : Nat) (hib : ∀ b ∈ ib, b < 256)
    (hmsg : ∀ b ∈ msg, b < 256) :
    ∀ b ∈ ib.take c ++ msg.take (1024 - c) ++ ib.drop (c + (msg.take (1024 - c)).length),
      b < 256 := by
  intro b hb
  rcases List.mem_append.1 hb with h | h
  · rcases List.mem_append.1 h with h | h
    · exact hib b (List.mem_of_mem_take h)
    · exact hmsg b (List.mem_of_mem_take h)
  · exact hib b (List.mem_of_mem_drop h)

/-- The write of a message over the start of an older, longer one, both
written to the reset window from its first byte on. -/
theorem overwrite_eq (signedChar : Bool) (s0 : SHA256DeviceState) (p s : List Nat)
    (hwf : s0.WF) (hreset : s0.inputBuffer = List.replicate inputBufferSize 0)
    (hps : s.length ≤ p.length) (hp : p.length ≤ 1023) (hpb : ∀ b ∈ p, b < 256)
    (hsb : ∀ b ∈ s, b < 256) :
    (writeBytes signedChar p INPUT_REG s0).bind (writeBytes signedChar s INPUT_REG) =
      some { s0 with inputBuffer := s ++ p.drop s.length ++
        List.replicate (1024 - p.length) 0 } := by
  have hw1 := writeBytes_eq signedChar p hpb [] s0.inputBuffer s0 rfl
    (by rw [hwf.1]; simp only [inputBufferSize]; omega) (by rw [hwf.1]; simp)
  simp only [List.length_nil, Nat.add_zero, List.nil_append] at hw1
  have hdrop : s0.inputBuffer.drop p.length = List.replicate (1024 - p.length) 0 := by
    rw [hreset, List.drop_replicate]
  rw [hdrop] at hw1
  have hw2 := writeBytes_eq signedChar s hsb [] (p ++ List.replicate (1024 - p.length) 0)
    { s0 with inputBuffer := p ++ List.replicate (1024 - p.length) 0 } rfl
    (by simp only [List.length_append, List.length_replicate]; omega)
    (by simp only [List.length_nil, List.length_append, List.length_replicate,
          inputBufferSize]; omega)
  simp only [List.length_nil, Nat.add_zero, List.nil_append] at hw2
  rw [hw1, Option.some_bind, hw2, List.drop_append_of_le_length hps, List.append_assoc]

/-- The driver's write on the device, in closed form: the bytes that fall
inside the input window are stored, the others are dropped, and the count
returned is the clipped count in either case. -/
theorem sha256_write_clipped (signedChar : Bool) (dev : SHA256DeviceState) (buf : List Nat)
    (n c : Nat) (hlen : dev.inputBuffer.length = inputBufferSize)
    (hbuf : min n 1024 ≤ buf.length) (hb : ∀ b ∈ buf, b < 256)
    (hc : c + min n 1024 ≤ 0xFF0) :
    sha256_write (iowrite8 signedChar) dev buf n c =
      some { ret := ((min n 1024 : Nat) : Int),
             bus := { dev with inputBuffer := dev.inputBuffer.take c ++
               (buf.take (min n 1024)).take (1024 - c) ++
               dev.inputBuffer.drop (c + ((buf.take (min n 1024)).take (1024 - c)).length) },
             pos := c + min n 1024 } := by
  rw [sha256_write_device signedChar dev buf n c hbuf hb
      (by simp only [INPUT_REG, regionSize]; omega),
    writeBytes_clipped signedChar _ (fun b h => hb b (List.mem_of_mem_take h)) c dev hlen]
  rfl

theorem head_zero_split (L : List Nat) (hl : L.length = 1024) (h0 : L.getD 0 0 = 0) :
    ∃ rest, L = [] ++ 0 :: rest := by
  cases L with
  | nil => simp at hl
  | cons a rest =>
    simp only [List.getD_cons_zero] at h0
    exact ⟨rest, by rw [h0]; rfl⟩

/-! ## The claims, last part -/

/-- C31: stale input is hashed when no terminator is written.  From a state
whose input window is all zero (the reset state), for all messages `p` and
`s` without a zero byte with `s.length < p.length ≤ 1023`: the one-byte writes
of `p` from `INPUT_REG` on, then those of `s` from `INPUT_REG` on, then the
write of 1 to `CTRL_REG` leave in `outputBuffer` SHA-256 of `s` followed by
the bytes of `p` from index `s.length` on.  That message is the effective
input of the window; it has the length of `p` and is not `s`.  Had the zero
byte been written behind `s`, the digest would be the one of `s`. -/
theorem C31_stale_input_hashed (signedChar : Bool) (s0 : SHA256DeviceState) (p s : List Nat)
    (size : Nat) (hwf : s0.WF) (hreset : s0.inputBuffer = List.replicate inputBufferSize 0)
    (hps : s.length < p.length) (hp : p.length ≤ 1023)
    (hpb : ∀ b ∈ p, b < 256) (hpz : ∀ b ∈ p, b ≠ 0)
    (hsb : ∀ b ∈ s, b < 256) (hsz : ∀ b ∈ s, b ≠ 0) :
    (writeBytes signedChar p INPUT_REG s0).bind (fun s1 =>
      (writeBytes signedChar s INPUT_REG s1).bind (fun s2 =>
        sha_device_write signedChar s2 CTRL_REG 1 size)) =
      some { inputBuffer := s ++ p.drop s.length ++ List.replicate (1024 - p.length) 0,
             outputBuffer := FIPS.sha256 (s ++ p.drop s.length),
             control := 1, status := 1 } ∧
    FIPS.effectiveInput (s ++ p.drop s.length ++ List.replicate (1024 - p.length) 0) =
      s ++ p.drop s.length ∧
    s ++ p.drop s.length ≠ s ∧ (s ++ p.drop s.length).length = p.length ∧
    (writeBytes signedChar p INPUT_REG s0).bind (fun s1 =>
      (writeBytes signedChar (s ++ [0]) INPUT_REG s1).bind (fun s2 =>
        (sha_device_write signedChar s2 CTRL_REG 1 size).map (fun s3 => s3.outputBuffer))) =
      some (FIPS.sha256 s) := by
  have hzeros : List.replicate (1024 - p.length) 0 = 0 :: List.replicate (1023 - p.length) 0 := by
    rw [show 1024 - p.length = (1023 - p.length) + 1 by omega, List.replicate_succ]
  have hmz : ∀ b ∈ s ++ p.drop s.length, b ≠ 0 := by
    intro b hb
    rcases List.mem_append.1 hb with h | h
    · exact hsz b h
    · exact hpz b (List.mem_of_mem_drop h)
  have hmb : ∀ b ∈ s ++ p.drop s.length, b < 256 := by
    intro b hb
    rcases List.mem_append.1 hb with h | h
    · exact hsb b h
    · exact hpb b (List.mem_of_mem_drop h)
  have hml : (s ++ p.drop s.length).length = p.length := by
    rw [List.length_append, List.length_drop]; omega
  have hzb : ∀ b ∈ List.replicate (1024 - p.length) 0, b < 256 := by
    intro b hb
    rw [(List.mem_replicate.1 hb).2]; decide
  refine ⟨?_, ?_, ?_, hml, ?_⟩
  · have h12 := overwrite_eq signedChar s0 p s hwf hreset (by omega) hp hpb hsb
    have hsh := start_hash_eq signedChar
      { s0 with inputBuffer := s ++ p.drop s.length ++ List.replicate (1024 - p.length) 0 }
      size (s ++ p.drop s.length) (List.replicate (1023 - p.length) 0)
      (by simp only [hzeros])
      (by simp only [List.length_append, List.length_drop, List.length_replicate,
            inputBufferSize]; omega)
      (by
        intro b hb
        rcases List.mem_append.1 hb with h | h
        · exact hmb b h
        · exact hzb b h)
      hwf.2.1 hmz
    have hb : (writeBytes signedChar p INPUT_REG s0).bind (fun s1 =>
        (writeBytes signedChar s INPUT_REG s1).bind (fun s2 =>
          sha_device_write signedChar s2 CTRL_REG 1 size)) =
        ((writeBytes signedChar p INPUT_REG s0).bind (writeBytes signedChar s INPUT_REG)).bind
          (fun s2 => sha_device_write signedChar s2 CTRL_REG 1 size) := by
      cases writeBytes signedChar p INPUT_REG s0 with
      | none => rfl
      | some s1 => rfl
    rw [hb, h12, Option.some_bind]
    exact hsh
  · rw [hzeros]
    exact effectiveInput_append _ _ hmz
  · intro h
    have := congrArg List.length h
    rw [hml] at this
    omega
  · have hs0b : ∀ b ∈ s ++ [0], b < 256 := by
      intro b hb
      rcases List.mem_append.1 hb with h | h
      · exact hsb b h
      · rw [List.mem_singleton.1 h]; decide
    have h12 := overwrite_eq signedChar s0 p (s ++ [0]) hwf hreset
      (by rw [List.length_append, List.length_singleton]; omega) hp hpb hs0b
    have hsh := start_hash_eq signedChar
      { s0 with inputBuffer := (s ++ [0]) ++ p.drop (s ++ [0]).length ++
          List.replicate (1024 - p.length) 0 }
      size s (p.drop (s ++ [0]).length ++ List.replicate (1024 - p.length) 0)
      (by simp only [List.append_assoc, List.singleton_append, List.cons_append,
            List.nil_append])
      (by simp only [List.length_append, List.length_drop, List.length_replicate,
            List.length_singleton, inputBufferSize]; omega)
      (by
        intro b hb
        rcases List.mem_append.1 hb with h | h
        · rcases List.mem_append.1 h with h | h
          · exact hs0b b h
          · exact hpb b (List.mem_of_mem_drop h)
        · exact hzb b h)
      hwf.2.1 hsz
    have hb : (writeBytes signedChar p INPUT_REG s0).bind (fun s1 =>
        (writeBytes signedChar (s ++ [0]) INPUT_REG s1).bind (fun s2 =>
          (sha_device_write signedChar s2 CTRL_REG 1 size).map (fun s3 => s3.outputBuffer))) =
        ((writeBytes signedChar p INPUT_REG s0).bind
          (writeBytes signedChar (s ++ [0]) INPUT_REG)).bind
          (fun s2 => (sha_device_write signedChar s2 CTRL_REG 1 size).map
            (fun s3 => s3.outputBuffer)) := by
      cases writeBytes signedChar p INPUT_REG s0 with
      | none => rfl
      | some s1 => rfl
    rw [hb, h12, Option.some_bind, hsh]
    rfl

set_option maxRecDepth 1000000 in
theorem C31_stale_input_hashed_witness :
    (sha_instance_init.WF ∧
      sha_instance_init.inputBuffer = List.replicate inputBufferSize 0 ∧
      [0x78].length < [0x68, 0x65, 0x6c, 0x6c, 0x6f].length ∧
      [0x68, 0x65, 0x6c, 0x6c, 0x6f].length ≤ 1023 ∧
      (∀ b ∈ [0x68, 0x65, 0x6c, 0x6c, 0x6f], b < 256) ∧
      (∀ b ∈ [0x68, 0x65, 0x6c, 0x6c, 0x6f], b ≠ 0) ∧
      (∀ b ∈ [0x78], b < 256) ∧ (∀ b ∈ [0x78], b ≠ 0)) ∧
    (writeBytes true [0x68, 0x65, 0x6c, 0x6c, 0x6f] INPUT_REG sha_instance_init).bind (fun s1 =>
      (writeBytes true [0x78] INPUT_REG s1).bind (fun s2 =>
        sha_device_write true s2 CTRL_REG 1 4)) =
      some { inputBuffer := [0x78] ++ [0x68, 0x65, 0x6c, 0x6c, 0x6f].drop [0x78].length ++
               List.replicate (1024 - [0x68, 0x65, 0x6c, 0x6c, 0x6f].length) 0,
             outputBuffer :=
               FIPS.sha256 ([0x78] ++ [0x68, 0x65, 0x6c, 0x6c, 0x6f].drop [0x78].length),
             control := 1, status := 1 } ∧
    [0x78] ++ [0x68, 0x65, 0x6c, 0x6c, 0x6f].drop [0x78].length = [0x78, 0x65, 0x6c, 0x6c, 0x6f] ∧
    FIPS.sha256 [0x78, 0x65, 0x6c, 0x6c, 0x6f] ≠ FIPS.sha256 [0x78] :=
  ⟨⟨by decide!, rfl, by decide, by decide, by decide, by decide, by decide, by decide⟩,
    (C31_stale_input_hashed true sha_instance_init [0x68, 0x65, 0x6c, 0x6c, 0x6f] [0x78] 4
      (by decide!) rfl (by decide) (by decide) (by decide) (by decide) (by decide)
      (by decide)).1, rfl, by decide!⟩

/-- C32: the position of the session is not reset by `RESET` or `START_HASH`.
The function `sha256_ioctl` has no access to the position.  In one session on
a device in any state the C type admits: after `sha256_read` of `n ≥ 1` bytes
the position is `min n 32`; after the control command `SHA256_IOC_RESET`, for
every message `m`, `sha256_write` of the bytes of `m` returns
`min m.length 1024`, leaves the position at `min n 32 + min m.length 1024` and
leaves a device whose input window is 0 at every offset below `min n 32`,
offset 0 for one, and holds byte `i` of `m` at offset `min n 32 + i` as far as
the window reaches; then `SHA256_IOC_START_HASH` returns 0 and `sha256_read`
of 32 bytes returns 32 and delivers SHA-256 of the empty message,
`e3b0c44298fc1c149afbf4c8996fb92427ae41e4649b934ca495991b7852b855`. -/
theorem C32_cursor_survives_reset (signedChar : Bool) (dev : SHA256DeviceState)
    (ubuf1 ubuf2 m : List Nat) (n c0 : Nat) (argOk1 argOk2 : Bool) (hwf : dev.WF)
    (hn : 1 ≤ n) (hubuf1 : min n 32 ≤ ubuf1.length) (hm : ∀ b ∈ m, b < 256)
    (hubuf2 : 32 ≤ ubuf2.length) :
    ∃ dev2 : SHA256DeviceState,
      (sha256_read (ioread8 signedChar) dev ubuf1 n c0).bind (fun r0 =>
        (sha256_ioctl signedChar r0.bus SHA256_IOC_RESET argOk1).bind (fun r1 =>
          (sha256_write (iowrite8 signedChar) r1.dev m m.length r0.pos).map (fun r2 =>
            (r0.pos, r1.ret, r2.ret, r2.pos, r2.bus)))) =
        some (min n 32, 0, ((min m.length 1024 : Nat) : Int), min n 32 + min m.length 1024,
          dev2) ∧
      (∀ j, j < min n 32 → dev2.inputBuffer.getD j 0 = 0) ∧
      (∀ i, i < m.length → min n 32 + i < 1024 →
        dev2.inputBuffer.getD (min n 32 + i) 0 = m.getD i 0) ∧
      (sha256_ioctl signedChar dev2 SHA256_IOC_START_HASH argOk2).bind (fun r3 =>
        (sha256_read (ioread8 signedChar) r3.dev ubuf2 32
            (min n 32 + min m.length 1024)).map (fun r4 =>
          (r3.ret, r4.ret, r4.pos, r4.buf))) =
        some (0, 32, 32, FIPS.sha256 [] ++ ubuf2.drop 32) ∧
      FIPS.sha256 [] =
        [0xe3, 0xb0, 0xc4, 0x42, 0x98, 0xfc, 0x1c, 0x14, 0x9a, 0xfb, 0xf4, 0xc8, 0x99, 0x6f,
         0xb9, 0x24, 0x27, 0xae, 0x41, 0xe4, 0x64, 0x9b, 0x93, 0x4c, 0xa4, 0x95, 0x99, 0x1b,
         0x78, 0x52, 0xb8, 0x55] := by
  have hcl : min m.length 1024 ≤ m.length := by omega
  have hzl : (List.replicate 1024 0 : List Nat).length = 1024 := List.length_replicate _ _
  have hzb : ∀ b ∈ (List.replicate 1024 0 : List Nat), b < 256 := by
    intro b hb
    rw [(List.mem_replicate.1 hb).2]; decide
  have hz : ∀ j, (List.replicate 1024 0 : List Nat).getD j 0 = 0 := by
    intro j
    rw [List.getD_eq_getElem?_getD]
    by_cases hj : j < 1024
    · rw [List.getElem?_replicate_of_lt hj]; rfl
    · rw [List.getElem?_eq_none (by rw [hzl]; omega)]; rfl
  have hl : (m.take (min m.length 1024)).length = min m.length 1024 := by
    rw [List.length_take]; omega
  have hw := sha256_write_clipped signedChar
    { inputBuffer := List.replicate 1024 0, outputBuffer := List.replicate 32 0,
      control := 0, status := 0 } m m.length (min n 32) hzl hcl hm (by omega)
  refine ⟨⟨List.take (min n 32) (List.replicate 1024 0) ++
        (m.take (min m.length 1024)).take (1024 - min n 32) ++
        List.drop (min n 32 + ((m.take (min m.length 1024)).take (1024 - min n 32)).length)
          (List.replicate 1024 0), List.replicate 32 0, 0, 0⟩, ?_, ?_, ?_, ?_, sha256_nil⟩
  · rw [sha256_read_device signedChar dev ubuf1 n c0 hwf hubuf1]
    simp only [Option.some_bind]
    rw [ioctl_reset signedChar dev argOk1 hwf]
    simp only [Option.some_bind]
    rw [hw]
    rfl
  · intro j hj
    show (List.take (min n 32) (List.replicate 1024 0) ++
      (m.take (min m.length 1024)).take (1024 - min n 32) ++
      List.drop (min n 32 + ((m.take (min m.length 1024)).take (1024 - min n 32)).length)
        (List.replicate 1024 0)).getD j 0 = 0
    rw [clipped_getD _ _ _ hzl j, if_neg (by omega), hz]
  · intro i hi h1024
    show (List.take (min n 32) (List.replicate 1024 0) ++
      (m.take (min m.length 1024)).take (1024 - min n 32) ++
      List.drop (min n 32 + ((m.take (min m.length 1024)).take (1024 - min n 32)).length)
        (List.replicate 1024 0)).getD (min n 32 + i) 0 = _
    rw [clipped_getD _ _ _ hzl _, hl, if_pos ⟨by omega, by omega, h1024⟩,
      Nat.add_sub_cancel_left, List.getD_eq_getElem?_getD, List.getD_eq_getElem?_getD,
      List.getElem?_take_of_lt (by omega)]
  · have hlen := clipped_length (List.replicate 1024 0) (m.take (min m.length 1024))
      (min n 32) hzl
    have hlt := clipped_lt (List.replicate 1024 0) (m.take (min m.length 1024)) (min n 32)
      hzb (fun b h => hm b (List.mem_of_mem_take h))
    have h0 : (List.take (min n 32) (List.replicate 1024 0) ++
        (m.take (min m.length 1024)).take (1024 - min n 32) ++
        List.drop (min n 32 + ((m.take (min m.length 1024)).take (1024 - min n 32)).length)
          (List.replicate 1024 0)).getD 0 0 = 0 := by
      rw [clipped_getD _ _ _ hzl 0, if_neg (by omega), hz]
    obtain ⟨rest, hrest⟩ := head_zero_split _ hlen h0
    have hsh := start_hash_eq signedChar
      ⟨List.take (min n 32) (List.replicate 1024 0) ++
          (m.take (min m.length 1024)).take (1024 - min n 32) ++
          List.drop (min n 32 + ((m.take (min m.length 1024)).take (1024 - min n 32)).length)
            (List.replicate 1024 0), List.replicate 32 0, 0, 0⟩
      4 [] rest hrest hlen hlt (List.length_replicate _ _) (by intro b hb; simp at hb)
    rw [ioctl_start_hash, hsh]
    simp only [Option.map_some', Option.some_bind]
    rw [sha256_read_device signedChar _ ubuf2 32 _
      ⟨hlen, length_sha256 _, hlt, sha256_lt _, Nat.one_lt_two_pow (by decide),
        Nat.one_lt_two_pow (by decide)⟩ (by omega)]
    simp only [Option.map_some', Nat.min_self]
    rw [List.take_of_length_le (by rw [length_sha256])]
    rfl

set_option maxRecDepth 1000000 in
theorem C32_cursor_survives_reset_witness :
    (hashedState.WF ∧ 1 ≤ 32 ∧ min 32 32 ≤ (List.replicate 32 0xAA).length ∧
      (∀ b ∈ [0x68, 0x65, 0x6c, 0x6c, 0x6f], b < 256) ∧
      32 ≤ (List.replicate 32 0xAA).length) ∧
    (sha256_read (ioread8 true) hashedState (List.replicate 32 0xAA) 32 1).bind (fun r0 =>
      (sha256_ioctl true r0.bus SHA256_IOC_RESET true).bind (fun r1 =>
        (sha256_write (iowrite8 true) r1.dev [0x68, 0x65, 0x6c, 0x6c, 0x6f] 5 r0.pos).bind
          (fun r2 => (sha256_ioctl true r2.bus SHA256_IOC_START_HASH true).bind (fun r3 =>
            (sha256_read (ioread8 true) r3.dev (List.replicate 32 0xAA) 32 r2.pos).map
              (fun r4 => (r0.pos, r2.ret, r2.pos, r4.ret, r4.buf)))))) =
      some (32, 5, 37, 32, FIPS.sha256 []) ∧
    ∃ dev2 : SHA256DeviceState,
      (sha256_read (ioread8 true) hashedState (List.replicate 32 0xAA) 32 1).bind (fun r0 =>
        (sha256_ioctl true r0.bus SHA256_IOC_RESET true).bind (fun r1 =>
          (sha256_write (iowrite8 true) r1.dev [0x68, 0x65, 0x6c, 0x6c, 0x6f]
              [0x68, 0x65, 0x6c, 0x6c, 0x6f].length r0.pos).map (fun r2 =>
            (r0.pos, r1.ret, r2.ret, r2.pos, r2.bus)))) =
        some (min 32 32, 0, ((min [0x68, 0x65, 0x6c, 0x6c, 0x6f].length 1024 : Nat) : Int),
          min 32 32 + min [0x68, 0x65, 0x6c, 0x6c, 0x6f].length 1024, dev2) ∧
      (∀ j, j < min 32 32 → dev2.inputBuffer.getD j 0 = 0) ∧
      (∀ i, i < [0x68, 0x65, 0x6c, 0x6c, 0x6f].length → min 32 32 + i < 1024 →
        dev2.inputBuffer.getD (min 32 32 + i) 0 = [0x68, 0x65, 0x6c, 0x6c, 0x6f].getD i 0) ∧
      (sha256_ioctl true dev2 SHA256_IOC_START_HASH true).bind (fun r3 =>
        (sha256_read (ioread8 true) r3.dev (List.replicate 32 0xAA) 32
            (min 32 32 + min [0x68, 0x65, 0x6c, 0x6c, 0x6f].length 1024)).map (fun r4 =>
          (r3.ret, r4.ret, r4.pos, r4.buf))) =
        some (0, 32, 32, FIPS.sha256 [] ++ (List.replicate 32 0xAA).drop 32) ∧
      FIPS.sha256 [] =
        [0xe3, 0xb0, 0xc4, 0x42, 0x98, 0xfc, 0x1c, 0x14, 0x9a, 0xfb, 0xf4, 0xc8, 0x99, 0x6f,
         0xb9, 0x24, 0x27, 0xae, 0x41, 0xe4, 0x64, 0x9b, 0x93, 0x4c, 0xa4, 0x95, 0x99, 0x1b,
         0x78, 0x52, 0xb8, 0x55] :=
  ⟨⟨by decide!, by decide, by decide, by decide, by decide⟩, by decide!,
    C32_cursor_survives_reset true hashedState (List.replicate 32 0xAA)
      (List.replicate 32 0xAA) [0x68, 0x65, 0x6c, 0x6c, 0x6f] 32 1 true true (by decide!)
      (by decide) (by decide) (by decide) (by decide)⟩

/-- C33: driver writes that run past the input window are dropped without a
word.  For every position `c`, every count `n` with
`c + min n 1024 ≤ 0xFF0` (the writes stay inside the register block of the
device) and every user buffer of bytes of which the first `min n 1024` are
accessible, `sha256_write` on the device returns `min n 1024` and moves the
position by as much, whether or not every byte was stored; in the device it
sets `inputBuffer[j]` to `buf[j - c]` for every `j` with
`c ≤ j < min (c + min n 1024) 1024` and leaves every other byte of
`inputBuffer` and all of `outputBuffer`, `control` and `status` as they
were. -/
theorem C33_writes_past_window (signedChar : Bool) (dev : SHA256DeviceState) (buf : List Nat)
    (n c : Nat) (hlen : dev.inputBuffer.length = inputBufferSize)
    (hbuf : min n 1024 ≤ buf.length) (hb : ∀ b ∈ buf, b < 256)
    (hc : c + min n 1024 ≤ 0xFF0) :
    ∃ dev', sha256_write (iowrite8 signedChar) dev buf n c =
        some { ret := ((min n 1024 : Nat) : Int), bus := dev', pos := c + min n 1024 } ∧
      dev'.outputBuffer = dev.outputBuffer ∧ dev'.control = dev.control ∧
      dev'.status = dev.status ∧ dev'.inputBuffer.length = 1024 ∧
      (∀ j, c ≤ j → j < min (c + min n 1024) 1024 →
        dev'.inputBuffer.getD j 0 = buf.getD (j - c) 0) ∧
      (∀ j, ¬ (c ≤ j ∧ j < min (c + min n 1024) 1024) →
        dev'.inputBuffer.getD j 0 = dev.inputBuffer.getD j 0) := by
  have hl : (buf.take (min n 1024)).length = min n 1024 := by
    rw [List.length_take]; omega
  refine ⟨_, sha256_write_clipped signedChar dev buf n c hlen hbuf hb hc, rfl, rfl, rfl,
    clipped_length _ _ c hlen, ?_, ?_⟩
  · intro j h1 h2
    show (dev.inputBuffer.take c ++ (buf.take (min n 1024)).take (1024 - c) ++
      dev.inputBuffer.drop (c + ((buf.take (min n 1024)).take (1024 - c)).length)).getD j 0 = _
    rw [clipped_getD _ _ c hlen j, hl, if_pos ⟨h1, by omega, by omega⟩,
      List.getD_eq_getElem?_getD, List.getD_eq_getElem?_getD,
      List.getElem?_take_of_lt (by omega)]
  · intro j h
    show (dev.inputBuffer.take c ++ (buf.take (min n 1024)).take (1024 - c) ++
      dev.inputBuffer.drop (c + ((buf.take (min n 1024)).take (1024 - c)).length)).getD j 0 = _
    rw [clipped_getD _ _ c hlen j, hl]
    by_cases hj : j < 1024
    · rw [if_neg (by omega)]
    · split
      · omega
      · rfl

set_option maxRecDepth 1000000 in
theorem C33_writes_past_window_witness :
    (sampleState.inputBuffer.length = inputBufferSize ∧
      min 4 1024 ≤ [0x31, 0x32, 0x33, 0x34].length ∧
      (∀ b ∈ [0x31, 0x32, 0x33, 0x34], b < 256) ∧ 1022 + min 4 1024 ≤ 0xFF0) ∧
    (sha256_write (iowrite8 true) sampleState [0x31, 0x32, 0x33, 0x34] 4 1022).map
        (fun r => (r.ret, r.bus, r.pos)) =
      some (4, { sampleState with
                 inputBuffer := [0x61, 0x62, 0x63, 0, 0x7A] ++ List.replicate 1017 0 ++
                   [0x31, 0x32] }, 1026) ∧
    ∃ dev', sha256_write (iowrite8 true) sampleState [0x31, 0x32, 0x33, 0x34] 4 1022 =
        some { ret := ((min 4 1024 : Nat) : Int), bus := dev', pos := 1022 + min 4 1024 } ∧
      dev'.outputBuffer = sampleState.outputBuffer ∧ dev'.control = sampleState.control ∧
      dev'.status = sampleState.status ∧ dev'.inputBuffer.length = 1024 ∧
      (∀ j, 1022 ≤ j → j < min (1022 + min 4 1024) 1024 →
        dev'.inputBuffer.getD j 0 = [0x31, 0x32, 0x33, 0x34].getD (j - 1022) 0) ∧
      (∀ j, ¬ (1022 ≤ j ∧ j < min (1022 + min 4 1024) 1024) →
        dev'.inputBuffer.getD j 0 = sampleState.inputBuffer.getD j 0) :=
  ⟨⟨by decide!, by decide, by decide, by decide⟩, by decide!,
    C33_writes_past_window true sampleState [0x31, 0x32, 0x33, 0x34] 4 1022 (by decide!)
      (by decide) (by decide) (by decide)⟩

end SHA256Accel
